import Mathlib

/-!
# noverify: the expression type tests and the solver contract

The development has three parts.

* `src/linttest/exprtype_test.go` is embedded directly: the helper `makeType`
  with the text format of expected types, the value that `runExprTypeTest`
  compares with it, the generator `exprTypeSources` of the probe functions and
  the visitor `globalsWalker`. Go strings are modelled by Lean `String`; the library
  functions used by the helpers (`strings.HasPrefix`, `strings.TrimPrefix`,
  `strings.Split` with the one-character separator `"|"`) are given on the
  underlying character lists. A Go `map[string]struct{}` is a finite set of
  strings, `Finset String`.
* `src/php/parser/node/expr/n_boolean_not.go` and `n_exit.go` are embedded
  directly: the two node structs, their constructors, position accessors and
  `Walk` methods, over a visitor with explicit state.
* The packages `meta` and `solver`, the reader of type expressions, the type
  normalizer and the inference engine, which the tests call, are not among the
  sources. They are modelled from the specification (§3, §4.L, §4.N, §4.R,
  §4.I, §4.C, §6); every such definition says so. The tables of the tests are
  embedded as they stand, and the theorems compare the model with them.

Definitions come first, theorems after them.
-/

namespace Noverify

/-! ## Go `strings` helpers used by the test file -/

namespace strings

/-- Go `strings.HasPrefix(s, prefix)`: `s` begins with `prefix`. -/
def HasPrefix (s pre : String) : Bool :=
  pre.data.isPrefixOf s.data

/-- Go `strings.TrimPrefix(s, prefix)`: `s` without the leading `prefix`, or `s`
itself when it does not start with `prefix`. -/
def TrimPrefix (s pre : String) : String :=
  if HasPrefix s pre then String.mk (s.data.drop pre.data.length) else s

/-- Pieces of a character list between occurrences of `sep`; never empty. -/
def splitChars (sep : Char) : List Char → List (List Char)
  | [] => [[]]
  | c :: cs =>
    if c = sep then [] :: splitChars sep cs
    else
      match splitChars sep cs with
      | [] => [[c]]
      | p :: ps => (c :: p) :: ps

/-- Go `strings.Split(s, sep)` for a one-character separator: all substrings of
`s` separated by `sep`, in order (a string without `sep` gives `[s]`). -/
def Split (s : String) (sep : Char) : List String :=
  (splitChars sep s.data).map String.mk

end strings

/-! ## `makeType` (exprtype_test.go) -/

/-- Pieces written one after the other with `sep` between neighbours: the text
of which the pieces are the `sep`-separated parts. -/
def joinChars (sep : Char) : List (List Char) → List Char
  | [] => []
  | [p] => p
  | p :: q :: rest => p ++ sep :: joinChars sep (q :: rest)

/-- The struct `testTypesMap`: a precision flag and a set of type names. -/
structure testTypesMap where
  Precise : Bool
  Types : Finset String
  deriving DecidableEq

/-- The loop `for _, t := range ... { res[t] = struct{}{} }` of `makeType`. -/
def insertAll (ts : List String) (res : Finset String) : Finset String :=
  ts.foldl (fun acc t => insert t acc) res

/-- The function `makeType(typ string) testTypesMap`. -/
def makeType (typ : String) : testTypesMap :=
  if typ = "" then
    { Precise := false, Types := ∅ }
  else
    let precise := strings.HasPrefix typ "precise "
    let typ := if precise then strings.TrimPrefix typ "precise " else typ
    { Precise := precise, Types := insertAll (strings.Split typ '|') ∅ }

/-! ## Type expressions and the normalizer (spec §4.L, §4.N)

The reader and the normalizer of the solver are not part of the sources at
hand; the definitions of this section follow the specification text. -/

/-- Modelled from the spec: the type-expression grammar of §4.L, whose parser is
not among the sources. `name` is an `Ident` (keyword or class name, also the
text of an annotation that is not a type), `compound` the verbatim text of a
`shape(...)`, `tuple(...)` or `array<...>` prefix (for which §4.N gives no
rule), `nullable` is `?T`, `union` is `A|B`, `paren` is `(T)`, `array` the
postfix `T[]` and `prefixArray` the legacy `[]T`. -/
inductive TypeExpr where
  | name (id : String)
  | compound (text : String)
  | nullable (t : TypeExpr)
  | union (a b : TypeExpr)
  | paren (t : TypeExpr)
  | array (t : TypeExpr)
  | prefixArray (t : TypeExpr)
  deriving DecidableEq

namespace TypeExpr

/-- Modelled from the spec: the printer of §4.L (the bytes of a type
expression), which is not among the sources. -/
def print : TypeExpr → String
  | name id => id
  | compound text => text
  | nullable t => "?" ++ print t
  | union a b => print a ++ "|" ++ print b
  | paren t => "(" ++ print t ++ ")"
  | array t => print t ++ "[]"
  | prefixArray t => "[]" ++ print t

end TypeExpr

open TypeExpr

/-- Modelled from the spec: alias folding of the normalizer (§4.N), not among
the sources: `integer→int`, `long→int`, `boolean→bool`, `double→float`,
`real→float`. Only a whole identifier is folded, so `\integer` stays a class. -/
def foldAlias (id : String) : String :=
  if id = "integer" ∨ id = "long" then "int"
  else if id = "boolean" then "bool"
  else if id = "double" ∨ id = "real" then "float"
  else id

/-- Modelled from the spec: the alias pairs listed in §4.N and §8. -/
def aliasPairs : List (String × String) :=
  [("integer", "int"), ("long", "int"), ("double", "float"), ("real", "float"),
   ("boolean", "bool")]

/-- Modelled from the spec: characters of an `Ident` of §4.L (letters, digits,
`_`, the namespace separator and `$`); the lexer is not among the sources. -/
def isIdentChar (c : Char) : Bool :=
  c.isAlphanum || c = '_' || c = '\\' || c = '$'

/-- Modelled from the spec: whether a text is an `Ident`; anything else (`-`,
free text) is what §4.N turns into `mixed`. -/
def isIdent (id : String) : Bool :=
  !id.data.isEmpty && id.data.all isIdentChar

/-- Modelled from the spec: the expression that the bytes of `T` followed by
`[]` denote (§4.L): the suffix joins the atom under a leading `?`, so that
`?int` followed by `[]` is the nullable `?int[]`. -/
def pushArray : TypeExpr → TypeExpr
  | nullable t => nullable (pushArray t)
  | t => array t

/-- Modelled from the spec: "rewrite `[]T` prefix-array to `T[]` suffix-array"
(§4.N), applied throughout the expression: the bytes `[]` move from the front
of `T` to its end. -/
def suffixForm : TypeExpr → TypeExpr
  | name id => name id
  | compound text => compound text
  | nullable t => nullable (suffixForm t)
  | union a b => union (suffixForm a) (suffixForm b)
  | paren t => paren (suffixForm t)
  | array t => array (suffixForm t)
  | prefixArray t => pushArray (suffixForm t)

/-- Modelled from the spec: normalization of one atom `Ident[]...[]` (§4.N):
the identifier under the array suffixes is alias-folded, and `array` alone
becomes `mixed[]`. Anything else under the suffixes is left alone. -/
def normSpine : TypeExpr → TypeExpr
  | name id => if id = "array" then array (name "mixed") else name (foldAlias id)
  | array t => array (normSpine t)
  | t => t

/-- Modelled from the spec: a `Prefix Suffix` atom of §4.L without parentheses,
`?` or prefix-array: an identifier or compound prefix under array suffixes. -/
def isSpine : TypeExpr → Bool
  | name _ => true
  | compound _ => true
  | array t => isSpine t
  | _ => false

/-- Modelled from the spec: the members of a bare union (§4.N), with the flag
"a member was written `?T`"; `none` when the expression is not a bare union,
that is, when it nests parentheses or arrays of non-atoms. The `?` of a member
is hoisted, which conflates `(?int)[]` with `?int[]` as §9 requires. -/
def bareUnion : TypeExpr → Option (List TypeExpr × Bool)
  | name id => some ([name id], false)
  | compound text => some ([compound text], false)
  | array t => if isSpine t then some ([array t], false) else none
  | nullable t => (bareUnion t).map fun r => (r.1, true)
  | union a b =>
    match bareUnion a, bareUnion b with
    | some x, some y => some (x.1 ++ y.1, x.2 || y.2)
    | _, _ => none
  | paren _ => none
  | prefixArray _ => none

/-- Modelled from the spec: the element of a top-level `(...)[]` when it is a
bare union (§4.N); `none` for every other array element. -/
def elemMembers : TypeExpr → Option (List TypeExpr × Bool)
  | paren u => bareUnion u
  | _ => none

/-- Modelled from the spec: the top-level lowering of §4.N. The members of
the top-level union are listed in order; `?T` contributes `T` and raises the
nullable flag (`?T` is `T|null`); `(A|B)[]` with a bare union element
distributes to `A[]`, `B[]`; every deeper nesting is left alone. -/
def topMembers : TypeExpr → List TypeExpr × Bool
  | union a b => ((topMembers a).1 ++ (topMembers b).1, (topMembers a).2 || (topMembers b).2)
  | paren t => topMembers t
  | nullable t => ((topMembers t).1, true)
  | array t =>
    match elemMembers t with
    | some r => (r.1.map array, r.2)
    | none => ([array t], false)
  | t => ([t], false)

/-- Modelled from the spec: the lowered members of a type (§4.N), in order:
prefix arrays rewritten, the top level lowered, each atom alias-folded, and
`null` added for a nullable (`?T` is `T|null`). -/
def loweredMembers (t : TypeExpr) : List TypeExpr :=
  (topMembers (suffixForm t)).1.map normSpine ++
    (if (topMembers (suffixForm t)).2 then [name "null"] else [])

/-- Modelled from the spec: "an annotation that is only `-` or free text
becomes `mixed`" (§4.N). -/
def freeTextToMixed : List TypeExpr → List TypeExpr
  | [name id] => if isIdent id then [name id] else [name "mixed"]
  | ms => ms

/-- Modelled from the spec: the atoms of a normalized type (§4.N), in order. -/
def normalMembers (t : TypeExpr) : List TypeExpr :=
  freeTextToMixed (loweredMembers t)

/-- Modelled from the spec: a union written from the list of its members. -/
def joinUnion : List TypeExpr → TypeExpr
  | [] => name "mixed"
  | [t] => t
  | t :: u :: rest => union t (joinUnion (u :: rest))

/-- Modelled from the spec: the Type Normalizer of §4.N, which is not among
the sources: the normalized type expression. -/
def normalize (t : TypeExpr) : TypeExpr :=
  joinUnion (normalMembers t)

/-! ### The reader of type expressions (spec §4.L) and the normalizer on bytes -/

/-- Modelled from the spec: the reader of the bracketed part of a `shape(...)`,
`tuple(...)` or `array<...>` prefix (§4.L), which is not among the sources: the
text up to and including the bracket `c` that closes the bracket open at depth
`depth`, brackets `o` inside being matched, and the text after it. -/
def scanClose (o c : Char) : List Char → Nat → Option (List Char × List Char)
  | [], _ => none
  | x :: xs, depth =>
    if x = c then
      match depth with
      | 0 => some ([x], xs)
      | d + 1 => (scanClose o c xs d).map fun r => (x :: r.1, r.2)
    else if x = o then (scanClose o c xs (depth + 1)).map fun r => (x :: r.1, r.2)
    else (scanClose o c xs depth).map fun r => (x :: r.1, r.2)

/-- Modelled from the spec: the reader of a `Prefix` of §4.L that starts with
an identifier: the longest run of identifier characters is an `Ident`, unless
it is `shape` or `tuple` followed by `(`, or `array` followed by `<`, which
open a compound prefix that is taken verbatim up to the closing bracket. -/
def parsePrefix (cs : List Char) : Option (TypeExpr × List Char) :=
  if cs.takeWhile isIdentChar = [] then none
  else
    match cs.dropWhile isIdentChar with
    | x :: body =>
      if x = '(' ∧ (cs.takeWhile isIdentChar = "shape".data ∨
          cs.takeWhile isIdentChar = "tuple".data) then
        (scanClose '(' ')' body 0).map fun r =>
          (compound (String.mk (cs.takeWhile isIdentChar ++ x :: r.1)), r.2)
      else if x = '<' ∧ cs.takeWhile isIdentChar = "array".data then
        (scanClose '<' '>' body 0).map fun r =>
          (compound (String.mk (cs.takeWhile isIdentChar ++ x :: r.1)), r.2)
      else some (name (String.mk (cs.takeWhile isIdentChar)), x :: body)
    | [] => some (name (String.mk (cs.takeWhile isIdentChar)), [])

/-- Modelled from the spec: the reader of `Suffix := ('[' ']')*` of §4.L: every
`[]` that follows wraps the expression read so far in an array. -/
def parseSuffix : TypeExpr → List Char → TypeExpr × List Char
  | t, x :: y :: cs => if x = '[' ∧ y = ']' then parseSuffix (array t) cs else (t, x :: y :: cs)
  | t, cs => (t, cs)

mutual
/-- Modelled from the spec: the reader of `Union := Atom ('|' Atom)*` of §4.L,
with the recursion depth bounded by the first argument; it returns the
expression and the text left. -/
def parseUnion : Nat → List Char → Option (TypeExpr × List Char)
  | 0, _ => none
  | n + 1, cs =>
    match parseAtom n cs with
    | none => none
    | some (a, rest) =>
      match rest with
      | c :: rest2 =>
        if c = '|' then
          match parseUnion n rest2 with
          | some (u, rest3) => some (union a u, rest3)
          | none => none
        else some (a, rest)
      | [] => some (a, [])
/-- Modelled from the spec: the reader of `Atom` of §4.L: `?` before an atom,
the legacy `[]` before an atom, a parenthesized union or an identifier prefix.
The last two are read with the array suffixes that follow; for the
parenthesized union this is the `(A|B)[]` of §4.N. -/
def parseAtom : Nat → List Char → Option (TypeExpr × List Char)
  | 0, _ => none
  | _ + 1, [] => none
  | n + 1, c :: cs =>
    if c = '?' then (parseAtom n cs).map fun r => (nullable r.1, r.2)
    else if c = '[' then
      match cs with
      | d :: cs2 => if d = ']' then (parseAtom n cs2).map fun r => (prefixArray r.1, r.2) else none
      | [] => none
    else if c = '(' then
      match parseUnion n cs with
      | some (u, d :: cs2) => if d = ')' then some (parseSuffix (paren u) cs2) else none
      | _ => none
    else
      match parsePrefix (c :: cs) with
      | some (b, rest) => some (parseSuffix b rest)
      | none => none
end

/-- Modelled from the spec: the reader of §4.L on the bytes of a type, which
is not among the sources. Every character costs at most two levels of
recursion, so the depth given is enough for every text. A text that is not a
`Type` of the grammar is free text, an identifier that is none (§4.N makes it
`mixed`). -/
def parseType (s : String) : TypeExpr :=
  match parseUnion (2 * s.data.length + 2) s.data with
  | some (t, []) => t
  | _ => name s

/-- Modelled from the spec: the Type Normalizer of §4.N on bytes: the text is
read (§4.L), the expression normalized, and the normalized expression
printed (§4.L). -/
def normalizeText (s : String) : String :=
  (normalize (parseType s)).print

/-- Recursion depth that `parseAtom` needs to read the bytes of an expression
back; `parseUnion` needs one more. -/
def need : TypeExpr → Nat
  | name _ => 1
  | compound _ => 1
  | nullable t => need t + 1
  | prefixArray t => need t + 1
  | array t => need t
  | paren u => need u + 2
  | union a b => max (need a) (need b + 1)

/-- Whether a text is a `shape(...)`, `tuple(...)` or `array<...>` prefix: the
reader takes it whole as one compound prefix. -/
def isCompound (text : String) : Bool :=
  match parsePrefix text.data with
  | some (compound t, []) => t = text
  | _ => false

/-- Whether an expression follows the grammar of §4.L, as every expression
that the reader returns does: at level 0 it is a `Union` (an atom, or an atom
and a union joined by `|`), at level 1 an `Atom`, at level 2 an identifier,
compound or parenthesized prefix under array suffixes. -/
def wellFormed : Nat → TypeExpr → Bool
  | _, name id => isIdent id
  | _, compound text => isCompound text
  | _, paren u => wellFormed 0 u
  | _, array t => wellFormed 2 t
  | 0, union a b => wellFormed 1 a && wellFormed 0 b
  | 0, nullable t => wellFormed 1 t
  | 1, nullable t => wellFormed 1 t
  | 0, prefixArray t => wellFormed 1 t
  | 1, prefixArray t => wellFormed 1 t
  | _, _ => false

/-- The bytes of `j` array suffixes `[]`. -/
def reps : Nat → List Char
  | 0 => []
  | j + 1 => '[' :: ']' :: reps j

/-- What may follow a union in the bytes of a type: nothing, or `)`. -/
def stop0 (rest : List Char) : Prop :=
  rest = [] ∨ ∃ r, rest = ')' :: r

/-- What may follow an atom in the bytes of a type: nothing, `)` or `|`. -/
def stop1 (rest : List Char) : Prop :=
  rest = [] ∨ (∃ r, rest = ')' :: r) ∨ ∃ r, rest = '|' :: r

/-! ## Lazy terms, the symbol index and the resolver (spec §3, §4.R, §6)

The packages `meta` and `solver` are not among the sources; the test file only
calls `meta.Info.GetFunction`, `solver.ResolveTypes` and `IsPrecise`. -/

/-- Modelled from the spec: the lazy type terms of §3 (package `meta`, not
among the sources), all ten kinds in the order of §3. `Static` carries the
parsed type expression. `ElementOf` carries, next to the collection term, the
literal key of the index expression when there is one, which §4.R step 5
asks for ("for shapes indexed by a literal key, the specific field only"). -/
inductive LazyTerm where
  | Static (t : TypeExpr)
  | CallResult (fn : String)
  | MethodResult (cls method : String) (recv : LazyTerm)
  | PropertyOf (cls property : String) (recv : LazyTerm)
  | ClassConst (cls const : String)
  | ElementOf (coll : LazyTerm) (key : Option String)
  | ArrayOf (elem : LazyTerm)
  | LateStatic (anchor : LazyTerm)
  | Instance (e : LazyTerm)
  | AssignRef (place : LazyTerm)
  deriving DecidableEq

/-- Modelled from the spec: `meta.TypesMap` (not among the sources), the value
stored in `fn.Typ`: the lazy terms joined into one union, and the `precise`
flag read by `IsPrecise` (§3, §4.C). -/
structure TypesMap where
  terms : List LazyTerm
  precise : Bool
  deriving DecidableEq

namespace TypesMap

/-- Modelled from the spec: `IsPrecise` of §6. -/
def IsPrecise (m : TypesMap) : Bool := m.precise

/-- Modelled from the spec: union of two type sets (§3, §4.C): the terms of
both, precise only when both are ("any union containing an imprecise term
becomes imprecise"). -/
def Union (a b : TypesMap) : TypesMap :=
  { terms := a.terms ++ b.terms, precise := a.precise && b.precise }

/-- Modelled from the spec: a precise atom, as produced by a literal, a cast or
`new ClassName()` (§4.C). -/
def preciseAtom (id : String) : TypesMap :=
  { terms := [LazyTerm.Static (TypeExpr.name id)], precise := true }

/-- Modelled from the spec: the type of a call expression `fn(...)`: the lazy
term `CallResult(fn)`, which is declaration and not observation, hence
imprecise (§4.C). -/
def callResult (fn : String) : TypesMap :=
  { terms := [LazyTerm.CallResult fn], precise := false }

/-- Modelled from the spec: the union of a non-empty list of members, the first
member joined with the rest in order. -/
def unionAll (m : TypesMap) : List TypesMap → TypesMap
  | [] => m
  | n :: rest => Union m (unionAll n rest)

end TypesMap

/-- Modelled from the spec: `FunctionInfo` of §6 (package `meta`, not among the
sources), reduced to the return type record `Typ` read by the tests. -/
structure FunctionInfo where
  Typ : TypesMap
  deriving DecidableEq

/-- Modelled from the spec: `ClassInfo` of §6: the parent FQN (empty when
there is none), the methods map, the properties map, the `@property`
annotations of the class (§4.R step 4), the constants map and the flag
`ClassShape`; a shape or tuple is a class with this flag whose properties are
its fields (§3). The maps that a class does not fill are empty. -/
structure ClassInfo where
  Parent : String
  Methods : List (String × FunctionInfo)
  Properties : List (String × TypesMap) := []
  MagicProperties : List (String × TypesMap) := []
  Constants : List (String × TypesMap) := []
  ClassShape : Bool := false
  deriving DecidableEq

/-- Modelled from the spec: the read-only symbol index of §6 (`meta.Info`, not
among the sources): finite maps of functions and classes by FQN. -/
structure Index where
  Functions : List (String × FunctionInfo)
  Classes : List (String × ClassInfo)
  deriving DecidableEq

/-- Modelled from the spec: `GetFunction(fqn) → optional<FunctionInfo>` (§6). -/
def Index.GetFunction (idx : Index) (fqn : String) : Option FunctionInfo :=
  idx.Functions.lookup fqn

/-- Modelled from the spec: `GetClass(fqn) → optional<ClassInfo>` (§6). -/
def Index.GetClass (idx : Index) (fqn : String) : Option ClassInfo :=
  idx.Classes.lookup fqn

/-- Modelled from the spec: the class-hierarchy walk of §4.R, child to root,
first definition found; at most `n` classes are visited. -/
def findMethodFrom (idx : Index) : Nat → String → String → Option FunctionInfo
  | 0, _, _ => none
  | n + 1, cls, m =>
    match idx.GetClass cls with
    | none => none
    | some ci =>
      match ci.Methods.lookup m with
      | some fi => some fi
      | none => if ci.Parent = "" then none else findMethodFrom idx n ci.Parent m

/-- Modelled from the spec: method lookup of §4.R. A parent chain without
repetition has at most as many classes as the index, so that many steps reach
every definition there is. -/
def findMethod (idx : Index) (cls m : String) : Option FunctionInfo :=
  findMethodFrom idx idx.Classes.length cls m

/-- Modelled from the spec: the class-hierarchy walk of §4.R over one of the
member maps of a class (properties, `@property` annotations, constants), child
to root, first definition found; at most `n` classes are visited. -/
def findMemberFrom (idx : Index) (sel : ClassInfo → List (String × TypesMap)) :
    Nat → String → String → Option TypesMap
  | 0, _, _ => none
  | n + 1, cls, m =>
    match idx.GetClass cls with
    | none => none
    | some ci =>
      match (sel ci).lookup m with
      | some ty => some ty
      | none => if ci.Parent = "" then none else findMemberFrom idx sel n ci.Parent m

/-- Modelled from the spec: property lookup of §4.R step 4, "identical to
MethodResult but over property declarations. Magic `@property` annotations on
the class are consulted when no real property exists." -/
def findProperty (idx : Index) (cls p : String) : Option TypesMap :=
  match findMemberFrom idx (fun ci => ci.Properties) idx.Classes.length cls p with
  | some ty => some ty
  | none => findMemberFrom idx (fun ci => ci.MagicProperties) idx.Classes.length cls p

/-- Modelled from the spec: lookup of a class constant in the constants map of
the class and of its ancestors (§3, §6). -/
def findConstant (idx : Index) (cls c : String) : Option TypesMap :=
  findMemberFrom idx (fun ci => ci.Constants) idx.Classes.length cls c

/-- Modelled from the spec: whether a class is flagged `ClassShape` (§6). -/
def isShape (idx : Index) (cls : String) : Bool :=
  match idx.GetClass cls with
  | some ci => ci.ClassShape
  | none => false

/-- Modelled from the spec: the field types of a shape or tuple atom (§4.R
step 5): all of them, or with a literal key the field of that key only;
`none` when the atom is not a shape. -/
def shapeFields (idx : Index) (a : String) (key : Option String) : Option (List LazyTerm) :=
  match idx.GetClass a with
  | none => none
  | some ci =>
    if ci.ClassShape then
      match key with
      | none => some (ci.Properties.map fun f => f.2.terms).flatten
      | some k => some ((ci.Properties.filter fun f => f.1 = k).map fun f => f.2.terms).flatten
    else none

/-- Modelled from the spec: "merge all contributing sources into one Type Set"
(§4.R): the results of `f` on the members, one after the other; undefined when
one of them is. -/
def collect {α : Type} (f : α → Option (List String)) : List α → Option (List String)
  | [] => some []
  | a :: rest =>
    match f a, collect f rest with
    | some x, some y => some (x ++ y)
    | _, _ => none

/-- Modelled from the spec: an array atom of the text format, `T[]` (§6). -/
def isArrayAtom (a : String) : Bool :=
  "[]".data.isSuffixOf a.data

/-- Modelled from the spec: a class atom of the text format: a fully qualified
name starting with `\` (§3, §6). -/
def isClassAtom (a : String) : Bool :=
  a.data.head? = some '\\' && !isArrayAtom a

/-- Modelled from the spec: "`static` and `$this` within m expand to the actual
class of recv" (§4.R step 3): the identifier under the array suffixes of an atom
is replaced by the context class, when there is one. -/
def bindStatic (ctx : String) : TypeExpr → TypeExpr
  | name id => if (id = "static" ∨ id = "$this") ∧ ctx ≠ "" then name ctx else name id
  | array t => array (bindStatic ctx t)
  | t => t

/-- Modelled from the spec: resolution of a `Static` term (§4.R step 1): the
atoms of the normalized type, printed in the text format. -/
def staticAtoms (ctx : String) (t : TypeExpr) : List String :=
  (normalMembers t).map fun m => (bindStatic ctx m).print

/-- Modelled from the spec: the element of an array atom `X[]` of the text
format, `X` (§4.R step 5). -/
def elemAtom (a : String) : String :=
  String.mk (a.data.take (a.data.length - 2))

/-- Modelled from the spec: `mixed` with as many array suffixes as the atom has,
at most `n`. -/
def mixedOfFrom : Nat → String → String
  | 0, _ => "mixed"
  | n + 1, a => if isArrayAtom a then mixedOfFrom n (elemAtom a) ++ "[]" else "mixed"

/-- Modelled from the spec: "`mixed` of the declared shape" (§3, `AssignRef`):
`mixed` with the array suffixes of the atom. -/
def mixedOf (a : String) : String :=
  mixedOfFrom a.data.length a

/-- Modelled from the spec: the resolver of §4.R (`solver`, not among the
sources) on one lazy term, with the recursion depth bounded by the first
argument (`none` when the bound is hit). A term in the visited set contributes
nothing (step 7); `Static` gives the atoms of its type (step 1); `CallResult`
merges the return terms of the function (step 2) and `MethodResult` those of
the method found in the hierarchy, once for every class atom of the receiver
and with that class as context (step 3). `PropertyOf` does the same over
property declarations and is `mixed` on a class flagged `ClassShape` (step 4);
`ClassConst` merges the terms of the constant. `ElementOf` resolves the
collection and gives `X` for an atom `X[]`, the field types for a shape or
tuple atom and `mixed` for any other atom (step 5); `ArrayOf` gives `X[]` for
every atom `X` of its element. `LateStatic` and `Instance` resolve their
operand and return each class atom (step 6, §3); `AssignRef` lowers every atom
of the place to `mixed` of its shape (§3). A term that is resolved through
terms recorded in the index is added to the visited set. An unknown function,
method, property or constant is `mixed` (§7). -/
def resolveTerm (idx : Index) : Nat → String → LazyTerm → List LazyTerm → Option (List String)
  | 0, _, _, _ => none
  | fuel + 1, ctx, t, visited =>
    if t ∈ visited then some []
    else
      match t with
      | .Static te => some (staticAtoms ctx te)
      | .ArrayOf e => (resolveTerm idx fuel ctx e visited).map fun r => r.map (· ++ "[]")
      | .CallResult fn =>
        match idx.GetFunction fn with
        | none => some ["mixed"]
        | some fi => collect (fun s => resolveTerm idx fuel ctx s (t :: visited)) fi.Typ.terms
      | .MethodResult cls m recv =>
        match resolveTerm idx fuel ctx recv visited with
        | none => none
        | some rs =>
          match findMethod idx cls m with
          | none => some ["mixed"]
          | some fi =>
            collect
              (fun k => collect (fun s => resolveTerm idx fuel k s (t :: visited)) fi.Typ.terms)
              (rs.filter isClassAtom)
      | .PropertyOf cls p recv =>
        match resolveTerm idx fuel ctx recv visited with
        | none => none
        | some rs =>
          if isShape idx cls then some ["mixed"]
          else
            match findProperty idx cls p with
            | none => some ["mixed"]
            | some ty =>
              collect
                (fun k => collect (fun s => resolveTerm idx fuel k s (t :: visited)) ty.terms)
                (rs.filter isClassAtom)
      | .ClassConst cls c =>
        match findConstant idx cls c with
        | none => some ["mixed"]
        | some ty => collect (fun s => resolveTerm idx fuel ctx s (t :: visited)) ty.terms
      | .ElementOf coll key =>
        match resolveTerm idx fuel ctx coll visited with
        | none => none
        | some rs =>
          collect
            (fun a =>
              if isArrayAtom a then some [elemAtom a]
              else
                match shapeFields idx a key with
                | some fields =>
                  collect (fun s => resolveTerm idx fuel ctx s (t :: visited)) fields
                | none => some ["mixed"])
            rs
      | .LateStatic anchor =>
        (resolveTerm idx fuel ctx anchor visited).map fun r => r.filter isClassAtom
      | .Instance e =>
        (resolveTerm idx fuel ctx e visited).map fun r => r.filter isClassAtom
      | .AssignRef place =>
        (resolveTerm idx fuel ctx place visited).map fun r => r.map mixedOf

/-- Modelled from the spec: post-processing of §4.R step 8: an empty result is
`mixed`; `empty_array` is dropped next to other array atoms and is `mixed[]`
when it is the only array-flavoured atom. -/
def postProcess (s : List String) : List String :=
  if s = [] then ["mixed"]
  else if "empty_array" ∈ s then
    if s.any isArrayAtom then s.filter (· ≠ "empty_array")
    else s.map fun a => if a = "empty_array" then "mixed[]" else a
  else s

/-- Number of constructors of a lazy term. -/
def LazyTerm.size : LazyTerm → Nat
  | .Static _ => 1
  | .CallResult _ => 1
  | .MethodResult _ _ recv => recv.size + 1
  | .PropertyOf _ _ recv => recv.size + 1
  | .ClassConst _ _ => 1
  | .ElementOf coll _ => coll.size + 1
  | .ArrayOf e => e.size + 1
  | .LateStatic anchor => anchor.size + 1
  | .Instance e => e.size + 1
  | .AssignRef place => place.size + 1

/-- The terms occurring in a lazy term that are resolved through terms
recorded in the index (`CallResult`, `MethodResult`, `PropertyOf`,
`ClassConst`, `ElementOf`): the terms that resolution can add to the visited
set. -/
def LazyTerm.calls : LazyTerm → List LazyTerm
  | .Static _ => []
  | .CallResult fn => [.CallResult fn]
  | .MethodResult cls m recv => .MethodResult cls m recv :: recv.calls
  | .PropertyOf cls p recv => .PropertyOf cls p recv :: recv.calls
  | .ClassConst cls c => [.ClassConst cls c]
  | .ElementOf coll key => .ElementOf coll key :: coll.calls
  | .ArrayOf e => e.calls
  | .LateStatic anchor => anchor.calls
  | .Instance e => e.calls
  | .AssignRef place => place.calls

/-- All terms recorded for a class: the return terms of its methods and the
terms of its properties, `@property` annotations and constants. -/
def ClassInfo.terms (ci : ClassInfo) : List LazyTerm :=
  (ci.Methods.map fun p => p.2.Typ.terms).flatten ++
  ((ci.Properties.map fun p => p.2.terms).flatten ++
  ((ci.MagicProperties.map fun p => p.2.terms).flatten ++
  (ci.Constants.map fun p => p.2.terms).flatten))

/-- All terms recorded in the index, of functions and of classes. -/
def Index.returnTerms (idx : Index) : List LazyTerm :=
  (idx.Functions.map fun p => p.2.Typ.terms).flatten ++
  (idx.Classes.map fun c => c.2.terms).flatten

/-- Largest size among the given terms. -/
def maxSize (ts : List LazyTerm) : Nat :=
  (ts.map LazyTerm.size).foldr max 0

/-- All call terms of the given terms. -/
def allCalls (ts : List LazyTerm) : List LazyTerm :=
  (ts.map LazyTerm.calls).flatten

/-- A recursion depth that resolution of `typ` against `idx` never exceeds:
every call term can enter the visited set once, and between two entries the
recursion descends through one term. -/
def budget (idx : Index) (typ : List LazyTerm) : Nat :=
  maxSize (typ ++ idx.returnTerms) +
    (allCalls (typ ++ idx.returnTerms)).length * (maxSize (typ ++ idx.returnTerms) + 1) + 1

/-- Modelled from the spec: `ResolveTypes(contextClass, lazyTerm, visitedSet) →
TypeSet` of §6 (`solver.ResolveTypes`, not among the sources): the members of
the type are resolved and merged, the result post-processed; the Go map is the
set of its keys. -/
def ResolveTypes (idx : Index) (contextClass : String) (typ : List LazyTerm)
    (visited : List LazyTerm) : Finset String :=
  match collect (fun t => resolveTerm idx (budget idx typ) contextClass t visited) typ with
  | some s => (postProcess s).toFinset
  | none => ∅

/-- The value `have` that `runExprTypeTest` compares with `makeType(...)`:
`Types` from `solver.ResolveTypes("", fn.Typ, ...)` and `Precise` from
`fn.Typ.IsPrecise()`. -/
def resolvedValue (idx : Index) (typ : TypesMap) : testTypesMap :=
  { Types := ResolveTypes idx "" typ.terms [], Precise := typ.IsPrecise }

/-- The number of the given call terms that are not in the visited set: how
many more terms resolution can still enter. -/
def unvisited (calls visited : List LazyTerm) : Nat :=
  (calls.toFinset.filter fun c => c ∉ visited).card

/-! ## Symbol tables of the tests -/

/-- Modelled from the spec: the record of a function whose return type comes
from its `@return` annotation alone (§4.R step 2a); a declaration is not
precise (§4.C). -/
def declared (t : TypeExpr) : FunctionInfo :=
  { Typ := { terms := [.Static t], precise := false } }

/-- Modelled from the spec: the symbol table that the indexer (not among the
sources) records for the alias functions of `TestExprTypeFixes` (bodies are
empty, the return type is the `@return` annotation), with a function annotated
`@return int` next to them. -/
def fixesIndex : Index :=
  { Functions := [
      ("\\alias_real", declared (name "real")),
      ("\\alias_double", declared (name "double")),
      ("\\alias_integer", declared (name "integer")),
      ("\\alias_long", declared (name "long")),
      ("\\alias_boolean", declared (name "boolean")),
      ("\\plain_int", declared (name "int"))],
    Classes := [] }

/-- Modelled from the spec: the symbol table that the indexer (not among the
sources) records for the mutually recursive functions of
`TestExprTypeFunction`: `recur1` returns `0` or `recur2($cond)`, `recur2`
returns `""` or `recur1($cond)`; `recur3`, `recur4` and `recur5` only call each
other in a ring. The return terms of a function are joined into one union
(§4.I). -/
def functionIndex : Index :=
  { Functions := [
      ("\\recur1", ⟨(TypesMap.preciseAtom "int").Union (TypesMap.callResult "\\recur2")⟩),
      ("\\recur2", ⟨(TypesMap.preciseAtom "string").Union (TypesMap.callResult "\\recur1")⟩),
      ("\\recur3", ⟨TypesMap.callResult "\\recur4"⟩),
      ("\\recur4", ⟨TypesMap.callResult "\\recur5"⟩),
      ("\\recur5", ⟨TypesMap.callResult "\\recur3"⟩)],
    Classes := [] }

/-- Modelled from the spec: the symbol table that the indexer (not among the
sources) records for `TestExprTypeMulti`: the function `get_mixed`, annotated
`@return mixed`. -/
def multiIndex : Index :=
  { Functions := [("\\get_mixed", declared (name "mixed"))], Classes := [] }

/-- Modelled from the spec: whether an atom names `static` or `$this` under
its array suffixes, the identifiers that §4.R step 3 binds to the receiver's
class. -/
def mentionsStatic : TypeExpr → Bool
  | name id => id = "static" || id = "$this"
  | array t => mentionsStatic t
  | _ => false

/-- Modelled from the spec: the symbol table that the indexer (not among the
sources) records for the classes of `TestExprTypeLateStaticBinding`, with the
three methods the hierarchy property names. `Base::getStatic` is `@return static` with body
`return $this` (the declaring class, there being no binding evidence in the
body), `Base::getStaticArray` is `@return static[]` with body `return []` (the
`empty_array` atom), `Base::newStatic` returns `new static()`. `Derived`
extends `Base` and `DerivedDerived` extends `Derived`; neither overrides the
three methods. -/
def lsbIndex : Index :=
  { Functions := [],
    Classes := [
      ("\\Base", { Parent := "", Methods := [
          ("getStatic",
            ⟨{ terms := [.Static (name "static"), .Static (name "\\Base")], precise := false }⟩),
          ("getStaticArray",
            ⟨{ terms := [.Static (array (name "static")), .Static (name "empty_array")],
               precise := false }⟩),
          ("newStatic", ⟨TypesMap.preciseAtom "static"⟩)] }),
      ("\\Derived", { Parent := "\\Base", Methods := [] }),
      ("\\DerivedDerived", { Parent := "\\Derived", Methods := [] })] }

/-- Modelled from the spec: the term `MethodResult(C, m, recv)` of a call of
`m` on an instance of class `C` (§3). -/
def methodOn (cls m : String) : LazyTerm :=
  .MethodResult cls m (.Static (name cls))

/-! ## The inference engine (spec §4.I, §4.C)

The code that walks function bodies and types expressions is not among the
sources. The definitions of this section follow the words of the
specification; the expectations of `exprtype_test.go` are compared with them
in the theorems. -/

/-- Modelled from the spec: the unary operators of §6 that
`TestExprTypeSimple` exercises: `-e`, `+e`, `~e`. -/
inductive UnaryOp where
  | minus
  | plus
  | bitwiseNot
  deriving DecidableEq

/-- Modelled from the spec: the binary operators of §6 that the tests
exercise: `+`, `<<`, `&`, `|`, `^`, `.`, `&&`, `||`, `>`. -/
inductive BinaryOp where
  | plus
  | shiftLeft
  | bitwiseAnd
  | bitwiseOr
  | bitwiseXor
  | concat
  | booleanAnd
  | booleanOr
  | greater
  deriving DecidableEq

/-- Modelled from the spec: the expressions of §6 that the claims on
precision and on variables speak of: a scalar literal (with the name of its
type), a cast, `new C()`, a variable, a call, a unary and a binary operation,
and the ternary. The parser is not among the sources. -/
inductive PhpExpr where
  | lit (ty : String)
  | cast (ty : String) (e : PhpExpr)
  | newObject (cls : String)
  | var (v : String)
  | call (fn : String)
  | unary (op : UnaryOp) (e : PhpExpr)
  | binary (op : BinaryOp) (l r : PhpExpr)
  | ternary (c a b : PhpExpr)
  deriving DecidableEq

namespace TypesMap

/-- Modelled from the spec: an atom that comes from a declaration or from
inference and not from observation, hence imprecise (§4.C). -/
def declaredAtom (id : String) : TypesMap :=
  { terms := [LazyTerm.Static (TypeExpr.name id)], precise := false }

/-- Modelled from the spec: the type set without information (§3), which
resolves to `mixed`. -/
def unknown : TypesMap :=
  { terms := [], precise := false }

/-- Modelled from the spec: whether a type set is the single atom `id`. -/
def Is (m : TypesMap) (id : String) : Bool :=
  m.terms = [LazyTerm.Static (TypeExpr.name id)]

end TypesMap

/-- Modelled from the spec: the atom of a unary operation. The specification
leaves it to the source language: a sign keeps `int` and gives `float`
otherwise, bitwise not keeps `string` and gives `int` otherwise. -/
def unaryAtom (op : UnaryOp) (e : TypesMap) : String :=
  match op with
  | .minus => if e.Is "int" then "int" else "float"
  | .plus => if e.Is "int" then "int" else "float"
  | .bitwiseNot => if e.Is "string" then "string" else "int"

/-- Modelled from the spec: the type of a unary operation (§4.C); the
expression typer is not among the sources. "A bitwise/arithmetic/logical
operation between precise operands produces a precise atom": the result is
precise when the operand is, the specification naming no other source of
precision. -/
def unaryType (op : UnaryOp) (e : TypesMap) : TypesMap :=
  { terms := [LazyTerm.Static (TypeExpr.name (unaryAtom op e))], precise := e.precise }

/-- Modelled from the spec: the atom of a binary operation. The specification
leaves it to the source language: a shift is an `int`, a concatenation a
`string`, a logical operation or a comparison a `bool`; `+` gives `int` for two
`int` operands and `float` otherwise, and `&`, `|`, `^` give `string` for two
`string` operands and `int` otherwise. -/
def binaryAtom (op : BinaryOp) (l r : TypesMap) : String :=
  match op with
  | .shiftLeft => "int"
  | .concat => "string"
  | .booleanAnd => "bool"
  | .booleanOr => "bool"
  | .greater => "bool"
  | .plus => if l.Is "int" && r.Is "int" then "int" else "float"
  | .bitwiseAnd => if l.Is "string" && r.Is "string" then "string" else "int"
  | .bitwiseOr => if l.Is "string" && r.Is "string" then "string" else "int"
  | .bitwiseXor => if l.Is "string" && r.Is "string" then "string" else "int"

/-- Modelled from the spec: the type of a binary operation (§4.C); the
expression typer is not among the sources. "A bitwise/arithmetic/logical
operation between precise operands produces a precise atom": the result is
precise when both operands are, the specification naming no other source of
precision. -/
def binaryType (op : BinaryOp) (l r : TypesMap) : TypesMap :=
  { terms := [LazyTerm.Static (TypeExpr.name (binaryAtom op l r))],
    precise := l.precise && r.precise }

/-- Modelled from the spec: `meta.ScopeVar`, the variable record of §4.I: the
current type set and the `NoReplace` flag. -/
structure ScopeVar where
  Typ : TypesMap
  NoReplace : Bool
  deriving DecidableEq

/-- Modelled from the spec: the per-scope map from variable name to variable
record (§4.I). -/
abbrev Scope := String → Option ScopeVar

/-- Modelled from the spec: the scope without variables. -/
def Scope.empty : Scope := fun _ => none

/-- Modelled from the spec: the scope with the record of `v` set to `r`. -/
def Scope.set (sc : Scope) (v : String) (r : ScopeVar) : Scope :=
  fun w => if w = v then some r else sc w

/-- Modelled from the spec: the type of an expression in a scope (§4.I, §4.C).
A literal, a cast (to the canonical name of its type) and `new C()` are precise
atoms; a variable has the type recorded in the scope, and no information when
there is no record; a call is the lazy term `CallResult`; the ternary is the
union of its branches. -/
def exprType (sc : Scope) : PhpExpr → TypesMap
  | .lit ty => TypesMap.preciseAtom ty
  | .cast ty _ => TypesMap.preciseAtom (foldAlias ty)
  | .newObject cls => TypesMap.preciseAtom cls
  | .var v =>
    match sc v with
    | some r => r.Typ
    | none => TypesMap.unknown
  | .call fn => TypesMap.callResult fn
  | .unary op e => unaryType op (exprType sc e)
  | .binary op l r => binaryType op (exprType sc l) (exprType sc r)
  | .ternary _ a b => (exprType sc a).Union (exprType sc b)

/-- Modelled from the spec: the statements of a function body that §4.I gives a
rule for: any statement without effect on types (`skip`), an assignment to a
variable, a `@var T $v` annotation on a local, an `if` block, `return EXPR`,
the bare `return;`, `throw`, and sequencing. -/
inductive Stmt where
  | skip
  | assign (v : String) (e : PhpExpr)
  | varDoc (v : String) (t : TypeExpr)
  | ifThen (cond : PhpExpr) (body : Stmt)
  | ret (e : PhpExpr)
  | retBare
  | throwStmt
  | seq (a b : Stmt)
  deriving DecidableEq

/-- Modelled from the spec: an assignment of a value of type `t` to `v`
(§4.I); the inference engine is not among the sources. With the `NoReplace`
flag "subsequent assignments union into it rather than overwriting", and
"without the flag, reassignment unions the new term with the previous one
across the whole function body": in both cases the assigned type is unioned
into the recorded one and the flag stays as it is. A variable without a record
gets the assigned type, without the flag. -/
def assignVar (sc : Scope) (v : String) (t : TypesMap) : Scope :=
  match sc v with
  | some r =>
    if r.NoReplace then sc.set v { Typ := r.Typ.Union t, NoReplace := true }
    else sc.set v { Typ := r.Typ.Union t, NoReplace := false }
  | none => sc.set v { Typ := t, NoReplace := false }

/-- Modelled from the spec: the record of a local annotated `@var T $v`
(§4.I): the declared type, not precise, with the `NoReplace` flag set. -/
def annotatedVar (t : TypeExpr) : ScopeVar :=
  { Typ := { terms := [.Static t], precise := false }, NoReplace := true }

/-- Modelled from the spec: the state of the walk over one function body
(§4.I): the scope, the types of the `return EXPR` statements seen so far in
source order, and whether a bare `return;` was seen. -/
structure FnState where
  scope : Scope
  returns : List TypesMap
  bareReturn : Bool

/-- Modelled from the spec: the walk over a function body (§4.I), statement by
statement in source order. "The solver is not flow-sensitive": the statements
of an `if` block are walked like the statements around it. -/
def walkStmt : Stmt → FnState → FnState
  | .skip, st => st
  | .assign v e, st => { st with scope := assignVar st.scope v (exprType st.scope e) }
  | .varDoc v t, st => { st with scope := st.scope.set v (annotatedVar t) }
  | .ifThen _ body, st => walkStmt body st
  | .ret e, st => { st with returns := st.returns ++ [exprType st.scope e] }
  | .retBare, st => { st with bareReturn := true }
  | .throwStmt, st => st
  | .seq a b, st => walkStmt b (walkStmt a st)

/-- Modelled from the spec: return-statement unification (§4.I): "all
`return` terms in one function join into a single union term recorded against
the function symbol. `throw` and infinite loops contribute nothing; bare
`return;` contributes `null`." The members of the union are the types of the
`return EXPR` statements in source order, then `null` when a bare `return;`
was seen; without any member there is no information. -/
def FnState.returnType (st : FnState) : TypesMap :=
  match st.returns ++ (if st.bareReturn then [TypesMap.declaredAtom "null"] else []) with
  | [] => TypesMap.unknown
  | t :: ts => TypesMap.unionAll t ts

/-- Modelled from the spec: the function record that the walk over a body
leaves in the symbol table (§4.I), from the scope of the parameters. -/
def inferFunction (params : Scope) (body : Stmt) : FunctionInfo :=
  { Typ := (walkStmt body { scope := params, returns := [], bareReturn := false }).returnType }

/-- Modelled from the spec: the symbol table without symbols. -/
def emptyIndex : Index :=
  { Functions := [], Classes := [] }

/-- Modelled from the spec: the symbol table that the indexer (not among the
sources) records for `TestExprTypeScopeNoreplace`: `phpdoc_param($v)` with
`@param string $v` and body `$v = 10; return $v;`, `phpdoc_localvar()` with
body `/** @var string $x */ $x = '123'; $x = 10; return $x;`, and `localvar()`
with the same body without the annotation. -/
def scopeIndex : Index :=
  { Functions := [
      ("\\phpdoc_param",
        inferFunction
          (Scope.empty.set "$v" { Typ := TypesMap.declaredAtom "string", NoReplace := false })
          (.seq (.assign "$v" (.lit "int")) (.ret (.var "$v")))),
      ("\\phpdoc_localvar",
        inferFunction Scope.empty
          (.seq (.varDoc "$x" (name "string"))
            (.seq (.assign "$x" (.lit "string"))
              (.seq (.assign "$x" (.lit "int")) (.ret (.var "$x")))))),
      ("\\localvar",
        inferFunction Scope.empty
          (.seq (.assign "$x" (.lit "string"))
            (.seq (.assign "$x" (.lit "int")) (.ret (.var "$x")))))],
    Classes := [] }

/-- Modelled from the spec: the symbol table that the indexer (not among the
sources) records for functions of `TestExprTypeFunction` and
`TestExprTypeVoid`: `bare_ret1` (`if ($cond) { return; } return 10;`),
`bare_ret2` (`if ($cond) { return 10; } return;`), `throw1`
(`if ($cond) { return 10; } throw new Exception();`) and `void_func2`
(`return;`). -/
def returnIndex : Index :=
  { Functions := [
      ("\\bare_ret1",
        inferFunction Scope.empty (.seq (.ifThen (.var "$cond") .retBare) (.ret (.lit "int")))),
      ("\\bare_ret2",
        inferFunction Scope.empty (.seq (.ifThen (.var "$cond") (.ret (.lit "int"))) .retBare)),
      ("\\throw1",
        inferFunction Scope.empty
          (.seq (.ifThen (.var "$cond") (.ret (.lit "int"))) .throwStmt)),
      ("\\void_func2", inferFunction Scope.empty .retBare)],
    Classes := [] }

/-- Modelled from the spec: the state at the start of a walk over a body
without parameters. -/
def FnState.start : FnState :=
  { scope := Scope.empty, returns := [], bareReturn := false }

/-! ## The nodes `expr.BooleanNot` and `expr.Exit` (php/parser/node/expr)

The packages `position`, `freefloating`, `node` and `walker` are imported by
the two node files but declared elsewhere. Their types are given here as far
as the node code uses them. A Go pointer that may be nil is an `Option`; the
interface `node.Node` is either nil or a node of some kind. A visitor has
state (the receiver of `EnterNode` and `LeaveNode`), which is passed
explicitly, and a walk returns the visitor calls it made, in order, with the
final state, or `none` when it fails (a method call on a nil interface). -/

namespace position

/-- The struct `position.Position` that `*position.Position` points to, with
the fields the parser tests fill in. -/
structure Position where
  StartLine : Int
  EndLine : Int
  StartPos : Int
  EndPos : Int
  deriving DecidableEq

end position

namespace freefloating

/-- The type `freefloating.Collection`, a Go map the node code stores and never
inspects; `none` is the nil map. -/
abbrev Collection := Option (List (Nat × List String))

end freefloating

namespace expr

/-- The struct `BooleanNot` of `n_boolean_not.go`; `N` is the interface type
`node.Node` of the field `Expr`. -/
structure BooleanNot (N : Type) where
  FreeFloating : freefloating.Collection
  Position : Option position.Position
  Expr : N

/-- The struct `Exit` of `n_exit.go`; `N` is the interface type `node.Node` of
the field `Expr`. -/
structure Exit (N : Type) where
  FreeFloating : freefloating.Collection
  Die : Bool
  Position : Option position.Position
  Expr : N

end expr

namespace node

/-- A value of the interface `node.Node`: nil, a `*expr.BooleanNot`, a
`*expr.Exit`, or a node of another kind (the other node files are not among
the sources; such a node is identified by the name of its kind and a
number). -/
inductive Node where
  | nil
  | BooleanNot (n : expr.BooleanNot Node)
  | Exit (n : expr.Exit Node)
  | other (kind : String) (id : Nat)

/-- The test `x == nil` on an interface value. -/
def Node.isNil : Node → Bool
  | .nil => true
  | _ => false

end node

namespace walker

/-- A call of a visitor method, with its argument. -/
inductive Call where
  | EnterNode (w : node.Node)
  | LeaveNode (w : node.Node)

/-- The interface `walker.Visitor`, as its use in the node files and its
implementation `globalsWalker` show it: `EnterNode(w) bool` and `LeaveNode(w)`,
both on a receiver with state `σ`. -/
structure Visitor (σ : Type) where
  EnterNode : σ → node.Node → Bool × σ
  LeaveNode : σ → node.Node → σ

/-- Outcome of a walk: the visitor calls made, in order, and the final visitor
state; `none` when the walk fails. -/
abbrev Run (σ : Type) := Option (List Call × σ)

end walker

namespace expr

/-- The constructor `NewBooleanNot(Expression node.Node) *BooleanNot`; the field
`Position` is not set and keeps the zero value nil. -/
def NewBooleanNot {N : Type} (Expression : N) : BooleanNot N :=
  { FreeFloating := none, Position := none, Expr := Expression }

/-- The method `(n *BooleanNot) SetPosition(p *position.Position)`. -/
def BooleanNot.SetPosition {N : Type} (n : BooleanNot N) (p : Option position.Position) :
    BooleanNot N :=
  { n with Position := p }

/-- The method `(n *BooleanNot) GetPosition() *position.Position`. -/
def BooleanNot.GetPosition {N : Type} (n : BooleanNot N) : Option position.Position :=
  n.Position

/-- The constructor `NewExit(Expr node.Node) *Exit`; the fields `Die` and
`Position` are not set and keep the zero values false and nil. -/
def NewExit {N : Type} (Expr : N) : Exit N :=
  { FreeFloating := none, Die := false, Position := none, Expr := Expr }

/-- The method `(n *Exit) SetPosition(p *position.Position)`. -/
def Exit.SetPosition {N : Type} (n : Exit N) (p : Option position.Position) : Exit N :=
  { n with Position := p }

/-- The method `(n *Exit) GetPosition() *position.Position`. -/
def Exit.GetPosition {N : Type} (n : Exit N) : Option position.Position :=
  n.Position

end expr

mutual

/-- The method `(n *BooleanNot) Walk(v walker.Visitor)`. `others` is the `Walk`
of the node kinds whose files are not among the sources. -/
def expr.BooleanNot.Walk {σ : Type} (others : String → Nat → σ → walker.Run σ)
    (v : walker.Visitor σ) (n : expr.BooleanNot node.Node) (s : σ) : walker.Run σ :=
  let r := v.EnterNode s (.BooleanNot n)
  if !r.1 then
    some ([.EnterNode (.BooleanNot n)], r.2)
  else
    match (if !n.Expr.isNil then node.Node.Walk others v n.Expr r.2 else some ([], r.2)) with
    | none => none
    | some (calls, s2) =>
      some (.EnterNode (.BooleanNot n) :: calls ++ [.LeaveNode (.BooleanNot n)],
        v.LeaveNode s2 (.BooleanNot n))

/-- The method `(n *Exit) Walk(v walker.Visitor)`. -/
def expr.Exit.Walk {σ : Type} (others : String → Nat → σ → walker.Run σ)
    (v : walker.Visitor σ) (n : expr.Exit node.Node) (s : σ) : walker.Run σ :=
  let r := v.EnterNode s (.Exit n)
  if !r.1 then
    some ([.EnterNode (.Exit n)], r.2)
  else
    match (if !n.Expr.isNil then node.Node.Walk others v n.Expr r.2 else some ([], r.2)) with
    | none => none
    | some (calls, s2) =>
      some (.EnterNode (.Exit n) :: calls ++ [.LeaveNode (.Exit n)],
        v.LeaveNode s2 (.Exit n))

/-- The call `x.Walk(v)` on an interface value: dispatch on the kind of the
node; on nil the call fails. -/
def node.Node.Walk {σ : Type} (others : String → Nat → σ → walker.Run σ)
    (v : walker.Visitor σ) : node.Node → σ → walker.Run σ
  | .nil, _ => none
  | .BooleanNot n, s => expr.BooleanNot.Walk others v n s
  | .Exit n, s => expr.Exit.Walk others v n s
  | .other kind id, s => others kind id s

end

/-- A visitor without state whose `EnterNode` always answers `b`. -/
def constVisitor (b : Bool) : walker.Visitor Unit :=
  { EnterNode := fun s _ => (b, s), LeaveNode := fun s _ => s }

/-- No node of another kind can be walked: used where a tree has none. -/
def noOthers {σ : Type} : String → Nat → σ → walker.Run σ :=
  fun _ _ _ => none

/-- The tree of `!exit`: a `BooleanNot` over an `Exit` without expression. -/
def notExit : expr.BooleanNot node.Node :=
  expr.NewBooleanNot (.Exit (expr.NewExit .nil))

/-- A visitor without state whose `EnterNode` answers `p w`. -/
def predVisitor (p : node.Node → Bool) : walker.Visitor Unit :=
  { EnterNode := fun s w => (p w, s), LeaveNode := fun s _ => s }

/-- The chain below a node: the node, its `Expr`, the `Expr` of that, and so
on, down to the last node that is not nil. -/
def node.Node.spine : node.Node → List node.Node
  | .nil => []
  | .BooleanNot ⟨ff, pos, e⟩ => .BooleanNot ⟨ff, pos, e⟩ :: spine e
  | .Exit ⟨ff, die, pos, e⟩ => .Exit ⟨ff, die, pos, e⟩ :: spine e
  | .other kind id => [.other kind id]

/-- Whether the chain below a node consists of `BooleanNot` and `Exit` nodes
only. -/
def node.Node.isChain : node.Node → Bool
  | .nil => true
  | .BooleanNot ⟨_, _, e⟩ => isChain e
  | .Exit ⟨_, _, _, e⟩ => isChain e
  | .other _ _ => false

/-- The nodes of a chain down to and including the first one that `p`
rejects. -/
def reached (p : node.Node → Bool) : List node.Node → List node.Node
  | [] => []
  | x :: xs => if p x then x :: reached p xs else [x]

/-- The arguments of the `EnterNode` calls among the given calls, in order. -/
def walker.entered : List walker.Call → List node.Node
  | [] => []
  | .EnterNode w :: cs => w :: entered cs
  | .LeaveNode _ :: cs => entered cs

/-! ## The probe sources and the globals walker (exprtype_test.go) -/

/-- The struct `exprTypeTest`. -/
structure exprTypeTest where
  expr : String
  expectedType : String

/-- The struct `exprTypeTestContext`; the field `local` of the source is
`local_` here, `local` being a reserved word. -/
structure exprTypeTestContext where
  global : String
  local_ : String
  stubs : String

namespace fmt

/-- The decimal digits of `n`, least significant first; the first argument
bounds the number of digits and `n + 1` is always enough. -/
def digitsRev : Nat → Nat → List Nat
  | 0, _ => []
  | fuel + 1, n => if n < 10 then [n] else n % 10 :: digitsRev fuel (n / 10)

/-- The character of a decimal digit. -/
def digitChar (d : Nat) : Char :=
  Char.ofNat (48 + d)

/-- Go `fmt` verb `%d` on a non-negative `int` (a loop index): the decimal
digits, most significant first, without leading zeros. -/
def formatInt (n : Nat) : String :=
  String.mk ((digitsRev (n + 1) n).reverse.map digitChar)

end fmt

/-- One round of the loop `for i, test := range tests` of `exprTypeSources`,
on the builder contents `buf`: the `Fprintf` of the function header, the loop
over `globals`, the `WriteString` of `ctx.local` and a newline, and the
`Fprintf` of the return statement. -/
def exprTypeSources.body (ctx : exprTypeTestContext) (globals : List String) (buf : String)
    (i : Nat) (test : exprTypeTest) : String :=
  let buf := buf ++ ("function f" ++ fmt.formatInt i ++ "() \x7b\n")
  let buf := globals.foldl (fun b g => b ++ ("  global " ++ g ++ ";\n")) buf
  let buf := buf ++ (ctx.local_ ++ "\n")
  buf ++ ("  return " ++ test.expr ++ ";\n\x7d\n")

/-- The loop `for i, test := range tests` of `exprTypeSources`, from index
`i` on. -/
def exprTypeSources.loop (ctx : exprTypeTestContext) (globals : List String) :
    Nat → List exprTypeTest → String → String
  | _, [], buf => buf
  | i, test :: rest, buf => loop ctx globals (i + 1) rest (body ctx globals buf i test)

/-- The function `exprTypeSources(ctx, tests, globals) string`; the
`strings.Builder` is the text written so far. -/
def exprTypeSources (ctx : exprTypeTestContext) (tests : List exprTypeTest)
    (globals : List String) : String :=
  let buf := ""
  let buf := buf ++ "<?php\n"
  let buf := exprTypeSources.loop ctx globals 0 tests buf
  let buf := buf ++ "\n"
  buf

/-- The name `fmt.Sprintf("\\f%d", i)` under which `runExprTypeTest` looks up
the probe function of test `i`. -/
def probeName (i : Nat) : String :=
  "\\f" ++ fmt.formatInt i

/-- The given texts written one after the other. -/
def concatAll : List String → String
  | [] => ""
  | t :: rest => t ++ concatAll rest

/-- The probe function of test `i` as the property describes it: the header
`function f<i>() {`, one line `  global <g>;` per element of `globals` in
order, the local snippet and a newline, and the line `  return <expr>;` with
the closing brace. -/
def probeText (ctx : exprTypeTestContext) (globals : List String) (i : Nat)
    (test : exprTypeTest) : String :=
  "function f" ++ fmt.formatInt i ++ "() \x7b\n" ++
    concatAll (globals.map fun g => "  global " ++ g ++ ";\n") ++
    (ctx.local_ ++ "\n") ++ ("  return " ++ test.expr ++ ";\n\x7d\n")

/-- The probe functions of the tests as the property describes them, the first
test having the number `i`. -/
def probeTexts (ctx : exprTypeTestContext) (globals : List String) :
    Nat → List exprTypeTest → List String
  | _, [] => []
  | i, test :: rest => probeText ctx globals i test :: probeTexts ctx globals (i + 1) rest

/-- The names of the node kinds that `globalsWalker.EnterNode` tells apart;
their files are not among the sources, such a node is a `node.Node.other` of
that kind. -/
def kindRoot : String := "node.Root"

/-- The kind `*stmt.StmtList`. -/
def kindStmtList : String := "stmt.StmtList"

/-- The kind `*stmt.Expression`. -/
def kindExpression : String := "stmt.Expression"

/-- The kind `*assign.Assign`. -/
def kindAssign : String := "assign.Assign"

/-- The struct `globalsWalker`. -/
structure globalsWalker where
  globals : List String

/-- The method `(gw *globalsWalker) EnterNode(w walker.Walkable) bool`, with
the receiver after the call. The type switch is on the kind of the node; nil
and every kind without a case take the default. `variableOf` gives the field
`Variable` of the `*assign.Assign` with the given number and `NameNodeToString`
is `meta.NameNodeToString`; neither declaration is among the sources. -/
def globalsWalker.EnterNode (variableOf : Nat → node.Node)
    (NameNodeToString : node.Node → String) (gw : globalsWalker) (w : node.Node) :
    Bool × globalsWalker :=
  match w with
  | .other kind id =>
    if kind = kindRoot then (true, gw)
    else if kind = kindStmtList then (true, gw)
    else if kind = kindExpression then (true, gw)
    else if kind = kindAssign then
      let name := NameNodeToString (variableOf id)
      if strings.HasPrefix name "$" then
        (false, { globals := gw.globals ++ [name] })
      else (false, gw)
    else (false, gw)
  | _ => (false, gw)

/-- The method `(gw *globalsWalker) LeaveNode(walker.Walkable)`, which does
nothing. -/
def globalsWalker.LeaveNode (gw : globalsWalker) (_w : node.Node) : globalsWalker :=
  gw

/-- The walker `&gw` as a `walker.Visitor`. -/
def globalsVisitor (variableOf : Nat → node.Node) (NameNodeToString : node.Node → String) :
    walker.Visitor globalsWalker :=
  { EnterNode := globalsWalker.EnterNode variableOf NameNodeToString,
    LeaveNode := globalsWalker.LeaveNode }

/-! ## The tables of the tests and the comparison of `runExprTypeTest` -/

/-- The table `tests` of `TestExprTypeScopeNoreplace`. -/
def TestExprTypeScopeNoreplace.tests : List exprTypeTest :=
  [⟨"phpdoc_param($v)", "int"⟩,
   ⟨"phpdoc_localvar()", "int|string"⟩,
   ⟨"localvar()", "int"⟩]

/-- The table `tests` of `TestExprTypeVoid`. -/
def TestExprTypeVoid.tests : List exprTypeTest :=
  [⟨"void_func1()", "void"⟩,
   ⟨"void_func2()", "void"⟩,
   ⟨"void_func3()", "void"⟩,
   ⟨"$foo->voidMeth1()", "void"⟩,
   ⟨"$foo->voidMeth2()", "void"⟩,
   ⟨"$foo->voidMeth3()", "void"⟩]

/-- The table `tests` of `TestExprTypeFunction`. -/
def TestExprTypeFunction.tests : List exprTypeTest :=
  [⟨"get_ints()", "int[]"⟩,
   ⟨"get_floats()", "float[]"⟩,
   ⟨"get_array()", "mixed[]"⟩,
   ⟨"get_array_or_null()", "mixed[]|null"⟩,
   ⟨"get_null_or_array()", "mixed[]|null"⟩,
   ⟨"try_catch1()", "bool|int|string"⟩,
   ⟨"try_finally1()", "bool|int|string"⟩,
   ⟨"ifelse1()", "bool|int|string"⟩,
   ⟨"ifelse2()", "bool|int|string"⟩,
   ⟨"ifelse3()", "bool|int|string"⟩,
   ⟨"switch1()", "bool|int|string"⟩,
   ⟨"switch2()", "bool|int|string"⟩,
   ⟨"switch3()", "bool|string"⟩,
   ⟨"throw1()", "int"⟩,
   ⟨"throw2()", "bool|int"⟩,
   ⟨"foreach1()", "int|string"⟩,
   ⟨"foreach2()", "int|string"⟩,
   ⟨"undefined_type1()", "mixed"⟩,
   ⟨"undefined_type2()", "mixed"⟩,
   ⟨"untyped_param()", "mixed"⟩,
   ⟨"bare_ret1()", "int|null"⟩,
   ⟨"bare_ret2()", "int|null"⟩,
   ⟨"recur1()", "int|string"⟩,
   ⟨"recur2()", "int|string"⟩,
   ⟨"recur3()", "mixed"⟩,
   ⟨"recur4()", "mixed"⟩,
   ⟨"recur5()", "mixed"⟩,
   ⟨"mixed_array()", "mixed[]"⟩,
   ⟨"mixed_or_ints1()", "mixed[]|int[]"⟩,
   ⟨"mixed_or_ints2()", "mixed[]|int[]"⟩,
   ⟨"mixed_array()[1]", "mixed"⟩,
   ⟨"mixed_or_ints1()[1]", "mixed|int"⟩,
   ⟨"mixed_or_ints2()[1]", "mixed|int"⟩]

/-- The table `tests` of `TestExprTypeSimple`. -/
def TestExprTypeSimple.tests : List exprTypeTest :=
  [⟨"true", "precise bool"⟩,
   ⟨"false", "precise bool"⟩,
   ⟨"(bool)1", "precise bool"⟩,
   ⟨"(boolean)1", "precise bool"⟩,
   ⟨"1", "precise int"⟩,
   ⟨"(int)1.5", "precise int"⟩,
   ⟨"(integer)1.5", "precise int"⟩,
   ⟨"1.21", "precise float"⟩,
   ⟨"(float)1", "precise float"⟩,
   ⟨"(real)1", "precise float"⟩,
   ⟨"(double)1", "precise float"⟩,
   ⟨"\"\"", "precise string"⟩,
   ⟨"(string)1", "precise string"⟩,
   ⟨"[]", "mixed[]"⟩,
   ⟨"[1, \"a\", 4.5]", "mixed[]"⟩,
   ⟨"1+5<<2", "precise int"⟩,
   ⟨"-1", "int"⟩,
   ⟨"-1.4", "float"⟩,
   ⟨"+1", "int"⟩,
   ⟨"+1.4", "float"⟩,
   ⟨"~$int", "int"⟩,
   ⟨"~\x27dsds\x27", "string"⟩,
   ⟨"$int & $int", "int"⟩,
   ⟨"$float & $int", "int"⟩,
   ⟨"$int & $float", "int"⟩,
   ⟨"4.5 & 1.4", "int"⟩,
   ⟨"\"abc\" & \"foo\"", "string"⟩,
   ⟨"$int | $int", "int"⟩,
   ⟨"4.5 | 1.4", "int"⟩,
   ⟨"\"abc\" | \"foo\"", "string"⟩,
   ⟨"$int ^ $int", "int"⟩,
   ⟨"4.5 ^ 1.4", "int"⟩,
   ⟨"\"abc\" ^ \"foo\"", "string"⟩,
   ⟨"$int", "int"⟩,
   ⟨"$float", "float"⟩,
   ⟨"$string", "string"⟩,
   ⟨"define(\x27foo\x27, 0 == 0)", "void"⟩,
   ⟨"empty_array()", "mixed[]"⟩,
   ⟨"new Foo()", "precise \\Foo"⟩,
   ⟨"clone (new Foo())", "precise \\Foo"⟩,
   ⟨"1 > 4", "precise bool"⟩]

/-- The table `tests` of `TestExprTypeOps`. -/
def TestExprTypeOps.tests : List exprTypeTest :=
  [⟨"1 + $int", "int"⟩,
   ⟨"$int + 1", "int"⟩,
   ⟨"1 + (int)$float", "int"⟩,
   ⟨"1 + $global_int", "float"⟩,
   ⟨"$global_int + 1", "float"⟩,
   ⟨"1 + $float", "float"⟩,
   ⟨"$int . $float", "precise string"⟩,
   ⟨"$int && $float", "precise bool"⟩,
   ⟨"$int || 1", "precise bool"⟩]

/-- The expected type of the first row of a table whose expression is `expr`. -/
def expectedOf (tests : List exprTypeTest) (expr : String) : Option String :=
  (tests.find? fun t => t.expr = expr).map fun t => t.expectedType

/-- The comparison `cmp.Diff(have, want) == ""` of `runExprTypeTest`: both
values have the same flag `Precise` and the same keys in `Types`. -/
def sameValue (a b : testTypesMap) : Bool :=
  a.Precise == b.Precise && decide (a.Types = b.Types)

/-- Modelled from the spec: the record of the probe function `f<i>` of
`exprTypeSources`, whose body is the local snippet followed by
`return <expr>;`, as the walk over its body leaves it (§4.I); the `global`
lines declare no type. -/
def probeInfo (local_ : Stmt) (e : PhpExpr) : FunctionInfo :=
  inferFunction Scope.empty (.seq local_ (.ret e))

/-- One round of the loop `for i, test := range tests` of `runExprTypeTest`,
given the record `fn` of the probe: `want` is `makeType(test.expectedType)`,
`have` is made of `solver.ResolveTypes("", fn.Typ, ...)` and
`fn.Typ.IsPrecise()`, and the test passes when they do not differ. -/
def rowPasses (idx : Index) (fn : FunctionInfo) (test : exprTypeTest) : Bool :=
  sameValue (resolvedValue idx fn.Typ) (makeType test.expectedType)

/-- Modelled from the spec: the expression of a row of `TestExprTypeSimple`
or `TestExprTypeOps` as the parser, which is not among the sources, reads it
(§6), for the rows made of literals, casts, `new`, local variables and
operators; `true` and `false` are the constants that the test defines as
`(bool)1` and `(bool)0`. Rows with arrays, calls, `clone` or global variables
have no entry. -/
def probeExpr : String → Option PhpExpr
  | "true" => some (.lit "bool")
  | "false" => some (.lit "bool")
  | "(bool)1" => some (.cast "bool" (.lit "int"))
  | "(boolean)1" => some (.cast "boolean" (.lit "int"))
  | "1" => some (.lit "int")
  | "(int)1.5" => some (.cast "int" (.lit "float"))
  | "(integer)1.5" => some (.cast "integer" (.lit "float"))
  | "1.21" => some (.lit "float")
  | "(float)1" => some (.cast "float" (.lit "int"))
  | "(real)1" => some (.cast "real" (.lit "int"))
  | "(double)1" => some (.cast "double" (.lit "int"))
  | "\"\"" => some (.lit "string")
  | "(string)1" => some (.cast "string" (.lit "int"))
  | "1+5<<2" => some (.binary .shiftLeft (.binary .plus (.lit "int") (.lit "int")) (.lit "int"))
  | "-1" => some (.unary .minus (.lit "int"))
  | "-1.4" => some (.unary .minus (.lit "float"))
  | "+1" => some (.unary .plus (.lit "int"))
  | "+1.4" => some (.unary .plus (.lit "float"))
  | "~\x27dsds\x27" => some (.unary .bitwiseNot (.lit "string"))
  | "4.5 & 1.4" => some (.binary .bitwiseAnd (.lit "float") (.lit "float"))
  | "\"abc\" & \"foo\"" => some (.binary .bitwiseAnd (.lit "string") (.lit "string"))
  | "4.5 | 1.4" => some (.binary .bitwiseOr (.lit "float") (.lit "float"))
  | "\"abc\" | \"foo\"" => some (.binary .bitwiseOr (.lit "string") (.lit "string"))
  | "4.5 ^ 1.4" => some (.binary .bitwiseXor (.lit "float") (.lit "float"))
  | "\"abc\" ^ \"foo\"" => some (.binary .bitwiseXor (.lit "string") (.lit "string"))
  | "new Foo()" => some (.newObject "\\Foo")
  | "1 > 4" => some (.binary .greater (.lit "int") (.lit "int"))
  | "1 + $int" => some (.binary .plus (.lit "int") (.var "$int"))
  | "$int + 1" => some (.binary .plus (.var "$int") (.lit "int"))
  | "1 + (int)$float" => some (.binary .plus (.lit "int") (.cast "int" (.var "$float")))
  | "1 + $float" => some (.binary .plus (.lit "int") (.var "$float"))
  | "$int . $float" => some (.binary .concat (.var "$int") (.var "$float"))
  | "$int && $float" => some (.binary .booleanAnd (.var "$int") (.var "$float"))
  | "$int || 1" => some (.binary .booleanOr (.var "$int") (.lit "int"))
  | _ => none

/-- Modelled from the spec: the local snippet of `TestExprTypeOps`,
`$int = 10; $float = 20.5; $string = "123"; $bool = (bool)1;`, as the parser
reads it. -/
def opsLocal : Stmt :=
  .seq (.assign "$int" (.lit "int"))
    (.seq (.assign "$float" (.lit "float"))
      (.seq (.assign "$string" (.lit "string"))
        (.assign "$bool" (.cast "bool" (.lit "int")))))

/-- Whether the outermost operation of an expression is a sum, one of the
bitwise operations `&`, `|`, `^`, or a unary `-`, `+`, `~`. -/
def PhpExpr.isArithmetic : PhpExpr → Bool
  | .unary _ _ => true
  | .binary .plus _ _ => true
  | .binary .bitwiseAnd _ _ => true
  | .binary .bitwiseOr _ _ => true
  | .binary .bitwiseXor _ _ => true
  | _ => false

/-! # Theorems -/

/-! ## Lemmas on the string helpers -/

theorem splitChars_ne_nil (sep : Char) (s : List Char) :
    strings.splitChars sep s ≠ [] := by
  induction s with
  | nil => simp [strings.splitChars]
  | cons c cs ih =>
    unfold strings.splitChars
    split
    · simp
    · split <;> simp

theorem splitChars_of_not_mem (sep : Char) (s : List Char) (h : sep ∉ s) :
    strings.splitChars sep s = [s] := by
  induction s with
  | nil => rfl
  | cons c cs ih =>
    have hc : c ≠ sep := fun e => h (by simp [e])
    have hcs : sep ∉ cs := fun e => h (by simp [e])
    simp [strings.splitChars, hc, ih hcs]

theorem splitChars_append_sep (sep : Char) (a b : List Char) (h : sep ∉ a) :
    strings.splitChars sep (a ++ sep :: b) = a :: strings.splitChars sep b := by
  induction a with
  | nil => simp [strings.splitChars]
  | cons c cs ih =>
    have hc : c ≠ sep := fun e => h (by simp [e])
    have hcs : sep ∉ cs := fun e => h (by simp [e])
    simp [strings.splitChars, hc, ih hcs]

theorem mem_insertAll (ts : List String) (res : Finset String) (t : String) :
    t ∈ insertAll ts res ↔ t ∈ ts ∨ t ∈ res := by
  induction ts generalizing res with
  | nil => simp [insertAll]
  | cons x xs ih =>
    have := ih (insert x res)
    simp only [insertAll, List.foldl_cons] at this ⊢
    rw [this]
    simp only [Finset.mem_insert, List.mem_cons]
    tauto

theorem hasPrefix_iff (s pre : String) :
    strings.HasPrefix s pre = true ↔ ∃ rest : String, s = pre ++ rest := by
  unfold strings.HasPrefix
  rw [List.isPrefixOf_iff_prefix]
  constructor
  · rintro ⟨t, ht⟩
    exact ⟨String.mk t, by apply String.ext; simp [ht]⟩
  · rintro ⟨rest, rfl⟩
    exact ⟨rest.data, by simp⟩

theorem hasPrefix_append_sep (a b pre : List Char) (sep : Char)
    (hsep : sep ∉ pre) (h : pre <+: a ++ sep :: b) : pre <+: a := by
  have h2 : a ++ [sep] <+: a ++ sep :: b := ⟨b, by simp⟩
  rcases List.prefix_or_prefix_of_prefix h h2 with h3 | h3
  · rcases List.prefix_concat_iff.mp (by simpa using h3) with h4 | h4
    · exact absurd (by rw [h4]; simp) hsep
    · exact h4
  · exact absurd (h3.subset (by simp)) hsep

theorem makeType_pair (A B : String) (hA : '|' ∉ A.data) (hB : '|' ∉ B.data)
    (hp : strings.HasPrefix A "precise " = false) :
    makeType (A ++ "|" ++ B) = { Precise := false, Types := {A, B} } := by
  have hne : A ++ "|" ++ B ≠ "" := by
    intro h
    have := congrArg String.data h
    simp at this
  have hpre : strings.HasPrefix (A ++ "|" ++ B) "precise " = false := by
    rw [Bool.eq_false_iff]
    intro h
    apply (Bool.eq_false_iff.mp hp)
    unfold strings.HasPrefix at h ⊢
    rw [List.isPrefixOf_iff_prefix] at h ⊢
    have h' : "precise ".data <+: A.data ++ '|' :: B.data := by simpa using h
    exact hasPrefix_append_sep _ _ _ '|' (by decide) h'
  have hsplit : strings.Split (A ++ "|" ++ B) '|' = [A, B] := by
    unfold strings.Split
    have : (A ++ "|" ++ B).data = A.data ++ '|' :: B.data := by simp
    rw [this, splitChars_append_sep _ _ _ hA, splitChars_of_not_mem _ _ hB]
    rfl
  simp only [makeType, hne, hpre, if_false, Bool.false_eq_true]
  rw [hsplit]
  congr 1
  ext t
  simp [mem_insertAll]

theorem hasPrefix_self_append (pre rest : String) :
    strings.HasPrefix (pre ++ rest) pre = true := by
  rw [hasPrefix_iff]; exact ⟨rest, rfl⟩

theorem trimPrefix_self_append (pre rest : String) :
    strings.TrimPrefix (pre ++ rest) pre = rest := by
  unfold strings.TrimPrefix
  rw [hasPrefix_self_append]
  simp

theorem makeType_precise_pair (A B : String) (hA : '|' ∉ A.data) (hB : '|' ∉ B.data) :
    makeType ("precise " ++ A ++ "|" ++ B) = { Precise := true, Types := {A, B} } := by
  have hassoc : "precise " ++ A ++ "|" ++ B = "precise " ++ (A ++ "|" ++ B) := by
    simp [String.append_assoc]
  have hne : "precise " ++ (A ++ "|" ++ B) ≠ "" := by
    intro h
    have := congrArg String.data h
    simp at this
  have hsplit : strings.Split (A ++ "|" ++ B) '|' = [A, B] := by
    unfold strings.Split
    have : (A ++ "|" ++ B).data = A.data ++ '|' :: B.data := by simp
    rw [this, splitChars_append_sep _ _ _ hA, splitChars_of_not_mem _ _ hB]
    rfl
  rw [hassoc]
  simp only [makeType, hne, hasPrefix_self_append, trimPrefix_self_append, if_false, if_true]
  rw [hsplit]
  congr 1
  ext t
  simp [mem_insertAll]

theorem splitChars_no_sep (sep : Char) (s : List Char) :
    ∀ p ∈ strings.splitChars sep s, sep ∉ p := by
  induction s with
  | nil => simp [strings.splitChars]
  | cons c cs ih =>
    unfold strings.splitChars
    split
    · intro p hp
      rcases List.mem_cons.mp hp with h | h
      · simp [h]
      · exact ih p h
    · rename_i hc
      split
      · intro p hp; simp at hp; subst hp; simpa using fun h => hc h.symm
      · rename_i q qs hq
        intro p hp
        rcases List.mem_cons.mp hp with h | h
        · subst h
          have := ih q (by rw [hq]; simp)
          simp only [List.mem_cons, not_or]
          exact ⟨fun h => hc h.symm, this⟩
        · exact ih p (by rw [hq]; simp [h])

theorem splitChars_join (sep : Char) (s : List Char) :
    joinChars sep (strings.splitChars sep s) = s := by
  induction s with
  | nil => simp [strings.splitChars, joinChars]
  | cons c cs ih =>
    have hne := splitChars_ne_nil sep cs
    unfold strings.splitChars
    cases hq : strings.splitChars sep cs with
    | nil => exact absurd hq hne
    | cons q qs =>
      rw [hq] at ih
      by_cases hc : c = sep
      · simp [hc, joinChars, ih]
      · simp only [hc, if_false]
        cases qs with
        | nil => simpa [joinChars] using ih
        | cons r rs => simpa [joinChars] using ih

theorem splitChars_of_join (sep : Char) (ps : List (List Char)) (hne : ps ≠ [])
    (hno : ∀ p ∈ ps, sep ∉ p) :
    strings.splitChars sep (joinChars sep ps) = ps := by
  induction ps with
  | nil => exact absurd rfl hne
  | cons p qs ih =>
    cases qs with
    | nil => simpa [joinChars] using splitChars_of_not_mem sep p (hno p (by simp))
    | cons q rs =>
      have h1 := ih (by simp) (fun x hx => hno x (List.mem_cons_of_mem _ hx))
      simp only [joinChars]
      rw [splitChars_append_sep sep p _ (hno p (by simp)), h1]

theorem makeType_types_of_ne (typ : String) (h : typ ≠ "") (t : String) :
    t ∈ (makeType typ).Types ↔
      t.data ∈ strings.splitChars '|' (strings.TrimPrefix typ "precise ").data := by
  have hmem : ∀ s : String, t ∈ strings.Split s '|' ↔ t.data ∈ strings.splitChars '|' s.data := by
    intro s
    unfold strings.Split
    constructor
    · intro ht
      obtain ⟨p, hp, rfl⟩ := List.mem_map.mp ht
      exact hp
    · intro ht
      exact List.mem_map.mpr ⟨t.data, ht, rfl⟩
  by_cases hp : strings.HasPrefix typ "precise " = true
  · simp [makeType, h, hp, mem_insertAll, hmem]
  · have hT : strings.TrimPrefix typ "precise " = typ := by simp [strings.TrimPrefix, hp]
    simp [makeType, h, hp, mem_insertAll, hmem, hT]

/-! ## The text format of expected types: claims on `makeType` -/

/-- C1. Union order does not matter: for atoms `A` and `B` that contain no `|`
and do not start with `precise `, `makeType (A|B)` equals `makeType (B|A)`, with
and without a common leading `precise `; hence a resolved value matches the
expectation `A|B` exactly when it matches `B|A`. -/
theorem makeType_union_comm (A B : String)
    (hA : '|' ∉ A.data) (hB : '|' ∉ B.data)
    (hpA : strings.HasPrefix A "precise " = false)
    (hpB : strings.HasPrefix B "precise " = false) :
    makeType (A ++ "|" ++ B) = makeType (B ++ "|" ++ A) ∧
    makeType ("precise " ++ A ++ "|" ++ B) = makeType ("precise " ++ B ++ "|" ++ A) ∧
    (∀ resolved : testTypesMap,
      (resolved = makeType (A ++ "|" ++ B) ↔ resolved = makeType (B ++ "|" ++ A)) ∧
      (resolved = makeType ("precise " ++ A ++ "|" ++ B) ↔
        resolved = makeType ("precise " ++ B ++ "|" ++ A))) := by
  have h1 : makeType (A ++ "|" ++ B) = makeType (B ++ "|" ++ A) := by
    rw [makeType_pair A B hA hB hpA, makeType_pair B A hB hA hpB, Finset.pair_comm]
  have h2 : makeType ("precise " ++ A ++ "|" ++ B) = makeType ("precise " ++ B ++ "|" ++ A) := by
    rw [makeType_precise_pair A B hA hB, makeType_precise_pair B A hB hA, Finset.pair_comm]
  exact ⟨h1, h2, fun r => ⟨by rw [h1], by rw [h2]⟩⟩

/-- Witness of C1 at `int|float`, the expectation of `$int_or_float`. -/
theorem makeType_union_comm_witness :
    makeType ("int" ++ "|" ++ "float") = makeType ("float" ++ "|" ++ "int") ∧
    makeType ("precise " ++ "int" ++ "|" ++ "float") =
      makeType ("precise " ++ "float" ++ "|" ++ "int") :=
  have h := makeType_union_comm "int" "float" (by decide) (by decide) (by decide) (by decide)
  ⟨h.1, h.2.1⟩

/-- C7. A set is precise in the text format exactly when its text carries the
`precise ` prefix: `makeType(typ).Precise` holds iff `typ` is `precise `
followed by some text. -/
theorem makeType_precise_iff (typ : String) :
    (makeType typ).Precise = true ↔ ∃ rest : String, typ = "precise " ++ rest := by
  rw [← hasPrefix_iff]
  by_cases h : typ = ""
  · subst h
    simp [makeType]
    decide
  · simp [makeType, h]

/-- C8. The text format is pipe-separated atoms: for non-empty `typ` the text
left after removing one leading `precise ` is a sequence of `|`-free pieces
separated by `|`, and for every such way of writing it the keys of
`makeType(typ).Types` are exactly the pieces; for the empty string `Types` is
the empty set. -/
theorem makeType_types_pieces (typ : String) :
    (typ ≠ "" →
      (∃ pieces : List (List Char), pieces ≠ [] ∧ (∀ p ∈ pieces, '|' ∉ p) ∧
        joinChars '|' pieces = (strings.TrimPrefix typ "precise ").data) ∧
      (∀ pieces : List (List Char), pieces ≠ [] → (∀ p ∈ pieces, '|' ∉ p) →
        joinChars '|' pieces = (strings.TrimPrefix typ "precise ").data →
        ∀ t : String, t ∈ (makeType typ).Types ↔ t.data ∈ pieces)) ∧
    (makeType "").Types = ∅ := by
  refine ⟨fun h => ⟨⟨strings.splitChars '|' (strings.TrimPrefix typ "precise ").data,
    splitChars_ne_nil _ _, splitChars_no_sep _ _, splitChars_join _ _⟩, ?_⟩, by simp [makeType]⟩
  intro pieces hne hno hjoin t
  rw [makeType_types_of_ne typ h t, ← hjoin, splitChars_of_join _ _ hne hno]

/-- Witness of C8 at `precise int|string`: the keys are `int` and `string`. -/
theorem makeType_types_pieces_witness :
    ∀ t : String, t ∈ (makeType "precise int|string").Types ↔
      t.data ∈ ["int".data, "string".data] :=
  ((makeType_types_pieces "precise int|string").1 (by decide)).2
    ["int".data, "string".data] (by decide) (by decide) (by decide)

/-! ## The normalizer -/

theorem foldAlias_idem (id : String) : foldAlias (foldAlias id) = foldAlias id := by
  unfold foldAlias
  split_ifs <;> simp_all

theorem foldAlias_ne_array (id : String) (h : id ≠ "array") : foldAlias id ≠ "array" := by
  unfold foldAlias
  split_ifs <;> first | exact h | decide

theorem normSpine_idem (t : TypeExpr) : normSpine (normSpine t) = normSpine t := by
  induction t with
  | name id =>
    by_cases h : id = "array"
    · subst h; decide
    · simp [normSpine, h, foldAlias_ne_array id h, foldAlias_idem]
  | array t ih => simp [normSpine, ih]
  | _ => simp [normSpine]

theorem elemMembers_normSpine (t : TypeExpr) : elemMembers (normSpine t) = elemMembers t := by
  cases t with
  | name id => by_cases h : id = "array" <;> simp [normSpine, elemMembers, h]
  | _ => simp [normSpine, elemMembers]

theorem pushArray_ne_prefixArray (x t : TypeExpr) : pushArray x ≠ prefixArray t := by
  cases x <;> simp [pushArray]

theorem suffixForm_pushArray (x : TypeExpr) (h : suffixForm x = x) :
    suffixForm (pushArray x) = pushArray x := by
  induction x with
  | nullable y ih =>
    simp only [suffixForm, nullable.injEq] at h
    simp [pushArray, suffixForm, ih h]
  | name id => simp [pushArray, suffixForm]
  | compound text => simp [pushArray, suffixForm]
  | union a b _ _ => simpa [pushArray, suffixForm] using h
  | paren u _ => simpa [pushArray, suffixForm] using h
  | array u _ => simpa [pushArray, suffixForm] using h
  | prefixArray u _ => exact absurd h (pushArray_ne_prefixArray _ _)

theorem suffixForm_idem (t : TypeExpr) : suffixForm (suffixForm t) = suffixForm t := by
  induction t with
  | prefixArray u ih => exact suffixForm_pushArray _ ih
  | _ => simp_all [suffixForm]

theorem suffixForm_normSpine (t : TypeExpr) (h : suffixForm t = t) :
    suffixForm (normSpine t) = normSpine t := by
  induction t with
  | name id => by_cases h : id = "array" <;> simp [normSpine, suffixForm, h]
  | array t ih =>
    simp only [suffixForm, TypeExpr.array.injEq] at h
    simp [normSpine, suffixForm, ih h]
  | _ => simpa [normSpine] using h

theorem bareUnion_members (u : TypeExpr) :
    ∀ r, bareUnion u = some r →
      (∀ b ∈ r.1, elemMembers b = none) ∧ r.1 ≠ [] ∧
      (suffixForm u = u → ∀ b ∈ r.1, suffixForm b = b) := by
  induction u with
  | name id => intro r h; simp [bareUnion] at h; subst h; simp [elemMembers]
  | compound text => intro r h; simp [bareUnion] at h; subst h; simp [elemMembers]
  | nullable t ih =>
    intro r h
    simp only [bareUnion, Option.map_eq_some'] at h
    obtain ⟨q, hq, rfl⟩ := h
    obtain ⟨h1, h2, h3⟩ := ih q hq
    refine ⟨h1, h2, fun hs => h3 ?_⟩
    simpa [suffixForm] using hs
  | union a b iha ihb =>
    intro r h
    simp only [bareUnion] at h
    split at h
    · rename_i x y hx hy
      simp only [Option.some.injEq] at h
      subst h
      obtain ⟨a1, a2, a3⟩ := iha x hx
      obtain ⟨b1, b2, b3⟩ := ihb y hy
      refine ⟨?_, by simp [a2], ?_⟩
      · intro m hm
        rcases List.mem_append.mp hm with hm | hm
        · exact a1 m hm
        · exact b1 m hm
      · intro hs m hm
        simp only [suffixForm, TypeExpr.union.injEq] at hs
        rcases List.mem_append.mp hm with hm | hm
        · exact a3 hs.1 m hm
        · exact b3 hs.2 m hm
    · exact absurd h (by simp)
  | paren t _ => intro r h; simp [bareUnion] at h
  | array t _ =>
    intro r h
    simp only [bareUnion] at h
    split at h
    · simp only [Option.some.injEq] at h
      subst h
      simp [elemMembers]
    · exact absurd h (by simp)
  | prefixArray t _ => intro r h; simp [bareUnion] at h

/-- A settled atom: it has only suffix arrays, is its own single top-level
member, and is not changed by atom normalization. -/
theorem topMembers_settled (t : TypeExpr) (hs : suffixForm t = t) :
    (topMembers t).1 ≠ [] ∧
    ∀ m ∈ (topMembers t).1,
      suffixForm (normSpine m) = normSpine m ∧
      topMembers (normSpine m) = ([normSpine m], false) := by
  induction t with
  | name id =>
    refine ⟨by simp [topMembers], ?_⟩
    intro m hm
    simp only [topMembers, List.mem_singleton] at hm
    subst hm
    by_cases h : id = "array" <;> simp [normSpine, suffixForm, topMembers, elemMembers, h]
  | compound text =>
    refine ⟨by simp [topMembers], ?_⟩
    intro m hm
    simp only [topMembers, List.mem_singleton] at hm
    subst hm
    simp [normSpine, suffixForm, topMembers]
  | nullable t ih =>
    simp only [suffixForm, TypeExpr.nullable.injEq] at hs
    simpa [topMembers] using ih hs
  | union a b iha ihb =>
    simp only [suffixForm, TypeExpr.union.injEq] at hs
    obtain ⟨a1, a2⟩ := iha hs.1
    obtain ⟨_, b2⟩ := ihb hs.2
    refine ⟨by simp [topMembers, a1], ?_⟩
    intro m hm
    simp only [topMembers] at hm
    rcases List.mem_append.mp hm with hm | hm
    · exact a2 m hm
    · exact b2 m hm
  | paren t ih =>
    simp only [suffixForm, TypeExpr.paren.injEq] at hs
    simpa [topMembers] using ih hs
  | array t _ =>
    simp only [suffixForm, TypeExpr.array.injEq] at hs
    have key : ∀ x : TypeExpr, suffixForm x = x → elemMembers x = none →
        suffixForm (normSpine (array x)) = normSpine (array x) ∧
        topMembers (normSpine (array x)) = ([normSpine (array x)], false) := by
      intro x hx hn
      refine ⟨?_, ?_⟩
      · simp [normSpine, suffixForm, suffixForm_normSpine x hx]
      · simp [normSpine, topMembers, elemMembers_normSpine, hn]
    cases he : elemMembers t with
    | none =>
      refine ⟨by simp [topMembers, he], ?_⟩
      intro m hm
      simp only [topMembers, he, List.mem_singleton] at hm
      subst hm
      exact key t hs he
    | some r =>
      cases t with
      | paren u =>
        simp only [elemMembers] at he
        simp only [suffixForm, TypeExpr.paren.injEq] at hs
        obtain ⟨h1, h2, h3⟩ := bareUnion_members u r he
        refine ⟨by simp [topMembers, elemMembers, he, h2], ?_⟩
        intro m hm
        simp only [topMembers, elemMembers, he, List.mem_map] at hm
        obtain ⟨b, hb, rfl⟩ := hm
        exact key b (h3 hs b hb) (h1 b hb)
      | _ => simp [elemMembers] at he
  | prefixArray t _ => exact absurd hs (pushArray_ne_prefixArray _ _)

theorem topMembers_joinUnion (L : List TypeExpr) (hne : L ≠ [])
    (h : ∀ l ∈ L, topMembers l = ([l], false)) :
    topMembers (joinUnion L) = (L, false) := by
  induction L with
  | nil => exact absurd rfl hne
  | cons a rest ih =>
    cases rest with
    | nil => simpa [joinUnion] using h a (by simp)
    | cons b rest2 =>
      have h1 := ih (by simp) (fun l hl => h l (List.mem_cons_of_mem _ hl))
      simp [joinUnion, topMembers, h1, h a (by simp)]

theorem suffixForm_joinUnion (L : List TypeExpr) (h : ∀ l ∈ L, suffixForm l = l) :
    suffixForm (joinUnion L) = joinUnion L := by
  induction L with
  | nil => simp [joinUnion, suffixForm]
  | cons a rest ih =>
    cases rest with
    | nil => simpa [joinUnion] using h a (by simp)
    | cons b rest2 =>
      have h1 := ih (fun l hl => h l (List.mem_cons_of_mem _ hl))
      simp [joinUnion, suffixForm, h1, h a (by simp)]

theorem freeTextToMixed_cases (L : List TypeExpr) :
    (∃ id, L = [name id] ∧ isIdent id = false ∧ freeTextToMixed L = [name "mixed"]) ∨
    freeTextToMixed L = L := by
  unfold freeTextToMixed
  split
  · rename_i id
    by_cases h : isIdent id = true
    · right; simp [h]
    · left; exact ⟨id, rfl, by simpa using h, by simp [h]⟩
  · right; rfl

theorem lowered_settled (t : TypeExpr) :
    loweredMembers t ≠ [] ∧
    ∀ m ∈ loweredMembers t,
      suffixForm m = m ∧ topMembers m = ([m], false) ∧ normSpine m = m := by
  obtain ⟨hne, hm⟩ := topMembers_settled (suffixForm t) (suffixForm_idem t)
  refine ⟨by simp [loweredMembers, hne], ?_⟩
  intro m hmem
  simp only [loweredMembers, List.mem_append, List.mem_map] at hmem
  rcases hmem with ⟨x, hx, rfl⟩ | hnull
  · exact ⟨(hm x hx).1, (hm x hx).2, normSpine_idem x⟩
  · split at hnull
    · simp only [List.mem_singleton] at hnull
      subst hnull
      decide
    · simp at hnull

/-- Every member of a normalized type is settled: it has only suffix arrays,
is its own single top-level member, and is not changed by atom normalization. -/
theorem normalMembers_settled (t : TypeExpr) :
    normalMembers t ≠ [] ∧
    freeTextToMixed (normalMembers t) = normalMembers t ∧
    ∀ m ∈ normalMembers t,
      suffixForm m = m ∧ topMembers m = ([m], false) ∧ normSpine m = m := by
  obtain ⟨hne, hm⟩ := lowered_settled t
  unfold normalMembers
  rcases freeTextToMixed_cases (loweredMembers t) with ⟨id, _, _, h3⟩ | h
  · rw [h3]
    refine ⟨by simp, by decide, ?_⟩
    intro m hmem
    simp only [List.mem_singleton] at hmem
    subst hmem
    decide
  · rw [h]
    exact ⟨hne, h, hm⟩

theorem normalMembers_normalize (t : TypeExpr) :
    normalMembers (normalize t) = normalMembers t := by
  obtain ⟨hne, hfix, hm⟩ := normalMembers_settled t
  have h1 : suffixForm (normalize t) = normalize t :=
    suffixForm_joinUnion _ (fun l hl => (hm l hl).1)
  have h2 : topMembers (normalize t) = (normalMembers t, false) :=
    topMembers_joinUnion _ hne (fun l hl => (hm l hl).2.1)
  have h3 : (normalMembers t).map normSpine = normalMembers t := by
    conv_rhs => rw [← List.map_id (normalMembers t)]
    exact List.map_congr_left (fun l hl => (hm l hl).2.2)
  have h4 : loweredMembers (normalize t) = normalMembers t := by
    simp [loweredMembers, h1, h2, h3]
  show freeTextToMixed (loweredMembers (normalize t)) = normalMembers t
  rw [h4, hfix]

/-! ### Reading the bytes back -/

theorem scan_append (o c : Char) (xs : List Char) :
    ∀ (d : Nat) (a b : List Char), scanClose o c xs d = some (a, b) → a ++ b = xs := by
  induction xs with
  | nil => intro d a b h; simp [scanClose] at h
  | cons x xs ih =>
    intro d a b h
    simp only [scanClose] at h
    split_ifs at h with h1 h2
    · cases d with
      | zero =>
        simp only [Option.some.injEq, Prod.mk.injEq] at h
        obtain ⟨rfl, rfl⟩ := h
        rfl
      | succ d =>
        simp only [Option.map_eq_some'] at h
        obtain ⟨r, hr, hab⟩ := h
        simp only [Prod.mk.injEq] at hab
        obtain ⟨rfl, rfl⟩ := hab
        simp [ih d r.1 r.2 hr]
    · simp only [Option.map_eq_some'] at h
      obtain ⟨r, hr, hab⟩ := h
      simp only [Prod.mk.injEq] at hab
      obtain ⟨rfl, rfl⟩ := hab
      simp [ih _ r.1 r.2 hr]
    · simp only [Option.map_eq_some'] at h
      obtain ⟨r, hr, hab⟩ := h
      simp only [Prod.mk.injEq] at hab
      obtain ⟨rfl, rfl⟩ := hab
      simp [ih _ r.1 r.2 hr]

theorem scan_extend (o c : Char) (xs : List Char) (rest : List Char) :
    ∀ (d : Nat) (a b : List Char), scanClose o c xs d = some (a, b) →
      scanClose o c (xs ++ rest) d = some (a, b ++ rest) := by
  induction xs with
  | nil => intro d a b h; simp [scanClose] at h
  | cons x xs ih =>
    intro d a b h
    simp only [scanClose, List.cons_append] at h ⊢
    split_ifs at h ⊢ with h1 h2
    · cases d with
      | zero =>
        simp only [Option.some.injEq, Prod.mk.injEq] at h
        obtain ⟨rfl, rfl⟩ := h
        rfl
      | succ d =>
        simp only [Option.map_eq_some'] at h ⊢
        obtain ⟨r, hr, hab⟩ := h
        simp only [Prod.mk.injEq] at hab
        obtain ⟨rfl, rfl⟩ := hab
        exact ⟨_, ih d r.1 r.2 hr, rfl⟩
    · simp only [Option.map_eq_some'] at h ⊢
      obtain ⟨r, hr, hab⟩ := h
      simp only [Prod.mk.injEq] at hab
      obtain ⟨rfl, rfl⟩ := hab
      exact ⟨_, ih _ r.1 r.2 hr, rfl⟩
    · simp only [Option.map_eq_some'] at h ⊢
      obtain ⟨r, hr, hab⟩ := h
      simp only [Prod.mk.injEq] at hab
      obtain ⟨rfl, rfl⟩ := hab
      exact ⟨_, ih _ r.1 r.2 hr, rfl⟩

theorem scan_restrict (o c : Char) (xs : List Char) :
    ∀ (d : Nat) (a b : List Char), scanClose o c xs d = some (a, b) →
      scanClose o c a d = some (a, []) := by
  induction xs with
  | nil => intro d a b h; simp [scanClose] at h
  | cons x xs ih =>
    intro d a b h
    simp only [scanClose] at h
    split_ifs at h with h1 h2
    · cases d with
      | zero =>
        simp only [Option.some.injEq, Prod.mk.injEq] at h
        obtain ⟨rfl, rfl⟩ := h
        simp [scanClose, h1]
      | succ d =>
        simp only [Option.map_eq_some'] at h
        obtain ⟨r, hr, hab⟩ := h
        simp only [Prod.mk.injEq] at hab
        obtain ⟨rfl, rfl⟩ := hab
        simp [scanClose, h1, ih d r.1 r.2 hr]
    · simp only [Option.map_eq_some'] at h
      obtain ⟨r, hr, hab⟩ := h
      simp only [Prod.mk.injEq] at hab
      obtain ⟨rfl, rfl⟩ := hab
      have := ih _ r.1 r.2 hr
      simp only [scanClose, if_neg h1, if_pos h2, this, Option.map_some']
    · simp only [Option.map_eq_some'] at h
      obtain ⟨r, hr, hab⟩ := h
      simp only [Prod.mk.injEq] at hab
      obtain ⟨rfl, rfl⟩ := hab
      have := ih _ r.1 r.2 hr
      simp only [scanClose, if_neg h1, if_neg h2, this, Option.map_some']

theorem takeWhile_append_stop (p : Char → Bool) (id rest : List Char)
    (hall : ∀ c ∈ id, p c = true) (hrest : ∀ x r, rest = x :: r → p x = false) :
    (id ++ rest).takeWhile p = id ∧ (id ++ rest).dropWhile p = rest := by
  induction id with
  | nil =>
    cases rest with
    | nil => simp
    | cons x r => simp [List.takeWhile, List.dropWhile, hrest x r rfl]
  | cons a id ih =>
    have ha := hall a (by simp)
    have := ih (fun c hc => hall c (List.mem_cons_of_mem _ hc))
    simp [List.takeWhile, List.dropWhile, ha, this.1, this.2]

theorem takeWhile_all (p : Char → Bool) (cs : List Char) : ∀ c ∈ cs.takeWhile p, p c = true := by
  intro c hc
  exact (List.mem_takeWhile_imp hc)

theorem dropWhile_head (p : Char → Bool) (cs : List Char) (x : Char) (r : List Char)
    (h : cs.dropWhile p = x :: r) : p x = false := by
  have := List.head_dropWhile_not p cs (by rw [h]; simp)
  simpa [h] using this

theorem isIdent_iff (id : String) :
    isIdent id = true ↔ id.data ≠ [] ∧ ∀ c ∈ id.data, isIdentChar c = true := by
  unfold isIdent
  cases h : id.data with
  | nil => simp
  | cons c cs => simp

theorem identChar_facts (c : Char) (h : isIdentChar c = true) :
    c ≠ '?' ∧ c ≠ '[' ∧ c ≠ '(' := by
  refine ⟨?_, ?_, ?_⟩ <;> (rintro rfl; revert h; decide)

theorem takeWhile_append_more (p : Char → Bool) (cs rest : List Char)
    (h : cs.dropWhile p ≠ []) :
    (cs ++ rest).takeWhile p = cs.takeWhile p ∧
    (cs ++ rest).dropWhile p = cs.dropWhile p ++ rest := by
  induction cs with
  | nil => simp at h
  | cons a cs ih =>
    by_cases ha : p a = true
    · have h2 : cs.dropWhile p ≠ [] := by simpa [List.dropWhile, ha] using h
      have := ih h2
      simp [List.takeWhile, List.dropWhile, ha, this.1, this.2]
    · simp [List.takeWhile, List.dropWhile, ha]

theorem parsePrefix_name (id : String) (h : isIdent id = true) (rest : List Char)
    (hrest : ∀ x r, rest = x :: r → x = ')' ∨ x = '|' ∨ x = '[') :
    parsePrefix (id.data ++ rest) = some (name id, rest) := by
  obtain ⟨hne, hall⟩ := (isIdent_iff id).mp h
  have hx : ∀ x r, rest = x :: r → isIdentChar x = false := by
    intro x r hr
    rcases hrest x r hr with rfl | rfl | rfl <;> decide
  obtain ⟨h1, h2⟩ := takeWhile_append_stop isIdentChar id.data rest hall hx
  unfold parsePrefix
  rw [h1, h2, if_neg hne]
  cases rest with
  | nil => rfl
  | cons x r =>
    have hx2 : x ≠ '(' ∧ x ≠ '<' := by
      rcases hrest x r rfl with rfl | rfl | rfl <;> decide
    simp [hx2.1, hx2.2]

theorem parsePrefix_compound (text : String) (h : isCompound text = true) (rest : List Char) :
    parsePrefix (text.data ++ rest) = some (compound text, rest) := by
  unfold isCompound at h
  cases hp : parsePrefix text.data with
  | none => simp [hp] at h
  | some r =>
    obtain ⟨b, rem⟩ := r
    simp only [hp] at h
    cases b with
    | compound t =>
      cases rem with
      | cons y ys => simp at h
      | nil =>
        simp only [decide_eq_true_eq] at h
        subst h
        unfold parsePrefix at hp ⊢
        split_ifs at hp with hid
        cases hd : List.dropWhile isIdentChar t.data with
        | nil => simp [hd] at hp
        | cons x body =>
          have hne : List.dropWhile isIdentChar t.data ≠ [] := by rw [hd]; simp
          obtain ⟨e1, e2⟩ := takeWhile_append_more isIdentChar t.data rest hne
          rw [e1, e2, if_neg hid, hd]
          simp only [hd] at hp
          simp only [List.cons_append]
          split_ifs at hp ⊢ with c1 c2
          · simp only [Option.map_eq_some'] at hp ⊢
            obtain ⟨q, hq, hq2⟩ := hp
            simp only [Prod.mk.injEq] at hq2
            refine ⟨(q.1, q.2 ++ rest), scan_extend _ _ _ _ _ _ _ hq, ?_⟩
            simp only [Prod.mk.injEq]
            exact ⟨hq2.1, by rw [hq2.2]; rfl⟩
          · simp only [Option.map_eq_some'] at hp ⊢
            obtain ⟨q, hq, hq2⟩ := hp
            simp only [Prod.mk.injEq] at hq2
            refine ⟨(q.1, q.2 ++ rest), scan_extend _ _ _ _ _ _ _ hq, ?_⟩
            simp only [Prod.mk.injEq]
            exact ⟨hq2.1, by rw [hq2.2]; rfl⟩
          · simp at hp
    | _ => simp at h

theorem parseSuffix_stop (t : TypeExpr) (rest : List Char) (h : stop1 rest) :
    parseSuffix t rest = (t, rest) := by
  rcases h with rfl | ⟨r, rfl⟩ | ⟨r, rfl⟩
  · simp [parseSuffix]
  · cases r <;> simp [parseSuffix]
  · cases r <;> simp [parseSuffix]

theorem parseSuffix_reps (j : Nat) :
    ∀ (t : TypeExpr) (rest : List Char), stop1 rest →
      parseSuffix t (reps j ++ rest) = (array^[j] t, rest) := by
  induction j with
  | zero => intro t rest h; simpa [reps] using parseSuffix_stop t rest h
  | succ j ih =>
    intro t rest h
    simp only [reps, List.cons_append, parseSuffix, and_self, if_true, Function.iterate_succ,
      Function.comp_apply]
    exact ih (array t) rest h

theorem reps_head (j : Nat) (rest : List Char) (h : stop1 rest) :
    ∀ x r, reps j ++ rest = x :: r → x = ')' ∨ x = '|' ∨ x = '[' := by
  intro x r hx
  cases j with
  | zero =>
    simp only [reps, List.nil_append] at hx
    rcases h with rfl | ⟨q, rfl⟩ | ⟨q, rfl⟩
    · simp at hx
    · simp only [List.cons.injEq] at hx; exact Or.inl hx.1.symm
    · simp only [List.cons.injEq] at hx; exact Or.inr (Or.inl hx.1.symm)
  | succ j =>
    simp only [reps, List.cons_append, List.cons.injEq] at hx
    exact Or.inr (Or.inr hx.1.symm)

theorem parseAtom_prefix (b : TypeExpr) (text : List Char) (j : Nat) (rest : List Char) (n : Nat)
    (hhead : ∃ c cs, text = c :: cs ∧ isIdentChar c = true)
    (hp : ∀ more, (∀ x r, more = x :: r → x = ')' ∨ x = '|' ∨ x = '[') →
      parsePrefix (text ++ more) = some (b, more))
    (hs : stop1 rest) :
    parseAtom (n + 1) (text ++ (reps j ++ rest)) = some (array^[j] b, rest) := by
  obtain ⟨c, cs, hcs, hc⟩ := hhead
  obtain ⟨c1, c2, c3⟩ := identChar_facts c hc
  have h1 := hp (reps j ++ rest) (reps_head j rest hs)
  rw [hcs] at h1 ⊢
  simp only [List.cons_append] at h1 ⊢
  simp only [parseAtom, if_neg c1, if_neg c2, if_neg c3, h1]
  rw [parseSuffix_reps j b rest hs]

theorem atom_to_union (t : TypeExpr) (cs rest : List Char) (n : Nat)
    (h : parseAtom n cs = some (t, rest)) (hs : stop0 rest) :
    parseUnion (n + 1) cs = some (t, rest) := by
  rcases hs with rfl | ⟨r, rfl⟩
  · simp [parseUnion, h]
  · simp [parseUnion, h]

theorem stop0_stop1 (rest : List Char) (h : stop0 rest) : stop1 rest := by
  rcases h with h | h
  · exact Or.inl h
  · exact Or.inr (Or.inl h)

theorem compound_head (text : String) (h : isCompound text = true) :
    ∃ c cs, text.data = c :: cs ∧ isIdentChar c = true := by
  unfold isCompound at h
  cases hp : parsePrefix text.data with
  | none => simp [hp] at h
  | some r =>
    unfold parsePrefix at hp
    split_ifs at hp with hid
    cases hd : text.data with
    | nil => simp [hd] at hid
    | cons c cs =>
      refine ⟨c, cs, rfl, ?_⟩
      by_contra hc
      apply hid
      simp [hd, List.takeWhile, hc]

theorem ident_head (id : String) (h : isIdent id = true) :
    ∃ c cs, id.data = c :: cs ∧ isIdentChar c = true := by
  obtain ⟨hne, hall⟩ := (isIdent_iff id).mp h
  cases hd : id.data with
  | nil => exact absurd hd hne
  | cons c cs => exact ⟨c, cs, rfl, hall c (by simp [hd])⟩

/-- Reading the bytes of a well-formed expression gives the expression back. -/
theorem parse_print (t : TypeExpr) :
    (wellFormed 2 t = true → ∀ (j : Nat) (rest : List Char) (n : Nat), stop1 rest → need t ≤ n →
      parseAtom n (t.print.data ++ (reps j ++ rest)) = some (array^[j] t, rest)) ∧
    (wellFormed 1 t = true → ∀ (rest : List Char) (n : Nat), stop1 rest → need t ≤ n →
      parseAtom n (t.print.data ++ rest) = some (t, rest)) ∧
    (wellFormed 0 t = true → ∀ (rest : List Char) (n : Nat), stop0 rest → need t + 1 ≤ n →
      parseUnion n (t.print.data ++ rest) = some (t, rest)) := by
  have lower : ∀ t : TypeExpr,
      (∀ (j : Nat) (rest : List Char) (n : Nat), stop1 rest → need t ≤ n →
        parseAtom n (t.print.data ++ (reps j ++ rest)) = some (array^[j] t, rest)) →
      (∀ (rest : List Char) (n : Nat), stop1 rest → need t ≤ n →
        parseAtom n (t.print.data ++ rest) = some (t, rest)) := by
    intro t h rest n hs hn
    simpa [reps] using h 0 rest n hs hn
  have lower0 : ∀ t : TypeExpr,
      (∀ (rest : List Char) (n : Nat), stop1 rest → need t ≤ n →
        parseAtom n (t.print.data ++ rest) = some (t, rest)) →
      (∀ (rest : List Char) (n : Nat), stop0 rest → need t + 1 ≤ n →
        parseUnion n (t.print.data ++ rest) = some (t, rest)) := by
    intro t h rest n hs hn
    obtain ⟨m, rfl⟩ : ∃ m, n = m + 1 := ⟨n - 1, by omega⟩
    exact atom_to_union t _ rest m (h rest m (stop0_stop1 rest hs) (by omega)) hs
  induction t with
  | name id =>
    have h2 : wellFormed 2 (name id) = true → ∀ (j : Nat) (rest : List Char) (n : Nat),
        stop1 rest → need (name id) ≤ n →
        parseAtom n ((name id).print.data ++ (reps j ++ rest)) = some (array^[j] (name id), rest) := by
      intro hw j rest n hs hn
      simp only [wellFormed] at hw
      obtain ⟨m, rfl⟩ : ∃ m, n = m + 1 := ⟨n - 1, by simp only [need] at hn; omega⟩
      exact parseAtom_prefix (name id) id.data j rest m (ident_head id hw)
        (fun more hm => parsePrefix_name id hw more hm) hs
    refine ⟨h2, fun hw => lower _ (h2 (by simpa [wellFormed] using hw)),
      fun hw => lower0 _ (lower _ (h2 (by simpa [wellFormed] using hw)))⟩
  | compound text =>
    have h2 : wellFormed 2 (compound text) = true → ∀ (j : Nat) (rest : List Char) (n : Nat),
        stop1 rest → need (compound text) ≤ n →
        parseAtom n ((compound text).print.data ++ (reps j ++ rest)) =
          some (array^[j] (compound text), rest) := by
      intro hw j rest n hs hn
      simp only [wellFormed] at hw
      obtain ⟨m, rfl⟩ : ∃ m, n = m + 1 := ⟨n - 1, by simp only [need] at hn; omega⟩
      exact parseAtom_prefix (compound text) text.data j rest m (compound_head text hw)
        (fun more _ => parsePrefix_compound text hw more) hs
    refine ⟨h2, fun hw => lower _ (h2 (by simpa [wellFormed] using hw)),
      fun hw => lower0 _ (lower _ (h2 (by simpa [wellFormed] using hw)))⟩
  | paren u ih =>
    have h2 : wellFormed 2 (paren u) = true → ∀ (j : Nat) (rest : List Char) (n : Nat),
        stop1 rest → need (paren u) ≤ n →
        parseAtom n ((paren u).print.data ++ (reps j ++ rest)) =
          some (array^[j] (paren u), rest) := by
      intro hw j rest n hs hn
      simp only [wellFormed] at hw
      simp only [need] at hn
      obtain ⟨m, rfl⟩ : ∃ m, n = m + 1 := ⟨n - 1, by omega⟩
      have hu := ih.2.2 hw (')' :: (reps j ++ rest)) m (Or.inr ⟨_, rfl⟩) (by omega)
      have hd : (paren u).print.data ++ (reps j ++ rest) =
          '(' :: (u.print.data ++ (')' :: (reps j ++ rest))) := by
        simp [print, String.data_append]
      rw [hd]
      simp only [parseAtom, hu]
      simp [parseSuffix_reps j (paren u) rest hs]
    refine ⟨h2, fun hw => lower _ (h2 (by simpa [wellFormed] using hw)),
      fun hw => lower0 _ (lower _ (h2 (by simpa [wellFormed] using hw)))⟩
  | array u ih =>
    have h2 : wellFormed 2 (array u) = true → ∀ (j : Nat) (rest : List Char) (n : Nat),
        stop1 rest → need (array u) ≤ n →
        parseAtom n ((array u).print.data ++ (reps j ++ rest)) =
          some (array^[j] (array u), rest) := by
      intro hw j rest n hs hn
      simp only [wellFormed] at hw
      simp only [need] at hn
      have hu := ih.1 hw (j + 1) rest n hs hn
      have hd : (array u).print.data ++ (reps j ++ rest) =
          u.print.data ++ (reps (j + 1) ++ rest) := by
        simp [print, String.data_append, reps]
      rw [hd, hu]
      rfl
    refine ⟨h2, fun hw => lower _ (h2 (by simpa [wellFormed] using hw)),
      fun hw => lower0 _ (lower _ (h2 (by simpa [wellFormed] using hw)))⟩
  | nullable u ih =>
    have h1 : wellFormed 1 u = true → ∀ (rest : List Char) (n : Nat), stop1 rest →
        need (nullable u) ≤ n →
        parseAtom n ((nullable u).print.data ++ rest) = some (nullable u, rest) := by
      intro hw rest n hs hn
      simp only [need] at hn
      obtain ⟨m, rfl⟩ : ∃ m, n = m + 1 := ⟨n - 1, by omega⟩
      have hu := ih.2.1 hw rest m hs (by omega)
      have hd : (nullable u).print.data ++ rest = '?' :: (u.print.data ++ rest) := by
        simp [print, String.data_append]
      rw [hd]
      simp [parseAtom, hu]
    refine ⟨fun hw => by simp [wellFormed] at hw, fun hw => h1 (by simpa [wellFormed] using hw),
      fun hw => lower0 _ (h1 (by simpa [wellFormed] using hw))⟩
  | prefixArray u ih =>
    have h1 : wellFormed 1 u = true → ∀ (rest : List Char) (n : Nat), stop1 rest →
        need (prefixArray u) ≤ n →
        parseAtom n ((prefixArray u).print.data ++ rest) = some (prefixArray u, rest) := by
      intro hw rest n hs hn
      simp only [need] at hn
      obtain ⟨m, rfl⟩ : ∃ m, n = m + 1 := ⟨n - 1, by omega⟩
      have hu := ih.2.1 hw rest m hs (by omega)
      have hd : (prefixArray u).print.data ++ rest = '[' :: ']' :: (u.print.data ++ rest) := by
        simp [print, String.data_append]
      rw [hd]
      simp [parseAtom, hu]
    refine ⟨fun hw => by simp [wellFormed] at hw, fun hw => h1 (by simpa [wellFormed] using hw),
      fun hw => lower0 _ (h1 (by simpa [wellFormed] using hw))⟩
  | union a b iha ihb =>
    refine ⟨fun hw => by simp [wellFormed] at hw, fun hw => by simp [wellFormed] at hw, ?_⟩
    intro hw rest n hs hn
    simp only [wellFormed, Bool.and_eq_true] at hw
    simp only [need] at hn
    obtain ⟨m, rfl⟩ : ∃ m, n = m + 1 := ⟨n - 1, by omega⟩
    have ha := iha.2.1 hw.1 ('|' :: (b.print.data ++ rest)) m (Or.inr (Or.inr ⟨_, rfl⟩))
      (by have := Nat.le_max_left (need a) (need b + 1); omega)
    have hb := ihb.2.2 hw.2 rest m hs
      (by have := Nat.le_max_right (need a) (need b + 1); omega)
    have hd : (union a b).print.data ++ rest =
        a.print.data ++ ('|' :: (b.print.data ++ rest)) := by
      simp [print, String.data_append]
    rw [hd]
    simp [parseUnion, ha, hb]

theorem wf_mono21 (t : TypeExpr) (h : wellFormed 2 t = true) : wellFormed 1 t = true := by
  cases t <;> simp_all [wellFormed]

theorem wf_mono10 (t : TypeExpr) (h : wellFormed 1 t = true) : wellFormed 0 t = true := by
  cases t <;> simp_all [wellFormed]

theorem parseSuffix_wf (k : Nat) :
    ∀ (cs : List Char) (b : TypeExpr), cs.length ≤ k → wellFormed 2 b = true →
      wellFormed 2 (parseSuffix b cs).1 = true := by
  induction k with
  | zero =>
    intro cs b hk hb
    cases cs with
    | nil => simpa [parseSuffix] using hb
    | cons x xs => simp at hk
  | succ k ih =>
    intro cs b hk hb
    cases cs with
    | nil => simpa [parseSuffix] using hb
    | cons x xs =>
      cases xs with
      | nil => simpa [parseSuffix] using hb
      | cons y ys =>
        simp only [parseSuffix]
        split_ifs
        · exact ih ys (array b) (by simp only [List.length_cons] at hk; omega)
            (by simpa [wellFormed] using hb)
        · exact hb

theorem parsePrefix_wf (cs : List Char) (b : TypeExpr) (rest : List Char)
    (h : parsePrefix cs = some (b, rest)) : wellFormed 2 b = true := by
  unfold parsePrefix at h
  split_ifs at h with hid
  have hall := takeWhile_all isIdentChar cs
  have hname : wellFormed 2 (name (String.mk (cs.takeWhile isIdentChar))) = true := by
    simp only [wellFormed]
    exact (isIdent_iff _).mpr ⟨hid, hall⟩
  have hcomp : ∀ (x : Char) (o c : Char) (body : List Char) (r : List Char × List Char),
      isIdentChar x = false →
      (x = '(' ∧ (cs.takeWhile isIdentChar = "shape".data ∨
        cs.takeWhile isIdentChar = "tuple".data) → o = '(' ∧ c = ')') →
      (¬ (x = '(' ∧ (cs.takeWhile isIdentChar = "shape".data ∨
        cs.takeWhile isIdentChar = "tuple".data)) →
        x = '<' ∧ cs.takeWhile isIdentChar = "array".data ∧ o = '<' ∧ c = '>') →
      scanClose o c body 0 = some r →
      wellFormed 2 (compound (String.mk (cs.takeWhile isIdentChar ++ x :: r.1))) = true := by
    intro x o c body r hx hc1 hc2 hscan
    simp only [wellFormed, isCompound]
    have hr := scan_restrict o c body 0 r.1 r.2 hscan
    have hx2 : ∀ y q, x :: r.1 = y :: q → isIdentChar y = false := by
      intro y q hy
      simp only [List.cons.injEq] at hy
      rw [← hy.1]; exact hx
    obtain ⟨e1, e2⟩ := takeWhile_append_stop isIdentChar (cs.takeWhile isIdentChar) (x :: r.1)
      hall hx2
    have hp : parsePrefix (cs.takeWhile isIdentChar ++ x :: r.1) =
        some (compound (String.mk (cs.takeWhile isIdentChar ++ x :: r.1)), []) := by
      unfold parsePrefix
      rw [e1, e2, if_neg hid]
      simp only
      by_cases c1 : x = '(' ∧ (cs.takeWhile isIdentChar = "shape".data ∨
          cs.takeWhile isIdentChar = "tuple".data)
      · obtain ⟨rfl, rfl⟩ := hc1 c1
        rw [if_pos c1, hr]
        rfl
      · obtain ⟨h3, h4, rfl, rfl⟩ := hc2 c1
        rw [if_neg c1, if_pos ⟨h3, h4⟩, hr]
        rfl
    rw [hp]
    simp
  cases hd : cs.dropWhile isIdentChar with
  | nil =>
    simp only [hd, Option.some.injEq, Prod.mk.injEq] at h
    rw [← h.1]; exact hname
  | cons x body =>
    have hx := dropWhile_head isIdentChar cs x body hd
    simp only [hd] at h
    split_ifs at h with c1 c2
    · simp only [Option.map_eq_some'] at h
      obtain ⟨r, hr, hb⟩ := h
      simp only [Prod.mk.injEq] at hb
      rw [← hb.1]
      exact hcomp x '(' ')' body r hx (fun _ => ⟨rfl, rfl⟩) (fun hn => absurd c1 hn) hr
    · simp only [Option.map_eq_some'] at h
      obtain ⟨r, hr, hb⟩ := h
      simp only [Prod.mk.injEq] at hb
      rw [← hb.1]
      exact hcomp x '<' '>' body r hx (fun hc => absurd hc c1) (fun _ => ⟨c2.1, c2.2, rfl, rfl⟩) hr
    · simp only [Option.some.injEq, Prod.mk.injEq] at h
      rw [← h.1]; exact hname

/-- What the reader returns is well formed. -/
theorem parse_wf (n : Nat) :
    (∀ cs t rest, parseAtom n cs = some (t, rest) → wellFormed 1 t = true) ∧
    (∀ cs t rest, parseUnion n cs = some (t, rest) → wellFormed 0 t = true) := by
  induction n with
  | zero => constructor <;> (intro cs t rest h; simp [parseAtom, parseUnion] at h)
  | succ n ih =>
    constructor
    · intro cs t rest h
      cases cs with
      | nil => simp [parseAtom] at h
      | cons c cs =>
        simp only [parseAtom] at h
        split_ifs at h with h1 h2 h3
        · simp only [Option.map_eq_some'] at h
          obtain ⟨r, hr, hb⟩ := h
          simp only [Prod.mk.injEq] at hb
          rw [← hb.1]
          simpa [wellFormed] using ih.1 cs r.1 r.2 hr
        · cases cs with
          | nil => simp at h
          | cons d cs2 =>
            simp only at h
            split_ifs at h
            simp only [Option.map_eq_some'] at h
            obtain ⟨r, hr, hb⟩ := h
            simp only [Prod.mk.injEq] at hb
            rw [← hb.1]
            simpa [wellFormed] using ih.1 cs2 r.1 r.2 hr
        · cases hu : parseUnion n cs with
          | none => simp [hu] at h
          | some r =>
            obtain ⟨u, rem⟩ := r
            cases rem with
            | nil => simp [hu] at h
            | cons d cs2 =>
              simp only [hu] at h
              split_ifs at h
              simp only [Option.some.injEq] at h
              have hw : wellFormed 2 (paren u) = true := by
                simpa [wellFormed] using ih.2 cs u (d :: cs2) hu
              have := parseSuffix_wf cs2.length cs2 (paren u) (Nat.le_refl _) hw
              rw [h] at this
              exact wf_mono21 _ this
        · cases hp : parsePrefix (c :: cs) with
          | none => simp [hp] at h
          | some r =>
            obtain ⟨b, rem⟩ := r
            simp only [hp, Option.some.injEq] at h
            have hw := parsePrefix_wf (c :: cs) b rem hp
            have := parseSuffix_wf rem.length rem b (Nat.le_refl _) hw
            rw [h] at this
            exact wf_mono21 _ this
    · intro cs t rest h
      simp only [parseUnion] at h
      cases ha : parseAtom n cs with
      | none => simp [ha] at h
      | some r =>
        obtain ⟨a, rem⟩ := r
        have hwa := ih.1 cs a rem ha
        simp only [ha] at h
        cases rem with
        | nil =>
          simp only [Option.some.injEq, Prod.mk.injEq] at h
          rw [← h.1]; exact wf_mono10 _ hwa
        | cons c rest2 =>
          simp only at h
          split_ifs at h
          · cases hu : parseUnion n rest2 with
            | none => simp [hu] at h
            | some q =>
              obtain ⟨u, rest3⟩ := q
              simp only [hu, Option.some.injEq, Prod.mk.injEq] at h
              rw [← h.1]
              simp [wellFormed, hwa, ih.2 rest2 u rest3 hu]
          · simp only [Option.some.injEq, Prod.mk.injEq] at h
            rw [← h.1]; exact wf_mono10 _ hwa

theorem need_le (t : TypeExpr) : need t ≤ 2 * t.print.data.length + 1 := by
  induction t with
  | name id => simp [need]
  | compound text => simp [need]
  | nullable u ih =>
    simp only [need, print, String.data_append, List.length_append, List.length_cons,
      List.length_nil]
    omega
  | prefixArray u ih =>
    simp only [need, print, String.data_append, List.length_append, List.length_cons,
      List.length_nil]
    omega
  | array u ih =>
    simp only [need, print, String.data_append, List.length_append, List.length_cons,
      List.length_nil]
    omega
  | paren u ih =>
    simp only [need, print, String.data_append, List.length_append, List.length_cons,
      List.length_nil]
    omega
  | union a b iha ihb =>
    simp only [need, print, String.data_append, List.length_append, List.length_cons,
      List.length_nil]
    apply Nat.max_le.mpr
    constructor <;> omega

theorem parseType_print (t : TypeExpr) (h : wellFormed 0 t = true) :
    parseType t.print = t := by
  have := (parse_print t).2.2 h [] (2 * t.print.data.length + 2) (Or.inl rfl)
    (by have := need_le t; omega)
  simp only [List.append_nil] at this
  simp only [parseType, this]

theorem parseType_wf (s : String) :
    wellFormed 0 (parseType s) = true ∨ parseType s = name s := by
  unfold parseType
  cases h : parseUnion (2 * s.data.length + 2) s.data with
  | none => right; rfl
  | some r =>
    obtain ⟨t, rest⟩ := r
    cases rest with
    | nil => left; exact (parse_wf _).2 _ _ _ h
    | cons c cs => right; rfl

theorem wf_pushArray (x : TypeExpr) (h : wellFormed 1 x = true) (hs : suffixForm x = x) :
    wellFormed 1 (pushArray x) = true := by
  induction x with
  | nullable y ih =>
    simp only [suffixForm, nullable.injEq] at hs
    simp only [wellFormed] at h
    simpa [pushArray, wellFormed] using ih h hs
  | prefixArray y _ => exact absurd hs (pushArray_ne_prefixArray _ _)
  | name id => simpa [pushArray, wellFormed] using h
  | compound text => simpa [pushArray, wellFormed] using h
  | paren u _ => simpa [pushArray, wellFormed] using h
  | array u _ => simpa [pushArray, wellFormed] using h
  | union a b _ _ => simp [wellFormed] at h

theorem wf_suffixForm (t : TypeExpr) :
    (wellFormed 2 t = true → wellFormed 2 (suffixForm t) = true) ∧
    (wellFormed 1 t = true → wellFormed 1 (suffixForm t) = true) ∧
    (wellFormed 0 t = true → wellFormed 0 (suffixForm t) = true) := by
  induction t with
  | name id => simp [suffixForm]
  | compound text => simp [suffixForm]
  | paren u ih => simpa [suffixForm, wellFormed] using ih.2.2
  | array u ih => simpa [suffixForm, wellFormed] using ih.1
  | nullable u ih => simpa [suffixForm, wellFormed] using ih.2.1
  | prefixArray u ih =>
    have h1 : wellFormed 1 u = true → wellFormed 1 (pushArray (suffixForm u)) = true :=
      fun h => wf_pushArray _ (ih.2.1 h) (suffixForm_idem u)
    refine ⟨by simp [wellFormed], ?_, ?_⟩
    · intro h
      exact h1 (by simpa [wellFormed] using h)
    · intro h
      exact wf_mono10 _ (h1 (by simpa [wellFormed] using h))
  | union a b iha ihb =>
    refine ⟨by simp [wellFormed], by simp [wellFormed], ?_⟩
    intro h
    simp only [wellFormed, Bool.and_eq_true] at h
    simp [suffixForm, wellFormed, iha.2.1 h.1, ihb.2.2 h.2]

theorem bareUnion_wf (u : TypeExpr) :
    wellFormed 0 u = true → ∀ r, bareUnion u = some r → ∀ b ∈ r.1, wellFormed 2 b = true := by
  induction u with
  | name id =>
    intro h r hr b hb
    simp only [bareUnion, Option.some.injEq] at hr
    subst hr
    simp only [List.mem_singleton] at hb
    subst hb
    simpa [wellFormed] using h
  | compound text =>
    intro h r hr b hb
    simp only [bareUnion, Option.some.injEq] at hr
    subst hr
    simp only [List.mem_singleton] at hb
    subst hb
    simpa [wellFormed] using h
  | array t _ =>
    intro h r hr b hb
    simp only [bareUnion] at hr
    split at hr
    · simp only [Option.some.injEq] at hr
      subst hr
      simp only [List.mem_singleton] at hb
      subst hb
      simpa [wellFormed] using h
    · simp at hr
  | nullable t ih =>
    intro h r hr b hb
    simp only [bareUnion, Option.map_eq_some'] at hr
    obtain ⟨q, hq, rfl⟩ := hr
    exact ih (wf_mono10 _ (by simpa [wellFormed] using h)) q hq b hb
  | union x y ihx ihy =>
    intro h r hr b hb
    simp only [wellFormed, Bool.and_eq_true] at h
    simp only [bareUnion] at hr
    split at hr
    · rename_i p q hp hq
      simp only [Option.some.injEq] at hr
      subst hr
      rcases List.mem_append.mp hb with hb | hb
      · exact ihx (wf_mono10 _ h.1) p hp b hb
      · exact ihy h.2 q hq b hb
    · simp at hr
  | paren t _ => intro h r hr; simp [bareUnion] at hr
  | prefixArray t _ => intro h r hr; simp [bareUnion] at hr

theorem topMembers_wf (t : TypeExpr) :
    wellFormed 0 t = true → suffixForm t = t →
      ∀ m ∈ (topMembers t).1, wellFormed 2 m = true := by
  induction t with
  | name id =>
    intro h _ m hm
    simp only [topMembers, List.mem_singleton] at hm
    subst hm
    simpa [wellFormed] using h
  | compound text =>
    intro h _ m hm
    simp only [topMembers, List.mem_singleton] at hm
    subst hm
    simpa [wellFormed] using h
  | nullable u ih =>
    intro h hs m hm
    simp only [suffixForm, nullable.injEq] at hs
    simp only [topMembers] at hm
    exact ih (wf_mono10 _ (by simpa [wellFormed] using h)) hs m hm
  | paren u ih =>
    intro h hs m hm
    simp only [suffixForm, paren.injEq] at hs
    simp only [topMembers] at hm
    exact ih (by simpa [wellFormed] using h) hs m hm
  | union a b iha ihb =>
    intro h hs m hm
    simp only [suffixForm, union.injEq] at hs
    simp only [wellFormed, Bool.and_eq_true] at h
    simp only [topMembers] at hm
    rcases List.mem_append.mp hm with hm | hm
    · exact iha (wf_mono10 _ h.1) hs.1 m hm
    · exact ihb h.2 hs.2 m hm
  | prefixArray u _ =>
    intro _ hs
    exact absurd hs (pushArray_ne_prefixArray _ _)
  | array u _ =>
    intro h _ m hm
    simp only [wellFormed] at h
    simp only [topMembers] at hm
    cases he : elemMembers u with
    | none =>
      simp only [he, List.mem_singleton] at hm
      subst hm
      simpa [wellFormed] using h
    | some r =>
      simp only [he, List.mem_map] at hm
      obtain ⟨b, hb, rfl⟩ := hm
      cases u with
      | paren v =>
        simp only [elemMembers] at he
        simp only [wellFormed]
        exact bareUnion_wf v (by simpa [wellFormed] using h) r he b hb
      | _ => simp [elemMembers] at he

theorem isIdent_foldAlias (id : String) (h : isIdent id = true) :
    isIdent (foldAlias id) = true := by
  unfold foldAlias
  split_ifs
  · decide
  · decide
  · decide
  · exact h

theorem normSpine_wf (m : TypeExpr) (h : wellFormed 2 m = true) :
    wellFormed 2 (normSpine m) = true := by
  induction m with
  | name id =>
    simp only [wellFormed] at h
    simp only [normSpine]
    split_ifs
    · decide
    · simpa [wellFormed] using isIdent_foldAlias id h
  | array t ih =>
    simp only [wellFormed] at h
    simpa [normSpine, wellFormed] using ih h
  | compound text => simpa [normSpine] using h
  | paren u _ => simpa [normSpine] using h
  | nullable u _ => simp [wellFormed] at h
  | prefixArray u _ => simp [wellFormed] at h
  | union a b _ _ => simp [wellFormed] at h

theorem loweredMembers_wf (t : TypeExpr) (h : wellFormed 0 t = true) :
    ∀ m ∈ loweredMembers t, wellFormed 2 m = true := by
  intro m hm
  simp only [loweredMembers, List.mem_append, List.mem_map] at hm
  rcases hm with ⟨x, hx, rfl⟩ | hnull
  · exact normSpine_wf x
      (topMembers_wf (suffixForm t) ((wf_suffixForm t).2.2 h) (suffixForm_idem t) x hx)
  · split at hnull
    · simp only [List.mem_singleton] at hnull
      subst hnull
      decide
    · simp at hnull

theorem normalMembers_wf (t : TypeExpr)
    (h : wellFormed 0 t = true ∨ ∃ s, t = name s) :
    ∀ m ∈ normalMembers t, wellFormed 2 m = true := by
  have hmixed : ∀ m ∈ [name "mixed"], wellFormed 2 m = true := by
    intro m hm
    simp only [List.mem_singleton] at hm
    subst hm
    decide
  rcases h with h | ⟨s, rfl⟩
  · unfold normalMembers
    rcases freeTextToMixed_cases (loweredMembers t) with ⟨id, _, _, h3⟩ | h3
    · rw [h3]; exact hmixed
    · rw [h3]; exact loweredMembers_wf t h
  · by_cases hi : isIdent s = true
    · unfold normalMembers
      rcases freeTextToMixed_cases (loweredMembers (name s)) with ⟨id, _, _, h3⟩ | h3
      · rw [h3]; exact hmixed
      · rw [h3]; exact loweredMembers_wf (name s) (by simpa [wellFormed] using hi)
    · have hs : s ≠ "array" := by
        rintro rfl
        exact hi (by decide)
      have hf : foldAlias s = s := by
        unfold foldAlias
        split_ifs with h1 h2 h3
        · rcases h1 with rfl | rfl <;> exact absurd (by decide) hi
        · subst h2; exact absurd (by decide) hi
        · rcases h3 with rfl | rfl <;> exact absurd (by decide) hi
        · rfl
      have : normalMembers (name s) = [name "mixed"] := by
        simp [normalMembers, loweredMembers, suffixForm, topMembers, normSpine, hs, hf,
          freeTextToMixed, hi]
      rw [this]; exact hmixed

theorem joinUnion_wf (L : List TypeExpr) (hne : L ≠ [])
    (h : ∀ m ∈ L, wellFormed 2 m = true) : wellFormed 0 (joinUnion L) = true := by
  induction L with
  | nil => exact absurd rfl hne
  | cons a rest ih =>
    cases rest with
    | nil => exact wf_mono10 _ (wf_mono21 _ (h a (by simp)))
    | cons b rest2 =>
      have h1 := ih (by simp) (fun m hm => h m (List.mem_cons_of_mem _ hm))
      simp only [joinUnion, wellFormed, Bool.and_eq_true]
      exact ⟨wf_mono21 _ (h a (by simp)), h1⟩

theorem normalize_wf (t : TypeExpr) (h : wellFormed 0 t = true ∨ ∃ s, t = name s) :
    wellFormed 0 (normalize t) = true :=
  joinUnion_wf _ (normalMembers_settled t).1 (normalMembers_wf t h)

theorem normalize_normalize (t : TypeExpr) : normalize (normalize t) = normalize t := by
  show joinUnion (normalMembers (normalize t)) = joinUnion (normalMembers t)
  rw [normalMembers_normalize]

theorem parseType_normalizeText (s : String) :
    parseType (normalizeText s) = normalize (parseType s) := by
  apply parseType_print
  apply normalize_wf
  rcases parseType_wf s with h | h
  · exact Or.inl h
  · exact Or.inr ⟨s, h⟩

theorem normalizeText_idem (s : String) :
    normalizeText (normalizeText s) = normalizeText s := by
  show (normalize (parseType (normalizeText s))).print = (normalize (parseType s)).print
  rw [parseType_normalizeText, normalize_normalize]

example : normalizeText "(integer|(a))[]|?boolean" = "(integer|(a))[]|bool|null" := by decide

/-- C3. Normalization is idempotent on bytes: for every text of a type,
normalizing the normalized form gives exactly the bytes of normalizing once.
The bytes of the normalized form read back as the normalized expression, and
normalizing that expression leaves it as it is. The same holds from an
expression of the grammar, whose bytes read back as the expression. So
`[]?int` and `?int[]` normalize to `int[]|null`, and that to itself. -/
theorem normalize_idempotent (s : String) :
    normalizeText (normalizeText s) = normalizeText s ∧
    parseType (normalizeText s) = normalize (parseType s) ∧
    normalize (normalize (parseType s)) = normalize (parseType s) ∧
    (∀ t : TypeExpr, wellFormed 0 t = true →
      parseType t.print = t ∧
      normalizeText t.print = (normalize t).print ∧
      normalizeText (normalize t).print = (normalize t).print) ∧
    normalizeText "[]?int" = "int[]|null" ∧
    normalizeText "?int[]" = "int[]|null" ∧
    normalizeText "int[]|null" = "int[]|null" := by
  refine ⟨normalizeText_idem s, parseType_normalizeText s, normalize_normalize _, ?_,
    by decide, by decide, by decide⟩
  intro t ht
  have h1 := parseType_print t ht
  have h2 : normalizeText t.print = (normalize t).print := by
    show (normalize (parseType t.print)).print = _
    rw [h1]
  refine ⟨h1, h2, ?_⟩
  rw [← h2]
  exact normalizeText_idem _

/-- Witness of C3: the expression `[]?int` follows the grammar; its bytes
normalize to the bytes of its normalized form, which normalize to
themselves. -/
theorem normalize_idempotent_witness :
    parseType (prefixArray (nullable (name "int"))).print = prefixArray (nullable (name "int")) ∧
    normalizeText (prefixArray (nullable (name "int"))).print =
      (normalize (prefixArray (nullable (name "int")))).print ∧
    normalizeText (normalize (prefixArray (nullable (name "int")))).print =
      (normalize (prefixArray (nullable (name "int")))).print :=
  (normalize_idempotent "").2.2.2.1 (prefixArray (nullable (name "int"))) (by decide)

/-! ## Resolution of `Static` terms -/

theorem resolveTerm_static (idx : Index) (n : Nat) (ctx : String) (te : TypeExpr) :
    resolveTerm idx (n + 1) ctx (.Static te) [] = some (staticAtoms ctx te) := by
  simp [resolveTerm]

theorem ResolveTypes_static (idx : Index) (ctx : String) (te : TypeExpr) :
    ResolveTypes idx ctx [.Static te] [] = (postProcess (staticAtoms ctx te)).toFinset := by
  have hb : budget idx [.Static te] =
      (maxSize ([.Static te] ++ idx.returnTerms) +
        (allCalls ([.Static te] ++ idx.returnTerms)).length *
          (maxSize ([.Static te] ++ idx.returnTerms) + 1)) + 1 := rfl
  unfold ResolveTypes
  rw [hb]
  simp [collect, resolveTerm_static]

theorem mem_postProcess (s : List String) (a : String) :
    a ∈ postProcess s ↔
      (s = [] ∧ a = "mixed") ∨
      (s ≠ [] ∧ "empty_array" ∉ s ∧ a ∈ s) ∨
      ("empty_array" ∈ s ∧ (∃ x ∈ s, isArrayAtom x = true) ∧ a ∈ s ∧ a ≠ "empty_array") ∨
      ("empty_array" ∈ s ∧ (¬ ∃ x ∈ s, isArrayAtom x = true) ∧
        ((a ∈ s ∧ a ≠ "empty_array") ∨ a = "mixed[]")) := by
  unfold postProcess
  by_cases h1 : s = []
  · subst h1; simp
  · by_cases h2 : "empty_array" ∈ s
    · by_cases h3 : ∃ x ∈ s, isArrayAtom x = true
      · have h3b : s.any isArrayAtom = true := List.any_eq_true.mpr h3
        simp [h1, h2, h3, h3b]
      · have h3b : s.any isArrayAtom = false := by
          rw [Bool.eq_false_iff]
          exact fun h => h3 (List.any_eq_true.mp h)
        rw [if_neg h1, if_pos h2, h3b]
        simp only [Bool.false_eq_true, if_false, List.mem_map]
        constructor
        · rintro ⟨x, hx, rfl⟩
          right; right; right
          refine ⟨h2, h3, ?_⟩
          by_cases hxe : x = "empty_array"
          · right; simp [hxe]
          · left; simp [hxe, hx]
        · intro h
          rcases h with ⟨h, _⟩ | ⟨_, h, _⟩ | ⟨_, h, _⟩ | ⟨_, _, h⟩
          · exact absurd h h1
          · exact absurd h2 h
          · exact absurd h h3
          · rcases h with ⟨ha, hne⟩ | rfl
            · exact ⟨a, ha, by simp [hne]⟩
            · exact ⟨"empty_array", h2, by simp⟩
    · simp [h1, h2]

theorem postProcess_congr (s t : List String) (h : ∀ a, a ∈ s ↔ a ∈ t) :
    (postProcess s).toFinset = (postProcess t).toFinset := by
  have he : s = [] ↔ t = [] := by
    simp only [List.eq_nil_iff_forall_not_mem]
    exact ⟨fun hs a ha => hs a ((h a).mpr ha), fun ht a ha => ht a ((h a).mp ha)⟩
  have hx : (∃ x ∈ s, isArrayAtom x = true) ↔ (∃ x ∈ t, isArrayAtom x = true) :=
    ⟨fun ⟨x, hx, hp⟩ => ⟨x, (h x).mp hx, hp⟩, fun ⟨x, hx, hp⟩ => ⟨x, (h x).mpr hx, hp⟩⟩
  ext a
  simp only [List.mem_toFinset, mem_postProcess, ne_eq, he, hx, h]

theorem freeTextToMixed_of_length (L : List TypeExpr) (h : 2 ≤ L.length) :
    freeTextToMixed L = L := by
  unfold freeTextToMixed
  split
  · simp at h
  · rfl

theorem normalMembers_nullable (T : TypeExpr) :
    normalMembers (nullable T) =
      (topMembers (suffixForm T)).1.map normSpine ++ [name "null"] := by
  obtain ⟨hne, _⟩ := topMembers_settled (suffixForm T) (suffixForm_idem T)
  have hl : loweredMembers (nullable T) =
      (topMembers (suffixForm T)).1.map normSpine ++ [name "null"] := by
    simp [loweredMembers, suffixForm, topMembers]
  unfold normalMembers
  rw [hl]
  apply freeTextToMixed_of_length
  cases hm : (topMembers (suffixForm T)).1 with
  | nil => exact absurd hm hne
  | cons a rest => simp

theorem mem_normalMembers_union_null (T m : TypeExpr) :
    m ∈ normalMembers (union T (name "null")) ↔ m ∈ normalMembers (nullable T) := by
  obtain ⟨hne, _⟩ := topMembers_settled (suffixForm T) (suffixForm_idem T)
  have hnull : normSpine (name "null") = name "null" := by decide
  have hl : loweredMembers (union T (name "null")) =
      (topMembers (suffixForm T)).1.map normSpine ++ [name "null"] ++
        (if (topMembers (suffixForm T)).2 then [name "null"] else []) := by
    simp [loweredMembers, suffixForm, topMembers, hnull]
  have hf : normalMembers (union T (name "null")) = loweredMembers (union T (name "null")) := by
    unfold normalMembers
    apply freeTextToMixed_of_length
    rw [hl]
    cases hm : (topMembers (suffixForm T)).1 with
    | nil => exact absurd hm hne
    | cons a rest => simp; omega
  rw [hf, hl, normalMembers_nullable]
  split <;> simp

/-- C9. Nullable lowering: for every type `T` and every context, the
annotation `?T` resolves to the same Type Set as `T|null`; so `?int` gives
`int|null`, `?int|?string` gives `int|string|null`, and `?int[]` gives
`int[]|null`. -/
theorem nullable_lowering (T : TypeExpr) (idx : Index) (ctx : String) :
    ResolveTypes idx ctx [.Static (nullable T)] [] =
      ResolveTypes idx ctx [.Static (union T (name "null"))] [] ∧
    ResolveTypes idx ctx [.Static (nullable (name "int"))] [] = {"int", "null"} ∧
    ResolveTypes idx ctx [.Static (union (nullable (name "int")) (nullable (name "string")))] []
      = {"int", "string", "null"} ∧
    ResolveTypes idx ctx [.Static (nullable (array (name "int")))] [] = {"int[]", "null"} := by
  refine ⟨?_, ?_, ?_, ?_⟩
  · rw [ResolveTypes_static, ResolveTypes_static]
    apply postProcess_congr
    intro a
    simp only [staticAtoms, List.mem_map, mem_normalMembers_union_null]
  · rw [ResolveTypes_static]
    have : staticAtoms ctx (nullable (name "int")) = ["int", "null"] := by
      have h : normalMembers (nullable (name "int")) = [name "int", name "null"] := by decide
      simp [staticAtoms, h, bindStatic, TypeExpr.print]
    rw [this]; decide
  · rw [ResolveTypes_static]
    have : staticAtoms ctx (union (nullable (name "int")) (nullable (name "string")))
        = ["int", "string", "null"] := by
      have h : normalMembers (union (nullable (name "int")) (nullable (name "string")))
          = [name "int", name "string", name "null"] := by decide
      simp [staticAtoms, h, bindStatic, TypeExpr.print]
    rw [this]; decide
  · rw [ResolveTypes_static]
    have : staticAtoms ctx (nullable (array (name "int"))) = ["int[]", "null"] := by
      have h : normalMembers (nullable (array (name "int")))
          = [array (name "int"), name "null"] := by decide
      simp [staticAtoms, h, bindStatic, TypeExpr.print]
    rw [this]; decide

theorem budget_call (idx : Index) (t : LazyTerm) (rest : List LazyTerm)
    (ht : t.calls ≠ []) : ∃ n, budget idx (t :: rest) = n + 2 := by
  unfold budget
  have hC : 1 ≤ (allCalls (t :: rest ++ idx.returnTerms)).length := by
    cases hc : t.calls with
    | nil => exact absurd hc ht
    | cons c cs => simp [allCalls, hc]
  have hx : 1 ≤ (allCalls (t :: rest ++ idx.returnTerms)).length *
      (maxSize (t :: rest ++ idx.returnTerms) + 1) := Nat.mul_pos hC (Nat.succ_pos _)
  generalize (allCalls (t :: rest ++ idx.returnTerms)).length *
      (maxSize (t :: rest ++ idx.returnTerms) + 1) = x at hx
  exact ⟨maxSize (t :: rest ++ idx.returnTerms) + x - 1, by omega⟩

theorem ResolveTypes_call_static (idx : Index) (ctx f : String) (fi : FunctionInfo)
    (te : TypeExpr) (hf : idx.GetFunction f = some fi) (ht : fi.Typ.terms = [.Static te]) :
    ResolveTypes idx ctx [.CallResult f] [] = (postProcess (staticAtoms ctx te)).toFinset := by
  obtain ⟨n, hn⟩ := budget_call idx (.CallResult f) [] (by simp [LazyTerm.calls])
  unfold ResolveTypes
  rw [hn]
  simp [collect, resolveTerm, hf, ht]

/-- C2. Alias equivalence: for every alias pair the alias and the canonical
scalar normalize to the same type and resolve to the same Type Set, and a
function whose `@return` names the alias resolves to the same Type Set as one
whose `@return` names the canonical scalar, namely the set of that scalar. -/
theorem alias_equivalence (p : String × String) (hp : p ∈ aliasPairs) :
    normalize (name p.1) = normalize (name p.2) ∧
    (∀ (idx : Index) (ctx : String),
      ResolveTypes idx ctx [.Static (name p.1)] [] =
        ResolveTypes idx ctx [.Static (name p.2)] []) ∧
    (∀ (idx : Index) (f g : String) (fa fc : FunctionInfo),
      idx.GetFunction f = some fa → fa.Typ.terms = [.Static (name p.1)] →
      idx.GetFunction g = some fc → fc.Typ.terms = [.Static (name p.2)] →
      ResolveTypes idx "" [.CallResult f] [] = ResolveTypes idx "" [.CallResult g] [] ∧
      ResolveTypes idx "" [.CallResult g] [] = {p.2}) := by
  have hmem : normalMembers (name p.1) = [name p.2] ∧ normalMembers (name p.2) = [name p.2] := by
    simp only [aliasPairs, List.mem_cons, List.mem_singleton, List.not_mem_nil, or_false] at hp
    rcases hp with rfl | rfl | rfl | rfl | rfl <;> decide
  have hst : ∀ ctx, staticAtoms ctx (name p.1) = staticAtoms ctx (name p.2) := by
    intro ctx
    simp [staticAtoms, hmem.1, hmem.2]
  have hval : (postProcess (staticAtoms "" (name p.2))).toFinset = {p.2} := by
    simp only [aliasPairs, List.mem_cons, List.mem_singleton, List.not_mem_nil, or_false] at hp
    rcases hp with rfl | rfl | rfl | rfl | rfl <;> decide
  refine ⟨?_, ?_, ?_⟩
  · show joinUnion (normalMembers (name p.1)) = joinUnion (normalMembers (name p.2))
    rw [hmem.1, hmem.2]
  · intro idx ctx
    rw [ResolveTypes_static, ResolveTypes_static, hst]
  · intro idx f g fa fc hf hfa hg hgc
    rw [ResolveTypes_call_static idx "" f fa _ hf hfa,
      ResolveTypes_call_static idx "" g fc _ hg hgc, hst]
    exact ⟨rfl, hval⟩

/-- Witness of C2 at the pair `integer/int`: `alias_integer()` and
`alias_long()` of `TestExprTypeFixes` resolve to the same set, `int`. -/
theorem alias_equivalence_witness :
    normalize (name "integer") = normalize (name "int") ∧
    ResolveTypes fixesIndex "" [.CallResult "\\alias_integer"] [] = {"int"} :=
  have h := alias_equivalence ("integer", "int") (by decide)
  have h3 := h.2.2 fixesIndex "\\alias_integer" "\\plain_int"
    (declared (name "integer")) (declared (name "int")) (by decide) rfl (by decide) rfl
  ⟨h.1, h3.1.trans h3.2⟩

/-! ## Distribution of an array over a bare union -/

theorem isSpine_facts (a : TypeExpr) (h : isSpine a = true) :
    suffixForm a = a ∧ elemMembers a = none ∧ bareUnion a = some ([a], false) := by
  induction a with
  | name id => simp [suffixForm, elemMembers, bareUnion]
  | compound text => simp [suffixForm, elemMembers, bareUnion]
  | array t ih =>
    simp only [isSpine] at h
    simp [suffixForm, elemMembers, bareUnion, h, (ih h).1]
  | _ => simp [isSpine] at h

theorem bareUnion_joinUnion (as : List TypeExpr) (hne : as ≠ [])
    (hbare : ∀ a ∈ as, isSpine a = true) :
    bareUnion (joinUnion as) = some (as, false) := by
  induction as with
  | nil => exact absurd rfl hne
  | cons a rest ih =>
    cases rest with
    | nil => simpa [joinUnion] using (isSpine_facts a (hbare a (by simp))).2.2
    | cons b rest2 =>
      have h1 := ih (by simp) (fun x hx => hbare x (List.mem_cons_of_mem _ hx))
      simp [joinUnion, bareUnion, h1, (isSpine_facts a (hbare a (by simp))).2.2]

theorem freeTextToMixed_array (x : TypeExpr) (rest : List TypeExpr) :
    freeTextToMixed (array x :: rest) = array x :: rest := by
  unfold freeTextToMixed
  split
  · rename_i h; simp at h
  · rfl

theorem normalMembers_array_paren (as : List TypeExpr) (hne : as ≠ [])
    (hbare : ∀ a ∈ as, isSpine a = true) :
    normalMembers (array (paren (joinUnion as))) = as.map fun a => array (normSpine a) := by
  have hs : suffixForm (joinUnion as) = joinUnion as :=
    suffixForm_joinUnion as (fun a ha => (isSpine_facts a (hbare a ha)).1)
  have hl : loweredMembers (array (paren (joinUnion as))) =
      as.map fun a => array (normSpine a) := by
    simp [loweredMembers, suffixForm, hs, topMembers, elemMembers,
      bareUnion_joinUnion as hne hbare, normSpine]
  unfold normalMembers
  rw [hl]
  cases as with
  | nil => exact absurd rfl hne
  | cons a rest => exact freeTextToMixed_array _ _

theorem normalMembers_union_of_arrays (as : List TypeExpr) (hne : as ≠ [])
    (hbare : ∀ a ∈ as, isSpine a = true) :
    normalMembers (joinUnion (as.map array)) = as.map fun a => array (normSpine a) := by
  have hs : suffixForm (joinUnion (as.map array)) = joinUnion (as.map array) := by
    apply suffixForm_joinUnion
    intro l hl
    obtain ⟨a, ha, rfl⟩ := List.mem_map.mp hl
    simp [suffixForm, (isSpine_facts a (hbare a ha)).1]
  have ht : topMembers (joinUnion (as.map array)) = (as.map array, false) := by
    apply topMembers_joinUnion _ (by simpa using hne)
    intro l hl
    obtain ⟨a, ha, rfl⟩ := List.mem_map.mp hl
    simp [topMembers, (isSpine_facts a (hbare a ha)).2.1]
  have hl : loweredMembers (joinUnion (as.map array)) =
      as.map fun a => array (normSpine a) := by
    simp [loweredMembers, hs, ht, normSpine]
  unfold normalMembers
  rw [hl]
  cases as with
  | nil => exact absurd rfl hne
  | cons a rest => exact freeTextToMixed_array _ _

theorem bindStatic_empty (t : TypeExpr) : bindStatic "" t = t := by
  induction t with
  | name id => simp [bindStatic]
  | array t ih => simp [bindStatic, ih]
  | _ => simp [bindStatic]

theorem append_brackets_ne_empty_array (y : String) : y ++ "[]" ≠ "empty_array" := by
  intro h
  have h1 := congrArg (fun s : String => s.data.getLast?) h
  simp at h1

theorem postProcess_arrays (L : List String) (hne : L ≠ [])
    (h : ∀ x ∈ L, ∃ y : String, x = y ++ "[]") : postProcess L = L := by
  have hno : "empty_array" ∉ L := by
    intro hm
    obtain ⟨y, hy⟩ := h _ hm
    exact append_brackets_ne_empty_array y hy.symm
  simp [postProcess, hne, hno]

/-- C10. Array-of-union distribution: for every bare union `A1|...|An` (atoms
that are identifiers under array suffixes), the annotation `(A1|...|An)[]`
resolves to the same Type Set as `A1[]|...|An[]`, which is the set of the
normalized `Ai` each followed by `[]`; for atoms already in canonical form it
is the set of the texts `Ai[]`. -/
theorem array_of_union_distribution (as : List TypeExpr) (hne : as ≠ [])
    (hbare : ∀ a ∈ as, isSpine a = true) (idx : Index) :
    (∀ ctx : String,
      ResolveTypes idx ctx [.Static (array (paren (joinUnion as)))] [] =
        ResolveTypes idx ctx [.Static (joinUnion (as.map array))] []) ∧
    ResolveTypes idx "" [.Static (array (paren (joinUnion as)))] [] =
      (as.map fun a => (normSpine a).print ++ "[]").toFinset ∧
    ((∀ a ∈ as, normSpine a = a) →
      ResolveTypes idx "" [.Static (array (paren (joinUnion as)))] [] =
        (as.map fun a => a.print ++ "[]").toFinset) := by
  have h1 := normalMembers_array_paren as hne hbare
  have h2 := normalMembers_union_of_arrays as hne hbare
  have h3 : ResolveTypes idx "" [.Static (array (paren (joinUnion as)))] [] =
      (as.map fun a => (normSpine a).print ++ "[]").toFinset := by
    rw [ResolveTypes_static]
    have hst : staticAtoms "" (array (paren (joinUnion as))) =
        as.map fun a => (normSpine a).print ++ "[]" := by
      simp [staticAtoms, h1, bindStatic_empty, TypeExpr.print]
    rw [hst, postProcess_arrays _ (by simpa using hne)]
    intro x hx
    obtain ⟨a, _, rfl⟩ := List.mem_map.mp hx
    exact ⟨_, rfl⟩
  refine ⟨?_, h3, ?_⟩
  · intro ctx
    rw [ResolveTypes_static, ResolveTypes_static]
    simp only [staticAtoms, h1, h2]
  · intro hcanon
    rw [h3]
    congr 1
    exact List.map_congr_left (fun a ha => by rw [hcanon a ha])

/-- Witness of C10 at `(int|float|null)[]`, which resolves to
`int[]|float[]|null[]`. -/
theorem array_of_union_distribution_witness :
    ResolveTypes fixesIndex ""
      [.Static (array (paren (joinUnion [name "int", name "float", name "null"])))] [] =
      {"int[]", "float[]", "null[]"} :=
  ((array_of_union_distribution [name "int", name "float", name "null"] (by decide)
    (by decide) fixesIndex).2.2 (by decide)).trans (by decide)

/-! ## Termination of resolution -/

theorem collect_isSome {α : Type} (f : α → Option (List String)) (xs : List α)
    (h : ∀ a ∈ xs, (f a).isSome = true) : (collect f xs).isSome = true := by
  induction xs with
  | nil => simp [collect]
  | cons a rest ih =>
    have ha := h a (by simp)
    have hr := ih (fun x hx => h x (List.mem_cons_of_mem _ hx))
    obtain ⟨x, hx⟩ := Option.isSome_iff_exists.mp ha
    obtain ⟨y, hy⟩ := Option.isSome_iff_exists.mp hr
    simp [collect, hx, hy]

theorem collect_mono {α : Type} (f g : α → Option (List String)) (xs : List α)
    (h : ∀ a ∈ xs, ∀ y, f a = some y → g a = some y) :
    ∀ r, collect f xs = some r → collect g xs = some r := by
  induction xs with
  | nil => intro r hr; simpa [collect] using hr
  | cons a rest ih =>
    intro r hr
    simp only [collect] at hr ⊢
    cases hfa : f a with
    | none => simp [hfa] at hr
    | some x =>
      cases hfr : collect f rest with
      | none => simp [hfa, hfr] at hr
      | some y =>
        rw [h a (by simp) x hfa, ih (fun b hb => h b (List.mem_cons_of_mem _ hb)) y hfr]
        simpa [hfa, hfr] using hr

theorem resolveTerm_step (idx : Index) (fuel : Nat) (ctx : String) (t : LazyTerm)
    (visited : List LazyTerm) :
    resolveTerm idx (fuel + 1) ctx t visited =
      if t ∈ visited then some []
      else
        match t with
        | .Static te => some (staticAtoms ctx te)
        | .ArrayOf e => (resolveTerm idx fuel ctx e visited).map fun r => r.map (· ++ "[]")
        | .CallResult fn =>
          match idx.GetFunction fn with
          | none => some ["mixed"]
          | some fi => collect (fun s => resolveTerm idx fuel ctx s (t :: visited)) fi.Typ.terms
        | .MethodResult cls m recv =>
          match resolveTerm idx fuel ctx recv visited with
          | none => none
          | some rs =>
            match findMethod idx cls m with
            | none => some ["mixed"]
            | some fi =>
              collect
                (fun k => collect (fun s => resolveTerm idx fuel k s (t :: visited)) fi.Typ.terms)
                (rs.filter isClassAtom)
        | .PropertyOf cls p recv =>
          match resolveTerm idx fuel ctx recv visited with
          | none => none
          | some rs =>
            if isShape idx cls then some ["mixed"]
            else
              match findProperty idx cls p with
              | none => some ["mixed"]
              | some ty =>
                collect
                  (fun k => collect (fun s => resolveTerm idx fuel k s (t :: visited)) ty.terms)
                  (rs.filter isClassAtom)
        | .ClassConst cls c =>
          match findConstant idx cls c with
          | none => some ["mixed"]
          | some ty => collect (fun s => resolveTerm idx fuel ctx s (t :: visited)) ty.terms
        | .ElementOf coll key =>
          match resolveTerm idx fuel ctx coll visited with
          | none => none
          | some rs =>
            collect
              (fun a =>
                if isArrayAtom a then some [elemAtom a]
                else
                  match shapeFields idx a key with
                  | some fields =>
                    collect (fun s => resolveTerm idx fuel ctx s (t :: visited)) fields
                  | none => some ["mixed"])
              rs
        | .LateStatic anchor =>
          (resolveTerm idx fuel ctx anchor visited).map fun r => r.filter isClassAtom
        | .Instance e =>
          (resolveTerm idx fuel ctx e visited).map fun r => r.filter isClassAtom
        | .AssignRef place =>
          (resolveTerm idx fuel ctx place visited).map fun r => r.map mixedOf := by
  rfl

theorem resolveTerm_succ (idx : Index) (fuel : Nat) :
    ∀ (ctx : String) (t : LazyTerm) (visited : List LazyTerm) (r : List String),
      resolveTerm idx fuel ctx t visited = some r →
      resolveTerm idx (fuel + 1) ctx t visited = some r := by
  induction fuel with
  | zero => intro ctx t visited r h; simp [resolveTerm] at h
  | succ n ih =>
    intro ctx t visited r h
    rw [resolveTerm_step] at h ⊢
    by_cases hv : t ∈ visited
    · simpa [hv] using h
    · simp only [hv, if_false] at h ⊢
      cases t with
      | Static te => exact h
      | ArrayOf e =>
        simp only [Option.map_eq_some'] at h ⊢
        obtain ⟨q, hq, rfl⟩ := h
        exact ⟨q, ih _ _ _ _ hq, rfl⟩
      | LateStatic e =>
        simp only [Option.map_eq_some'] at h ⊢
        obtain ⟨q, hq, rfl⟩ := h
        exact ⟨q, ih _ _ _ _ hq, rfl⟩
      | Instance e =>
        simp only [Option.map_eq_some'] at h ⊢
        obtain ⟨q, hq, rfl⟩ := h
        exact ⟨q, ih _ _ _ _ hq, rfl⟩
      | AssignRef e =>
        simp only [Option.map_eq_some'] at h ⊢
        obtain ⟨q, hq, rfl⟩ := h
        exact ⟨q, ih _ _ _ _ hq, rfl⟩
      | CallResult fn =>
        simp only at h ⊢
        cases hf : idx.GetFunction fn with
        | none => simpa [hf] using h
        | some fi =>
          simp only [hf] at h ⊢
          exact collect_mono _ _ _ (fun s _ y hy => ih _ _ _ _ hy) r h
      | ClassConst cls c =>
        simp only at h ⊢
        cases hf : findConstant idx cls c with
        | none => simpa [hf] using h
        | some ty =>
          simp only [hf] at h ⊢
          exact collect_mono _ _ _ (fun s _ y hy => ih _ _ _ _ hy) r h
      | MethodResult cls m recv =>
        simp only at h ⊢
        cases hr : resolveTerm idx n ctx recv visited with
        | none => simp [hr] at h
        | some rs =>
          rw [ih _ _ _ _ hr]
          simp only [hr] at h ⊢
          cases hm : findMethod idx cls m with
          | none => simpa [hm] using h
          | some fi =>
            simp only [hm] at h ⊢
            refine collect_mono _ _ _ (fun k _ y hy => ?_) r h
            exact collect_mono _ _ _ (fun s _ z hz => ih _ _ _ _ hz) y hy
      | PropertyOf cls p recv =>
        simp only at h ⊢
        cases hr : resolveTerm idx n ctx recv visited with
        | none => simp [hr] at h
        | some rs =>
          rw [ih _ _ _ _ hr]
          simp only [hr] at h ⊢
          by_cases hsh : isShape idx cls = true
          · simpa [hsh] using h
          · simp only [hsh, Bool.false_eq_true, if_false] at h ⊢
            cases hm : findProperty idx cls p with
            | none => simpa [hm] using h
            | some ty =>
              simp only [hm] at h ⊢
              refine collect_mono _ _ _ (fun k _ y hy => ?_) r h
              exact collect_mono _ _ _ (fun s _ z hz => ih _ _ _ _ hz) y hy
      | ElementOf coll key =>
        simp only at h ⊢
        cases hr : resolveTerm idx n ctx coll visited with
        | none => simp [hr] at h
        | some rs =>
          rw [ih _ _ _ _ hr]
          simp only [hr] at h ⊢
          refine collect_mono _ _ _ (fun a _ y hy => ?_) r h
          by_cases ha : isArrayAtom a = true
          · simpa [ha] using hy
          · simp only [ha, Bool.false_eq_true, if_false] at hy ⊢
            cases hs : shapeFields idx a key with
            | none => simpa [hs] using hy
            | some fields =>
              simp only [hs] at hy ⊢
              exact collect_mono _ _ _ (fun s _ z hz => ih _ _ _ _ hz) y hy

theorem resolveTerm_mono (idx : Index) (fuel fuel2 : Nat) (hle : fuel ≤ fuel2)
    (ctx : String) (t : LazyTerm) (visited : List LazyTerm) (r : List String)
    (h : resolveTerm idx fuel ctx t visited = some r) :
    resolveTerm idx fuel2 ctx t visited = some r := by
  induction hle with
  | refl => exact h
  | step _ ih => exact resolveTerm_succ idx _ ctx t visited r ih

theorem LazyTerm.size_pos (t : LazyTerm) : 0 < t.size := by
  cases t <;> simp [LazyTerm.size]

theorem unvisited_cons (U visited : List LazyTerm) (t : LazyTerm)
    (hU : t ∈ U) (hv : t ∉ visited) :
    unvisited U (t :: visited) + 1 ≤ unvisited U visited := by
  unfold unvisited
  have he : (U.toFinset.filter fun c => c ∉ t :: visited) =
      (U.toFinset.filter fun c => c ∉ visited).erase t := by
    ext c
    simp only [Finset.mem_filter, List.mem_toFinset, List.mem_cons, not_or, Finset.mem_erase]
    tauto
  have hm : t ∈ U.toFinset.filter fun c => c ∉ visited := by
    simp [hU, hv]
  rw [he, Finset.card_erase_of_mem hm]
  have := Finset.card_pos.mpr ⟨t, hm⟩
  omega

theorem size_le_maxSize (ts : List LazyTerm) (s : LazyTerm) (h : s ∈ ts) :
    s.size ≤ maxSize ts := by
  induction ts with
  | nil => simp at h
  | cons a rest ih =>
    simp only [maxSize, List.map_cons, List.foldr_cons] at ih ⊢
    rcases List.mem_cons.mp h with rfl | h
    · exact Nat.le_max_left _ _
    · exact Nat.le_trans (ih h) (Nat.le_max_right _ _)

theorem mem_allCalls (ts : List LazyTerm) (s c : LazyTerm) (h : s ∈ ts) (hc : c ∈ s.calls) :
    c ∈ allCalls ts := by
  simp only [allCalls, List.mem_flatten, List.mem_map]
  exact ⟨s.calls, ⟨s, h, rfl⟩, hc⟩

theorem mem_of_lookup {β : Type} (k : String) (v : β) (l : List (String × β))
    (h : l.lookup k = some v) : (k, v) ∈ l := by
  induction l with
  | nil => simp at h
  | cons a rest ih =>
    obtain ⟨k2, v2⟩ := a
    by_cases hk : k = k2
    · subst hk
      simp at h
      simp [h]
    · have hb : (k == k2) = false := by simpa using hk
      rw [List.lookup_cons, hb] at h
      exact List.mem_cons_of_mem _ (ih h)

theorem function_terms_mem (idx : Index) (fn : String) (fi : FunctionInfo)
    (h : idx.GetFunction fn = some fi) : ∀ s ∈ fi.Typ.terms, s ∈ idx.returnTerms := by
  intro s hs
  have hm := mem_of_lookup fn fi idx.Functions h
  simp only [Index.returnTerms, List.mem_append, List.mem_flatten, List.mem_map]
  exact Or.inl ⟨fi.Typ.terms, ⟨(fn, fi), hm, rfl⟩, hs⟩

theorem class_terms_mem (idx : Index) (c : String × ClassInfo) (hc : c ∈ idx.Classes) :
    ∀ s ∈ c.2.terms, s ∈ idx.returnTerms := by
  intro s hs
  simp only [Index.returnTerms, List.mem_append, List.mem_flatten, List.mem_map]
  exact Or.inr ⟨_, ⟨c, hc, rfl⟩, hs⟩

theorem findMethodFrom_mem (idx : Index) (n : Nat) :
    ∀ (cls m : String) (fi : FunctionInfo), findMethodFrom idx n cls m = some fi →
      ∃ c ∈ idx.Classes, ∃ q ∈ c.2.Methods, q.2 = fi := by
  induction n with
  | zero => intro cls m fi h; simp [findMethodFrom] at h
  | succ k ih =>
    intro cls m fi h
    simp only [findMethodFrom] at h
    cases hc : idx.GetClass cls with
    | none => simp [hc] at h
    | some ci =>
      simp only [hc] at h
      cases hl : ci.Methods.lookup m with
      | some fj =>
        simp only [hl, Option.some.injEq] at h
        subst h
        exact ⟨(cls, ci), mem_of_lookup cls ci idx.Classes hc, (m, fj),
          mem_of_lookup m fj ci.Methods hl, rfl⟩
      | none =>
        simp only [hl] at h
        split at h
        · simp at h
        · exact ih _ _ _ h

theorem method_terms_mem (idx : Index) (cls m : String) (fi : FunctionInfo)
    (h : findMethod idx cls m = some fi) : ∀ s ∈ fi.Typ.terms, s ∈ idx.returnTerms := by
  intro s hs
  obtain ⟨c, hc, q, hq, rfl⟩ := findMethodFrom_mem idx _ cls m fi h
  apply class_terms_mem idx c hc
  simp only [ClassInfo.terms, List.mem_append, List.mem_flatten, List.mem_map]
  exact Or.inl ⟨_, ⟨q, hq, rfl⟩, hs⟩

theorem findMemberFrom_mem (idx : Index) (sel : ClassInfo → List (String × TypesMap))
    (n : Nat) :
    ∀ (cls m : String) (ty : TypesMap), findMemberFrom idx sel n cls m = some ty →
      ∃ c ∈ idx.Classes, ∃ q ∈ sel c.2, q.2 = ty := by
  induction n with
  | zero => intro cls m ty h; simp [findMemberFrom] at h
  | succ k ih =>
    intro cls m ty h
    simp only [findMemberFrom] at h
    cases hc : idx.GetClass cls with
    | none => simp [hc] at h
    | some ci =>
      simp only [hc] at h
      cases hl : (sel ci).lookup m with
      | some tj =>
        simp only [hl, Option.some.injEq] at h
        subst h
        exact ⟨(cls, ci), mem_of_lookup cls ci idx.Classes hc, (m, tj),
          mem_of_lookup m tj (sel ci) hl, rfl⟩
      | none =>
        simp only [hl] at h
        split at h
        · simp at h
        · exact ih _ _ _ h

theorem property_terms_mem (idx : Index) (cls p : String) (ty : TypesMap)
    (h : findProperty idx cls p = some ty) : ∀ s ∈ ty.terms, s ∈ idx.returnTerms := by
  intro s hs
  unfold findProperty at h
  split at h
  · rename_i ty2 h2
    simp only [Option.some.injEq] at h
    subst h
    obtain ⟨c, hc, q, hq, rfl⟩ := findMemberFrom_mem idx _ _ cls p _ h2
    apply class_terms_mem idx c hc
    simp only [ClassInfo.terms, List.mem_append, List.mem_flatten, List.mem_map]
    exact Or.inr (Or.inl ⟨_, ⟨q, hq, rfl⟩, hs⟩)
  · obtain ⟨c, hc, q, hq, rfl⟩ := findMemberFrom_mem idx _ _ cls p _ h
    apply class_terms_mem idx c hc
    simp only [ClassInfo.terms, List.mem_append, List.mem_flatten, List.mem_map]
    exact Or.inr (Or.inr (Or.inl ⟨_, ⟨q, hq, rfl⟩, hs⟩))

theorem constant_terms_mem (idx : Index) (cls c : String) (ty : TypesMap)
    (h : findConstant idx cls c = some ty) : ∀ s ∈ ty.terms, s ∈ idx.returnTerms := by
  intro s hs
  obtain ⟨k, hk, q, hq, rfl⟩ := findMemberFrom_mem idx _ _ cls c _ h
  apply class_terms_mem idx k hk
  simp only [ClassInfo.terms, List.mem_append, List.mem_flatten, List.mem_map]
  exact Or.inr (Or.inr (Or.inr ⟨_, ⟨q, hq, rfl⟩, hs⟩))

theorem shapeFields_mem (idx : Index) (a : String) (key : Option String)
    (fields : List LazyTerm) (h : shapeFields idx a key = some fields) :
    ∀ s ∈ fields, s ∈ idx.returnTerms := by
  intro s hs
  unfold shapeFields at h
  cases hc : idx.GetClass a with
  | none => simp [hc] at h
  | some ci =>
    simp only [hc] at h
    have hci := mem_of_lookup a ci idx.Classes hc
    split at h
    · have hsub : ∃ f ∈ ci.Properties, s ∈ f.2.terms := by
        cases key with
        | none =>
          simp only [Option.some.injEq] at h
          subst h
          simp only [List.mem_flatten, List.mem_map] at hs
          obtain ⟨l, ⟨f, hf, rfl⟩, hsl⟩ := hs
          exact ⟨f, hf, hsl⟩
        | some k =>
          simp only [Option.some.injEq] at h
          subst h
          simp only [List.mem_flatten, List.mem_map] at hs
          obtain ⟨l, ⟨f, hf, rfl⟩, hsl⟩ := hs
          exact ⟨f, List.mem_of_mem_filter hf, hsl⟩
      obtain ⟨f, hf, hsf⟩ := hsub
      apply class_terms_mem idx (a, ci) hci
      simp only [ClassInfo.terms, List.mem_append, List.mem_flatten, List.mem_map]
      exact Or.inr (Or.inl ⟨_, ⟨f, hf, rfl⟩, hsf⟩)
    · simp at h

/-- Resolution does not hit the depth bound when the bound covers the size of
the term plus one descent through a recorded term for every term that can
still enter the visited set. -/
theorem resolveTerm_isSome (idx : Index) (U : List LazyTerm) (S : Nat)
    (hall : ∀ s ∈ idx.returnTerms, s.size ≤ S ∧ ∀ c ∈ s.calls, c ∈ U) :
    ∀ (fuel : Nat) (ctx : String) (t : LazyTerm) (visited : List LazyTerm),
      (∀ c ∈ t.calls, c ∈ U) →
      t.size + unvisited U visited * (S + 1) ≤ fuel →
      (resolveTerm idx fuel ctx t visited).isSome = true := by
  intro fuel
  induction fuel with
  | zero =>
    intro ctx t visited _ hb
    have := t.size_pos
    omega
  | succ n ih =>
    intro ctx t visited hc hb
    rw [resolveTerm_step]
    by_cases hv : t ∈ visited
    · simp [hv]
    · simp only [hv, if_false]
      have hsrc : ∀ s : LazyTerm, t ∈ U → s ∈ idx.returnTerms →
          ∀ k : String, (resolveTerm idx n k s (t :: visited)).isSome = true := by
        intro s htU hs k
        apply ih k s (t :: visited) (hall s hs).2
        have hsS := (hall s hs).1
        have h1 := unvisited_cons U visited t htU hv
        have h2 := Nat.mul_le_mul_right (S + 1) h1
        rw [Nat.add_mul] at h2
        have h3 := t.size_pos
        generalize unvisited U (t :: visited) * (S + 1) = x at h2 ⊢
        generalize unvisited U visited * (S + 1) = y at h2 hb
        omega
      have hsub : ∀ e : LazyTerm, (∀ c ∈ e.calls, c ∈ t.calls) → e.size + 1 ≤ t.size →
          ∃ q, resolveTerm idx n ctx e visited = some q := by
        intro e hce hse
        exact Option.isSome_iff_exists.mp
          (ih ctx e visited (fun c hcm => hc c (hce c hcm)) (by omega))
      cases t with
      | Static te => simp
      | ArrayOf e =>
        obtain ⟨q, hq⟩ := hsub e (fun c h => by simpa [LazyTerm.calls] using h)
          (by simp [LazyTerm.size])
        simp [hq]
      | LateStatic e =>
        obtain ⟨q, hq⟩ := hsub e (fun c h => by simpa [LazyTerm.calls] using h)
          (by simp [LazyTerm.size])
        simp [hq]
      | Instance e =>
        obtain ⟨q, hq⟩ := hsub e (fun c h => by simpa [LazyTerm.calls] using h)
          (by simp [LazyTerm.size])
        simp [hq]
      | AssignRef e =>
        obtain ⟨q, hq⟩ := hsub e (fun c h => by simpa [LazyTerm.calls] using h)
          (by simp [LazyTerm.size])
        simp [hq]
      | CallResult fn =>
        simp only
        cases hf : idx.GetFunction fn with
        | none => simp
        | some fi =>
          simp only
          apply collect_isSome
          intro s hs
          exact hsrc s (hc _ (by simp [LazyTerm.calls])) (function_terms_mem idx fn fi hf s hs) ctx
      | ClassConst cls c =>
        simp only
        cases hf : findConstant idx cls c with
        | none => simp
        | some ty =>
          simp only
          apply collect_isSome
          intro s hs
          exact hsrc s (hc _ (by simp [LazyTerm.calls]))
            (constant_terms_mem idx cls c ty hf s hs) ctx
      | MethodResult cls m recv =>
        simp only
        obtain ⟨rs, hrs⟩ := hsub recv (fun c h => by simp [LazyTerm.calls, h])
          (by simp [LazyTerm.size])
        rw [hrs]
        simp only
        cases hm : findMethod idx cls m with
        | none => simp
        | some fi =>
          simp only
          apply collect_isSome
          intro k _
          apply collect_isSome
          intro s hs
          exact hsrc s (hc _ (by simp [LazyTerm.calls])) (method_terms_mem idx cls m fi hm s hs) k
      | PropertyOf cls p recv =>
        simp only
        obtain ⟨rs, hrs⟩ := hsub recv (fun c h => by simp [LazyTerm.calls, h])
          (by simp [LazyTerm.size])
        rw [hrs]
        simp only
        by_cases hsh : isShape idx cls = true
        · simp [hsh]
        · simp only [hsh, Bool.false_eq_true, if_false]
          cases hm : findProperty idx cls p with
          | none => simp
          | some ty =>
            simp only
            apply collect_isSome
            intro k _
            apply collect_isSome
            intro s hs
            exact hsrc s (hc _ (by simp [LazyTerm.calls]))
              (property_terms_mem idx cls p ty hm s hs) k
      | ElementOf coll key =>
        simp only
        obtain ⟨rs, hrs⟩ := hsub coll (fun c h => by simp [LazyTerm.calls, h])
          (by simp [LazyTerm.size])
        rw [hrs]
        simp only
        apply collect_isSome
        intro a _
        by_cases ha : isArrayAtom a = true
        · simp [ha]
        · simp only [ha, Bool.false_eq_true, if_false]
          cases hs : shapeFields idx a key with
          | none => simp
          | some fields =>
            simp only
            apply collect_isSome
            intro s hsf
            exact hsrc s (hc _ (by simp [LazyTerm.calls]))
              (shapeFields_mem idx a key fields hs s hsf) ctx

theorem unvisited_le_length (U visited : List LazyTerm) : unvisited U visited ≤ U.length := by
  unfold unvisited
  exact Nat.le_trans (Finset.card_filter_le _ _) (List.toFinset_card_le U)

/-- The depth `budget idx typ` is never exhausted by a member of `typ`. -/
theorem resolveTerm_budget (idx : Index) (typ : List LazyTerm) (ctx : String)
    (visited : List LazyTerm) (t : LazyTerm) (ht : t ∈ typ) :
    (resolveTerm idx (budget idx typ) ctx t visited).isSome = true := by
  have hall : ∀ s ∈ idx.returnTerms, s.size ≤ maxSize (typ ++ idx.returnTerms) ∧
      ∀ c ∈ s.calls, c ∈ allCalls (typ ++ idx.returnTerms) := fun s hs =>
    ⟨size_le_maxSize _ s (List.mem_append_right _ hs),
      fun c hc => mem_allCalls _ s c (List.mem_append_right _ hs) hc⟩
  apply resolveTerm_isSome idx (allCalls (typ ++ idx.returnTerms))
    (maxSize (typ ++ idx.returnTerms)) hall
  · exact fun c hc => mem_allCalls _ t c (List.mem_append_left _ ht) hc
  · have h1 := size_le_maxSize _ t (List.mem_append_left idx.returnTerms ht)
    have h2 := Nat.mul_le_mul_right (maxSize (typ ++ idx.returnTerms) + 1)
      (unvisited_le_length (allCalls (typ ++ idx.returnTerms)) visited)
    unfold budget
    omega

theorem collect_budget (idx : Index) (typ : List LazyTerm) (ctx : String)
    (visited : List LazyTerm) :
    ∃ r, ∀ fuel, budget idx typ ≤ fuel →
      collect (fun t => resolveTerm idx fuel ctx t visited) typ = some r := by
  have h := collect_isSome (fun t => resolveTerm idx (budget idx typ) ctx t visited) typ
    (fun t ht => resolveTerm_budget idx typ ctx visited t ht)
  obtain ⟨r, hr⟩ := Option.isSome_iff_exists.mp h
  refine ⟨r, fun fuel hle => ?_⟩
  exact collect_mono _ _ typ
    (fun t _ y hy => resolveTerm_mono idx _ fuel hle ctx t visited y hy) r hr

/-- C5. Cycle termination: for every symbol index, context, type and visited
set, resolution halts: from the depth `budget` on, it yields one and the same
accumulated list, which `ResolveTypes` post-processes, an empty accumulation
giving `mixed`. A term already in the visited set contributes the empty set,
and an unvisited `CallResult` is the merge of the function's return terms
resolved with the call added to the visited set. So `recur1()` and `recur2()`
resolve to `int|string`, and `recur3()`, `recur4()`, `recur5()`, where every
return is cyclic, to `mixed`. -/
theorem cycle_termination (idx : Index) (ctx : String) (typ visited : List LazyTerm) :
    (∃ r : List String,
      (∀ fuel, budget idx typ ≤ fuel →
        collect (fun t => resolveTerm idx fuel ctx t visited) typ = some r) ∧
      ResolveTypes idx ctx typ visited = (postProcess r).toFinset ∧
      (r = [] → ResolveTypes idx ctx typ visited = {"mixed"})) ∧
    (∀ (fuel : Nat) (t : LazyTerm), t ∈ visited →
      resolveTerm idx (fuel + 1) ctx t visited = some []) ∧
    (∀ (fuel : Nat) (fn : String) (fi : FunctionInfo),
      idx.GetFunction fn = some fi → LazyTerm.CallResult fn ∉ visited →
      resolveTerm idx (fuel + 1) ctx (.CallResult fn) visited =
        collect (fun s => resolveTerm idx fuel ctx s (.CallResult fn :: visited))
          fi.Typ.terms) ∧
    ResolveTypes functionIndex "" [.CallResult "\\recur1"] [] = {"int", "string"} ∧
    ResolveTypes functionIndex "" [.CallResult "\\recur2"] [] = {"int", "string"} ∧
    ResolveTypes functionIndex "" [.CallResult "\\recur3"] [] = {"mixed"} ∧
    ResolveTypes functionIndex "" [.CallResult "\\recur4"] [] = {"mixed"} ∧
    ResolveTypes functionIndex "" [.CallResult "\\recur5"] [] = {"mixed"} := by
  refine ⟨?_, ?_, ?_, by decide, by decide, by decide, by decide, by decide⟩
  · obtain ⟨r, hr⟩ := collect_budget idx typ ctx visited
    have hR : ResolveTypes idx ctx typ visited = (postProcess r).toFinset := by
      unfold ResolveTypes
      rw [hr _ (Nat.le_refl _)]
    refine ⟨r, hr, hR, fun h0 => ?_⟩
    rw [hR, h0]
    decide
  · intro fuel t ht
    rw [resolveTerm_step]
    simp [ht]
  · intro fuel fn fi hf hv
    rw [resolveTerm_step]
    simp [hv, hf]

/-- Witness of C5: inside the resolution of `recur3()` the call `recur3()`
itself is in the visited set and contributes nothing. -/
theorem cycle_termination_witness :
    resolveTerm functionIndex 1 "" (.CallResult "\\recur3") [.CallResult "\\recur3"] = some [] :=
  (cycle_termination functionIndex "" [] [.CallResult "\\recur3"]).2.1 0
    (.CallResult "\\recur3") (by decide)

/-! ## Precision -/

theorem unionAll_precise (m : TypesMap) (ms : List TypesMap) :
    (TypesMap.unionAll m ms).IsPrecise = true ↔ ∀ x ∈ m :: ms, x.IsPrecise = true := by
  induction ms generalizing m with
  | nil => simp [TypesMap.unionAll]
  | cons n rest ih =>
    have h := ih n
    simp only [TypesMap.unionAll, TypesMap.Union, TypesMap.IsPrecise, Bool.and_eq_true,
      List.mem_cons] at h ⊢
    rw [h]
    constructor
    · rintro ⟨h1, h2⟩ x (rfl | hx)
      · exact h1
      · exact h2 x hx
    · intro hx
      exact ⟨hx m (Or.inl rfl), fun x hx2 => hx x (Or.inr hx2)⟩

theorem testTypesMap_eq (a b : testTypesMap) (h1 : a.Precise = b.Precise)
    (h2 : a.Types = b.Types) : a = b := by
  cases a; cases b; simp_all

/-- C4. Precision is monotone: the union of a precise Type Set with an
imprecise one is imprecise, on either side, and a union is precise exactly
when every member is. The value compared by the tests for `$cond ? 10 : "123"`
is `precise int|string`, and for `$cond ? 10 : get_mixed(1)`, in either order
of the branches, the imprecise `int|mixed`. -/
theorem precision_monotone :
    (∀ P q : TypesMap, P.IsPrecise = true → q.IsPrecise = false →
      (P.Union q).IsPrecise = false ∧ (q.Union P).IsPrecise = false) ∧
    (∀ (m : TypesMap) (ms : List TypesMap),
      (TypesMap.unionAll m ms).IsPrecise = true ↔ ∀ x ∈ m :: ms, x.IsPrecise = true) ∧
    resolvedValue multiIndex
      ((TypesMap.preciseAtom "int").Union (TypesMap.preciseAtom "string")) =
        makeType "precise int|string" ∧
    resolvedValue multiIndex
      ((TypesMap.preciseAtom "int").Union (TypesMap.callResult "\\get_mixed")) =
        makeType "int|mixed" ∧
    resolvedValue multiIndex
      ((TypesMap.callResult "\\get_mixed").Union (TypesMap.preciseAtom "int")) =
        makeType "int|mixed" := by
  refine ⟨?_, unionAll_precise, testTypesMap_eq _ _ (by decide) (by decide),
    testTypesMap_eq _ _ (by decide) (by decide), testTypesMap_eq _ _ (by decide) (by decide)⟩
  intro P q hP hq
  simp only [TypesMap.IsPrecise] at hP hq
  simp [TypesMap.Union, TypesMap.IsPrecise, hP, hq]

/-- Witness of C4: the precise literal `10` joined with the imprecise call
`get_mixed(1)` is imprecise. -/
theorem precision_monotone_witness :
    ((TypesMap.preciseAtom "int").Union (TypesMap.callResult "\\get_mixed")).IsPrecise = false :=
  (precision_monotone.1 (TypesMap.preciseAtom "int") (TypesMap.callResult "\\get_mixed")
    (by decide) (by decide)).1

/-! ## Late static binding -/

theorem class_name_facts (X : String) (hc : isClassAtom X = true) :
    X ≠ "array" ∧ foldAlias X = X := by
  have hh : X.data.head? = some '\\' := by
    simp only [isClassAtom, Bool.and_eq_true, decide_eq_true_eq] at hc
    exact hc.1
  have hne : ∀ c : String, c.data.head? ≠ some '\\' → X ≠ c := by
    intro c hcne he
    exact hcne (he ▸ hh)
  have h1 := hne "array" (by decide)
  have h2 := hne "integer" (by decide)
  have h3 := hne "long" (by decide)
  have h4 := hne "boolean" (by decide)
  have h5 := hne "double" (by decide)
  have h6 := hne "real" (by decide)
  exact ⟨h1, by simp [foldAlias, h2, h3, h4, h5, h6]⟩

theorem normalMembers_class (X : String) (hc : isClassAtom X = true)
    (hid : isIdent X = true) : normalMembers (name X) = [name X] := by
  obtain ⟨h1, h2⟩ := class_name_facts X hc
  have hl : loweredMembers (name X) = [name X] := by
    simp [loweredMembers, suffixForm, topMembers, normSpine, h1, h2]
  simp [normalMembers, hl, freeTextToMixed, hid]

theorem staticAtoms_class (X : String) (hc : isClassAtom X = true)
    (hid : isIdent X = true) : staticAtoms "" (name X) = [X] := by
  simp [staticAtoms, normalMembers_class X hc hid, bindStatic_empty, TypeExpr.print]

theorem bindStatic_of_not_mentions (ctx : String) (t : TypeExpr)
    (h : mentionsStatic t = false) : bindStatic ctx t = t := by
  induction t with
  | name id =>
    simp only [mentionsStatic, Bool.or_eq_false_iff, decide_eq_false_iff_not] at h
    simp [bindStatic, h.1, h.2]
  | array t ih =>
    simp only [mentionsStatic] at h
    simp [bindStatic, ih h]
  | _ => simp [bindStatic]

theorem collect_mem {α : Type} (f : α → Option (List String)) (xs : List α) :
    ∀ y, collect f xs = some y → ∀ x ∈ xs, ∀ l, f x = some l → ∀ a ∈ l, a ∈ y := by
  induction xs with
  | nil => intro y _ x hx; simp at hx
  | cons b rest ih =>
    intro y hy x hx l hl a ha
    simp only [collect] at hy
    cases hfb : f b with
    | none => simp [hfb] at hy
    | some u =>
      cases hfr : collect f rest with
      | none => simp [hfb, hfr] at hy
      | some v =>
        simp only [hfb, hfr, Option.some.injEq] at hy
        subst hy
        rcases List.mem_cons.mp hx with rfl | hx
        · rw [hfb] at hl
          simp only [Option.some.injEq] at hl
          subst hl
          exact List.mem_append_left _ ha
        · exact List.mem_append_right _ (ih v hfr x hx l hl a ha)

theorem mem_postProcess_of_mem (s : List String) (a : String) (ha : a ∈ s)
    (hne : a ≠ "empty_array") : a ∈ postProcess s := by
  rw [mem_postProcess]
  have hs : s ≠ [] := List.ne_nil_of_mem ha
  by_cases h2 : "empty_array" ∈ s
  · by_cases h3 : ∃ x ∈ s, isArrayAtom x = true
    · exact Or.inr (Or.inr (Or.inl ⟨h2, h3, ha, hne⟩))
    · exact Or.inr (Or.inr (Or.inr ⟨h2, h3, Or.inl ⟨ha, hne⟩⟩))
  · exact Or.inr (Or.inl ⟨hs, h2, ha⟩)

/-- A method call on an instance of class `X` resolves the return terms of the
method found from `X` with `X` as the context class. -/
theorem ResolveTypes_methodOn (idx : Index) (X m : String) (fi : FunctionInfo)
    (hm : findMethod idx X m = some fi) (hc : isClassAtom X = true) (hid : isIdent X = true) :
    ∃ (n : Nat) (y : List String),
      collect (fun s => resolveTerm idx (n + 1) X s [methodOn X m]) fi.Typ.terms = some y ∧
      ResolveTypes idx "" [methodOn X m] [] = (postProcess y).toFinset := by
  obtain ⟨n, hn⟩ := budget_call idx (methodOn X m) [] (by simp [methodOn, LazyTerm.calls])
  have hsome := resolveTerm_budget idx [methodOn X m] "" [] (methodOn X m) (by simp)
  obtain ⟨r0, hr0⟩ := Option.isSome_iff_exists.mp hsome
  have hstep := hr0
  rw [hn, methodOn, resolveTerm_step] at hstep
  simp only [List.not_mem_nil, if_false, resolveTerm_static, staticAtoms_class X hc hid, hm,
    List.filter_cons, hc, if_true, List.filter_nil, collect] at hstep
  cases hy : collect (fun s => resolveTerm idx (n + 1) X s
      [LazyTerm.MethodResult X m (LazyTerm.Static (name X))]) fi.Typ.terms with
  | none => simp [hy] at hstep
  | some y =>
    simp only [hy, List.append_nil, Option.some.injEq] at hstep
    subst hstep
    refine ⟨n, y, hy, ?_⟩
    unfold ResolveTypes
    simp [collect, hr0]

theorem class_ne (X : String) (hc : isClassAtom X = true) (c : String)
    (hcne : c.data.head? ≠ some '\\') : X ≠ c := by
  have hh : X.data.head? = some '\\' := by
    simp only [isClassAtom, Bool.and_eq_true, decide_eq_true_eq] at hc
    exact hc.1
  intro he
  exact hcne (he ▸ hh)

theorem staticAtoms_static (X : String) (hc : isClassAtom X = true) :
    staticAtoms X (name "static") = [X] ∧
    staticAtoms X (array (name "static")) = [X ++ "[]"] := by
  have hne : X ≠ "" := class_ne X hc "" (by decide)
  have h1 : normalMembers (name "static") = [name "static"] := by decide
  have h2 : normalMembers (array (name "static")) = [array (name "static")] := by decide
  simp [staticAtoms, h1, h2, bindStatic, hne, TypeExpr.print]

theorem mem_ResolveTypes_methodOn (idx : Index) (X m : String) (fi : FunctionInfo)
    (hm : findMethod idx X m = some fi) (hc : isClassAtom X = true) (hid : isIdent X = true)
    (te : TypeExpr) (hte : LazyTerm.Static te ∈ fi.Typ.terms) (a : String)
    (ha : a ∈ staticAtoms X te) (hne : a ≠ "empty_array") :
    a ∈ ResolveTypes idx "" [methodOn X m] [] := by
  obtain ⟨n, y, hy, hR⟩ := ResolveTypes_methodOn idx X m fi hm hc hid
  rw [hR, List.mem_toFinset]
  apply mem_postProcess_of_mem _ _ _ hne
  apply collect_mem _ _ y hy (.Static te) hte (staticAtoms X te) _ a ha
  rw [resolveTerm_step]
  simp [methodOn]

/-- C6 as stated fails. `Derived` extends `Base` and inherits
`getStaticArray` (`@return static[]`) and `newStatic` (`new static()`), which
use late static binding; on a `Base` they resolve to `\Base[]` and `\Base`,
on a `Derived` to `\Derived[]` and `\Derived`, as the tests expect, so the
atoms for the subclass are not a superset of the atoms for the class. -/
theorem hierarchy_completeness_counterexample :
    lsbIndex.GetClass "\\Derived" = some { Parent := "\\Base", Methods := [] } ∧
    findMethod lsbIndex "\\Derived" "getStaticArray" =
      findMethod lsbIndex "\\Base" "getStaticArray" ∧
    ResolveTypes lsbIndex "" [methodOn "\\Base" "getStaticArray"] [] = {"\\Base[]"} ∧
    ResolveTypes lsbIndex "" [methodOn "\\Derived" "getStaticArray"] [] = {"\\Derived[]"} ∧
    ¬ (ResolveTypes lsbIndex "" [methodOn "\\Base" "getStaticArray"] [] ⊆
        ResolveTypes lsbIndex "" [methodOn "\\Derived" "getStaticArray"] []) ∧
    ResolveTypes lsbIndex "" [methodOn "\\Base" "newStatic"] [] = {"\\Base"} ∧
    ResolveTypes lsbIndex "" [methodOn "\\Derived" "newStatic"] [] = {"\\Derived"} ∧
    ¬ (ResolveTypes lsbIndex "" [methodOn "\\Base" "newStatic"] [] ⊆
        ResolveTypes lsbIndex "" [methodOn "\\Derived" "newStatic"] []) := by
  refine ⟨by decide, by decide, by decide, by decide, by decide, by decide, by decide, by decide⟩

/-- C6, amended. When the hierarchy walk from a class `D` finds the definition
of `m` that it finds from `C` (`D` inherits `m` from `C`), the call on a `D`
resolves the return terms of `m` with `static` and `$this` bound to `D`, the
call on a `C` with them bound to `C`. Every atom other than `empty_array` that
a `Static` return term contributes under its context is in the result; a
return term that does not mention `static` or `$this` contributes the same
atoms to both, so those atoms of `MethodResult(C, m)` are atoms of
`MethodResult(D, m)`; a return term `static` contributes `D` for `D` and `C`
for `C`, and `static[]` contributes `D[]` and `C[]`. So `$b->getStatic()` is
`\Base` and `$d->getStatic()` is `\Base|\Derived`. -/
theorem late_static_binding_rebinds (idx : Index) (C D m : String) (fi : FunctionInfo)
    (hC : findMethod idx C m = some fi) (hD : findMethod idx D m = some fi)
    (hCc : isClassAtom C = true) (hCi : isIdent C = true)
    (hDc : isClassAtom D = true) (hDi : isIdent D = true) :
    (∀ te, LazyTerm.Static te ∈ fi.Typ.terms →
      (∀ a ∈ staticAtoms C te, a ≠ "empty_array" →
        a ∈ ResolveTypes idx "" [methodOn C m] []) ∧
      (∀ a ∈ staticAtoms D te, a ≠ "empty_array" →
        a ∈ ResolveTypes idx "" [methodOn D m] [])) ∧
    (∀ te, LazyTerm.Static te ∈ fi.Typ.terms →
      (∀ mbr ∈ normalMembers te, mentionsStatic mbr = false) →
      staticAtoms D te = staticAtoms C te ∧
      ∀ a ∈ staticAtoms C te, a ≠ "empty_array" →
        a ∈ ResolveTypes idx "" [methodOn C m] [] ∧
        a ∈ ResolveTypes idx "" [methodOn D m] []) ∧
    (LazyTerm.Static (name "static") ∈ fi.Typ.terms →
      C ∈ ResolveTypes idx "" [methodOn C m] [] ∧
      D ∈ ResolveTypes idx "" [methodOn D m] []) ∧
    (LazyTerm.Static (array (name "static")) ∈ fi.Typ.terms →
      C ++ "[]" ∈ ResolveTypes idx "" [methodOn C m] [] ∧
      D ++ "[]" ∈ ResolveTypes idx "" [methodOn D m] []) ∧
    ResolveTypes lsbIndex "" [methodOn "\\Base" "getStatic"] [] = {"\\Base"} ∧
    ResolveTypes lsbIndex "" [methodOn "\\Derived" "getStatic"] [] = {"\\Base", "\\Derived"} := by
  have hfree : ∀ te, (∀ mbr ∈ normalMembers te, mentionsStatic mbr = false) →
      staticAtoms D te = staticAtoms C te := by
    intro te hfree
    unfold staticAtoms
    apply List.map_congr_left
    intro mbr hmbr
    rw [bindStatic_of_not_mentions D mbr (hfree mbr hmbr),
      bindStatic_of_not_mentions C mbr (hfree mbr hmbr)]
  refine ⟨?_, ?_, ?_, ?_, by decide, by decide⟩
  · intro te hte
    exact ⟨fun a ha hne => mem_ResolveTypes_methodOn idx C m fi hC hCc hCi te hte a ha hne,
      fun a ha hne => mem_ResolveTypes_methodOn idx D m fi hD hDc hDi te hte a ha hne⟩
  · intro te hte hf
    refine ⟨hfree te hf, fun a ha hne => ?_⟩
    exact ⟨mem_ResolveTypes_methodOn idx C m fi hC hCc hCi te hte a ha hne,
      mem_ResolveTypes_methodOn idx D m fi hD hDc hDi te hte a
        (by rw [hfree te hf]; exact ha) hne⟩
  · intro hte
    exact ⟨mem_ResolveTypes_methodOn idx C m fi hC hCc hCi _ hte C
        (by simp [(staticAtoms_static C hCc).1]) (class_ne C hCc _ (by decide)),
      mem_ResolveTypes_methodOn idx D m fi hD hDc hDi _ hte D
        (by simp [(staticAtoms_static D hDc).1]) (class_ne D hDc _ (by decide))⟩
  · intro hte
    exact ⟨mem_ResolveTypes_methodOn idx C m fi hC hCc hCi _ hte _
        (by simp [(staticAtoms_static C hCc).2]) (append_brackets_ne_empty_array C),
      mem_ResolveTypes_methodOn idx D m fi hD hDc hDi _ hte _
        (by simp [(staticAtoms_static D hDc).2]) (append_brackets_ne_empty_array D)⟩

/-- Witness of the amended C6 at `Base`, `Derived` and `getStatic`: the atom
`\Base` of the static-free return term is in both results, and the `static`
return term contributes `\Derived` to the call on a `Derived`. -/
theorem late_static_binding_rebinds_witness :
    "\\Base" ∈ ResolveTypes lsbIndex "" [methodOn "\\Derived" "getStatic"] [] ∧
    "\\Derived" ∈ ResolveTypes lsbIndex "" [methodOn "\\Derived" "getStatic"] [] :=
  have h := late_static_binding_rebinds lsbIndex "\\Base" "\\Derived" "getStatic"
    ⟨{ terms := [.Static (name "static"), .Static (name "\\Base")], precise := false }⟩
    (by decide) (by decide) (by decide) (by decide) (by decide) (by decide)
  ⟨((h.2.1 (name "\\Base") (by decide) (by decide)).2 "\\Base" (by decide) (by decide)).2,
    (h.2.2.1 (by decide)).2⟩

/-! ## The nodes `BooleanNot` and `Exit`: constructors, positions, walks -/

/-- C16. Position round trip: after `n.SetPosition(p)`, for a `BooleanNot` or
an `Exit` node and any position `p`, nil included, `n.GetPosition()` returns
`p`, and the fields `Expr`, `FreeFloating` and, for `Exit`, `Die` are
unchanged. -/
theorem position_round_trip {N : Type} (p : Option position.Position) :
    (∀ n : expr.BooleanNot N,
      (n.SetPosition p).GetPosition = p ∧ (n.SetPosition p).Expr = n.Expr ∧
      (n.SetPosition p).FreeFloating = n.FreeFloating) ∧
    (∀ n : expr.Exit N,
      (n.SetPosition p).GetPosition = p ∧ (n.SetPosition p).Expr = n.Expr ∧
      (n.SetPosition p).FreeFloating = n.FreeFloating ∧ (n.SetPosition p).Die = n.Die) :=
  ⟨fun _ => ⟨rfl, rfl, rfl⟩, fun _ => ⟨rfl, rfl, rfl, rfl⟩⟩

/-- C17. Node constructors: for every expression `e`, nil included,
`NewBooleanNot(e)` has `Expr` equal to `e`, `Position` nil and `FreeFloating`
nil, and `NewExit(e)` has the same three fields and `Die` false. -/
theorem node_constructors {N : Type} (e : N) :
    ((expr.NewBooleanNot e).Expr = e ∧ (expr.NewBooleanNot e).Position = none ∧
      (expr.NewBooleanNot e).FreeFloating = none) ∧
    ((expr.NewExit e).Expr = e ∧ (expr.NewExit e).Position = none ∧
      (expr.NewExit e).FreeFloating = none ∧ (expr.NewExit e).Die = false) :=
  ⟨⟨rfl, rfl, rfl⟩, ⟨rfl, rfl, rfl, rfl⟩⟩

theorem BooleanNot_Walk_false {σ : Type} (others : String → Nat → σ → walker.Run σ)
    (v : walker.Visitor σ) (n : expr.BooleanNot node.Node) (s : σ)
    (h : (v.EnterNode s (.BooleanNot n)).1 = false) :
    expr.BooleanNot.Walk others v n s =
      some ([.EnterNode (.BooleanNot n)], (v.EnterNode s (.BooleanNot n)).2) := by
  rw [expr.BooleanNot.Walk]
  simp [h]

theorem Exit_Walk_false {σ : Type} (others : String → Nat → σ → walker.Run σ)
    (v : walker.Visitor σ) (n : expr.Exit node.Node) (s : σ)
    (h : (v.EnterNode s (.Exit n)).1 = false) :
    expr.Exit.Walk others v n s =
      some ([.EnterNode (.Exit n)], (v.EnterNode s (.Exit n)).2) := by
  rw [expr.Exit.Walk]
  simp [h]

theorem BooleanNot_Walk_true {σ : Type} (others : String → Nat → σ → walker.Run σ)
    (v : walker.Visitor σ) (n : expr.BooleanNot node.Node) (s : σ)
    (h : (v.EnterNode s (.BooleanNot n)).1 = true) :
    expr.BooleanNot.Walk others v n s =
      if n.Expr.isNil then
        some ([.EnterNode (.BooleanNot n), .LeaveNode (.BooleanNot n)],
          v.LeaveNode (v.EnterNode s (.BooleanNot n)).2 (.BooleanNot n))
      else
        (node.Node.Walk others v n.Expr (v.EnterNode s (.BooleanNot n)).2).map fun r =>
          (.EnterNode (.BooleanNot n) :: r.1 ++ [.LeaveNode (.BooleanNot n)],
            v.LeaveNode r.2 (.BooleanNot n)) := by
  rw [expr.BooleanNot.Walk]
  by_cases hn : n.Expr.isNil = true
  · simp [h, hn]
  · simp only [h, hn, Bool.not_true, Bool.false_eq_true, if_false, Bool.not_false, if_true]
    cases node.Node.Walk others v n.Expr (v.EnterNode s (.BooleanNot n)).2 <;> simp

theorem Exit_Walk_true {σ : Type} (others : String → Nat → σ → walker.Run σ)
    (v : walker.Visitor σ) (n : expr.Exit node.Node) (s : σ)
    (h : (v.EnterNode s (.Exit n)).1 = true) :
    expr.Exit.Walk others v n s =
      if n.Expr.isNil then
        some ([.EnterNode (.Exit n), .LeaveNode (.Exit n)],
          v.LeaveNode (v.EnterNode s (.Exit n)).2 (.Exit n))
      else
        (node.Node.Walk others v n.Expr (v.EnterNode s (.Exit n)).2).map fun r =>
          (.EnterNode (.Exit n) :: r.1 ++ [.LeaveNode (.Exit n)],
            v.LeaveNode r.2 (.Exit n)) := by
  rw [expr.Exit.Walk]
  by_cases hn : n.Expr.isNil = true
  · simp [h, hn]
  · simp only [h, hn, Bool.not_true, Bool.false_eq_true, if_false, Bool.not_false, if_true]
    cases node.Node.Walk others v n.Expr (v.EnterNode s (.Exit n)).2 <;> simp

/-- C19. Pruning: when `v.EnterNode(n)` returns false for a `BooleanNot` or an
`Exit` node `n`, `n.Walk(v)` makes that one visitor call and no other: `n.Expr`
is not walked, `v.LeaveNode(n)` is not called, and the visitor is left in the
state in which `EnterNode` left it. -/
theorem walk_prunes {σ : Type} (others : String → Nat → σ → walker.Run σ)
    (v : walker.Visitor σ) (s : σ) :
    (∀ n : expr.BooleanNot node.Node, (v.EnterNode s (.BooleanNot n)).1 = false →
      expr.BooleanNot.Walk others v n s =
        some ([.EnterNode (.BooleanNot n)], (v.EnterNode s (.BooleanNot n)).2)) ∧
    (∀ n : expr.Exit node.Node, (v.EnterNode s (.Exit n)).1 = false →
      expr.Exit.Walk others v n s =
        some ([.EnterNode (.Exit n)], (v.EnterNode s (.Exit n)).2)) :=
  ⟨fun n h => BooleanNot_Walk_false others v n s h,
    fun n h => Exit_Walk_false others v n s h⟩

/-- Witness of C19: a visitor that answers false on `!exit` is called once. -/
theorem walk_prunes_witness :
    expr.BooleanNot.Walk noOthers (constVisitor false) notExit () =
      some ([.EnterNode (.BooleanNot notExit)], ()) :=
  (walk_prunes noOthers (constVisitor false) ()).1 notExit rfl

/-- C20. Visit order: when `v.EnterNode(n)` returns true for a `BooleanNot` or
an `Exit` node `n`, the visitor calls of `n.Walk(v)` are `EnterNode(n)`, then
the calls of `n.Expr.Walk(v)` when `Expr` is not nil (and the walk fails
exactly when that walk fails), then `LeaveNode(n)`, once and last; when `Expr`
is nil the calls are `EnterNode(n)`, `LeaveNode(n)` and the walk does not
fail. -/
theorem walk_visit_order {σ : Type} (others : String → Nat → σ → walker.Run σ)
    (v : walker.Visitor σ) (s : σ) :
    (∀ n : expr.BooleanNot node.Node, (v.EnterNode s (.BooleanNot n)).1 = true →
      (n.Expr.isNil = true →
        expr.BooleanNot.Walk others v n s =
          some ([.EnterNode (.BooleanNot n), .LeaveNode (.BooleanNot n)],
            v.LeaveNode (v.EnterNode s (.BooleanNot n)).2 (.BooleanNot n))) ∧
      (n.Expr.isNil = false →
        expr.BooleanNot.Walk others v n s =
          (node.Node.Walk others v n.Expr (v.EnterNode s (.BooleanNot n)).2).map fun r =>
            (.EnterNode (.BooleanNot n) :: r.1 ++ [.LeaveNode (.BooleanNot n)],
              v.LeaveNode r.2 (.BooleanNot n)))) ∧
    (∀ n : expr.Exit node.Node, (v.EnterNode s (.Exit n)).1 = true →
      (n.Expr.isNil = true →
        expr.Exit.Walk others v n s =
          some ([.EnterNode (.Exit n), .LeaveNode (.Exit n)],
            v.LeaveNode (v.EnterNode s (.Exit n)).2 (.Exit n))) ∧
      (n.Expr.isNil = false →
        expr.Exit.Walk others v n s =
          (node.Node.Walk others v n.Expr (v.EnterNode s (.Exit n)).2).map fun r =>
            (.EnterNode (.Exit n) :: r.1 ++ [.LeaveNode (.Exit n)],
              v.LeaveNode r.2 (.Exit n)))) := by
  refine ⟨fun n h => ⟨fun hn => ?_, fun hn => ?_⟩, fun n h => ⟨fun hn => ?_, fun hn => ?_⟩⟩
  · rw [BooleanNot_Walk_true others v n s h, if_pos hn]
  · rw [BooleanNot_Walk_true others v n s h, if_neg (by simp [hn])]
  · rw [Exit_Walk_true others v n s h, if_pos hn]
  · rw [Exit_Walk_true others v n s h, if_neg (by simp [hn])]

/-- Witness of C20: a visitor that always answers true visits `!exit` in the
order enter `!`, enter `exit`, leave `exit`, leave `!`. -/
theorem walk_visit_order_witness :
    expr.BooleanNot.Walk noOthers (constVisitor true) notExit () =
      some ([.EnterNode (.BooleanNot notExit), .EnterNode notExit.Expr,
        .LeaveNode notExit.Expr, .LeaveNode (.BooleanNot notExit)], ()) :=
  (((walk_visit_order noOthers (constVisitor true) ()).1 notExit rfl).2 rfl).trans rfl

theorem entered_append_leave (cs : List walker.Call) (w : node.Node) :
    walker.entered (cs ++ [.LeaveNode w]) = walker.entered cs := by
  induction cs with
  | nil => rfl
  | cons c rest ih => cases c <;> simp [walker.entered, ih]

/-- On a chain of `BooleanNot` and `Exit` nodes a walk with a stateless visitor
succeeds, and `EnterNode` is called on the nodes of the chain down to and
including the first one for which it answers false. -/
theorem chain_walk (others : String → Nat → Unit → walker.Run Unit)
    (p : node.Node → Bool) :
    ∀ x : node.Node, x.isChain = true → x.isNil = false →
      ∃ calls, node.Node.Walk others (predVisitor p) x () = some (calls, ()) ∧
        walker.entered calls = reached p x.spine
  | .nil, _, hn => by simp [node.Node.isNil] at hn
  | .other _ _, hc, _ => by simp [node.Node.isChain] at hc
  | .BooleanNot ⟨ff, pos, e⟩, hc, _ => by
    rw [node.Node.Walk]
    by_cases hp : p (.BooleanNot ⟨ff, pos, e⟩) = true
    · have ht : ((predVisitor p).EnterNode () (.BooleanNot ⟨ff, pos, e⟩)).1 = true := hp
      rw [BooleanNot_Walk_true others _ _ _ ht]
      by_cases hnil : e.isNil = true
      · refine ⟨_, by simp [hnil]; rfl, ?_⟩
        cases e <;> simp [node.Node.isNil] at hnil
        simp [walker.entered, node.Node.spine, reached, hp]
      · obtain ⟨calls, hw, he⟩ := chain_walk others p e
          (by simpa [node.Node.isChain] using hc) (by simpa using hnil)
        refine ⟨_, by simp only [hnil, Bool.false_eq_true, if_false]; rw [show
          ((predVisitor p).EnterNode () (.BooleanNot ⟨ff, pos, e⟩)).2 = () from rfl, hw]; rfl, ?_⟩
        simp [walker.entered, entered_append_leave, he, node.Node.spine, reached, hp]
    · have hf : ((predVisitor p).EnterNode () (.BooleanNot ⟨ff, pos, e⟩)).1 = false := by
        simpa using hp
      rw [BooleanNot_Walk_false others _ _ _ hf]
      exact ⟨_, rfl, by simp [walker.entered, node.Node.spine, reached, hp]⟩
  | .Exit ⟨ff, die, pos, e⟩, hc, _ => by
    rw [node.Node.Walk]
    by_cases hp : p (.Exit ⟨ff, die, pos, e⟩) = true
    · have ht : ((predVisitor p).EnterNode () (.Exit ⟨ff, die, pos, e⟩)).1 = true := hp
      rw [Exit_Walk_true others _ _ _ ht]
      by_cases hnil : e.isNil = true
      · refine ⟨_, by simp [hnil]; rfl, ?_⟩
        cases e <;> simp [node.Node.isNil] at hnil
        simp [walker.entered, node.Node.spine, reached, hp]
      · obtain ⟨calls, hw, he⟩ := chain_walk others p e
          (by simpa [node.Node.isChain] using hc) (by simpa using hnil)
        refine ⟨_, by simp only [hnil, Bool.false_eq_true, if_false]; rw [show
          ((predVisitor p).EnterNode () (.Exit ⟨ff, die, pos, e⟩)).2 = () from rfl, hw]; rfl, ?_⟩
        simp [walker.entered, entered_append_leave, he, node.Node.spine, reached, hp]
    · have hf : ((predVisitor p).EnterNode () (.Exit ⟨ff, die, pos, e⟩)).1 = false := by
        simpa using hp
      rw [Exit_Walk_false others _ _ _ hf]
      exact ⟨_, rfl, by simp [walker.entered, node.Node.spine, reached, hp]⟩

/-- C15 as stated fails. On the tree of `!exit`, a visitor whose `EnterNode`
always returns true is taken down into `n.Expr` (the `Exit` node is entered and
left), and a visitor whose `EnterNode` always returns false is not: the walk
stops after the one call `EnterNode(n)`. -/
theorem walk_until_true_counterexample :
    expr.BooleanNot.Walk noOthers (constVisitor true) notExit () =
      some ([.EnterNode (.BooleanNot notExit), .EnterNode notExit.Expr,
        .LeaveNode notExit.Expr, .LeaveNode (.BooleanNot notExit)], ()) ∧
    expr.BooleanNot.Walk noOthers (constVisitor false) notExit () =
      some ([.EnterNode (.BooleanNot notExit)], ()) :=
  ⟨rfl, rfl⟩

/-- C15, amended. `Walk` on a `BooleanNot` or an `Exit` node is invoked
recursively until `v.EnterNode` returns false: for every visitor and every node
with an expression, `Walk` walks `n.Expr` when `v.EnterNode(n)` returns true
and stops without walking it when `v.EnterNode(n)` returns false; so on a chain
of such nodes a stateless visitor is entered on the nodes of the chain down to
and including the first one for which `EnterNode` returns false. -/
theorem walk_until_false {σ : Type} (others : String → Nat → σ → walker.Run σ)
    (v : walker.Visitor σ) (s : σ) :
    (∀ n : expr.BooleanNot node.Node, n.Expr.isNil = false →
      expr.BooleanNot.Walk others v n s =
        if (v.EnterNode s (.BooleanNot n)).1 = true then
          (node.Node.Walk others v n.Expr (v.EnterNode s (.BooleanNot n)).2).map fun r =>
            (.EnterNode (.BooleanNot n) :: r.1 ++ [.LeaveNode (.BooleanNot n)],
              v.LeaveNode r.2 (.BooleanNot n))
        else some ([.EnterNode (.BooleanNot n)], (v.EnterNode s (.BooleanNot n)).2)) ∧
    (∀ n : expr.Exit node.Node, n.Expr.isNil = false →
      expr.Exit.Walk others v n s =
        if (v.EnterNode s (.Exit n)).1 = true then
          (node.Node.Walk others v n.Expr (v.EnterNode s (.Exit n)).2).map fun r =>
            (.EnterNode (.Exit n) :: r.1 ++ [.LeaveNode (.Exit n)],
              v.LeaveNode r.2 (.Exit n))
        else some ([.EnterNode (.Exit n)], (v.EnterNode s (.Exit n)).2)) ∧
    (∀ (others1 : String → Nat → Unit → walker.Run Unit) (p : node.Node → Bool)
      (x : node.Node), x.isChain = true → x.isNil = false →
      ∃ calls, node.Node.Walk others1 (predVisitor p) x () = some (calls, ()) ∧
        walker.entered calls = reached p x.spine) := by
  refine ⟨fun n hn => ?_, fun n hn => ?_, fun others1 p x hc hx => chain_walk others1 p x hc hx⟩
  · by_cases h : (v.EnterNode s (.BooleanNot n)).1 = true
    · rw [BooleanNot_Walk_true others v n s h, if_neg (by simp [hn]), if_pos h]
    · rw [BooleanNot_Walk_false others v n s (by simpa using h), if_neg h]
  · by_cases h : (v.EnterNode s (.Exit n)).1 = true
    · rw [Exit_Walk_true others v n s h, if_neg (by simp [hn]), if_pos h]
    · rw [Exit_Walk_false others v n s (by simpa using h), if_neg h]

/-- Witness of the amended C15 on `!exit` with a visitor that accepts the
`BooleanNot` node only: it is entered on both nodes, the second being the
first one it rejects. -/
theorem walk_until_false_witness :
    ∃ calls, node.Node.Walk noOthers (predVisitor fun w =>
        match w with
        | .BooleanNot _ => true
        | _ => false) (.BooleanNot notExit) () = some (calls, ()) ∧
      walker.entered calls = [.BooleanNot notExit, notExit.Expr] :=
  (walk_until_false noOthers (constVisitor true) ()).2.2 noOthers
    (fun w =>
      match w with
      | .BooleanNot _ => true
      | _ => false) (.BooleanNot notExit) rfl rfl

/-! ## Variables, returns and precision in the inference engine -/

theorem assignVar_flagged (sc : Scope) (v : String) (r : ScopeVar) (t : TypesMap)
    (hr : sc v = some r) (hflag : r.NoReplace = true) :
    assignVar sc v t v = some { Typ := r.Typ.Union t, NoReplace := true } := by
  simp [assignVar, hr, hflag, Scope.set]

theorem assignVar_other (sc : Scope) (v w : String) (t : TypesMap) (h : w ≠ v) :
    assignVar sc v t w = sc w := by
  unfold assignVar
  cases hv : sc v with
  | none => simp [Scope.set, h]
  | some r => by_cases hf : r.NoReplace = true <;> simp [hf, Scope.set, h]

theorem assignVar_flagged_all (v : String) (ts : List TypesMap) :
    ∀ (sc : Scope) (r : ScopeVar), sc v = some r → r.NoReplace = true →
      (ts.foldl (fun acc t => assignVar acc v t) sc) v =
        some { Typ := ts.foldl TypesMap.Union r.Typ, NoReplace := true } := by
  induction ts with
  | nil =>
    intro sc r hr hflag
    cases r
    simp_all
  | cons t rest ih =>
    intro sc r hr hflag
    simp only [List.foldl_cons]
    exact ih (assignVar sc v t) _ (assignVar_flagged sc v r t hr hflag) rfl

/-- C11. NoReplace: a `@var` annotation on a local records the declared type
with the flag set; from then on every assignment to the variable unions the
assigned type into the recorded one and keeps the flag, whatever the number of
assignments, and leaves other variables alone. `phpdoc_localvar()`, with
`@var string $x` and then `$x = 10`, resolves to `int|string`. -/
theorem noreplace_unions (sc : Scope) (v : String) (r : ScopeVar)
    (hr : sc v = some r) (hflag : r.NoReplace = true) :
    (∀ (st : FnState) (e : PhpExpr), st.scope = sc →
      (walkStmt (.assign v e) st).scope v =
        some { Typ := r.Typ.Union (exprType sc e), NoReplace := true }) ∧
    (∀ ts : List TypesMap,
      (ts.foldl (fun acc t => assignVar acc v t) sc) v =
        some { Typ := ts.foldl TypesMap.Union r.Typ, NoReplace := true }) ∧
    (∀ (w : String) (t : TypesMap), w ≠ v → assignVar sc w t v = some r) ∧
    (∀ (st : FnState) (t : TypeExpr),
      (walkStmt (.varDoc v t) st).scope v =
        some { Typ := { terms := [.Static t], precise := false }, NoReplace := true }) ∧
    ResolveTypes scopeIndex "" [.CallResult "\\phpdoc_localvar"] [] = {"int", "string"} := by
  refine ⟨?_, fun ts => assignVar_flagged_all v ts sc r hr hflag, ?_, ?_, by decide⟩
  · intro st e hst
    subst hst
    exact assignVar_flagged st.scope v r _ hr hflag
  · intro w t hw
    rw [assignVar_other sc w v t (Ne.symm hw), hr]
  · intro st t
    simp [walkStmt, Scope.set, annotatedVar]

/-- Witness of C11: after `@var string $x`, the assignment `$x = 10` leaves
`$x` with the declared `string` and the assigned `int`. -/
theorem noreplace_unions_witness :
    (walkStmt (.assign "$x" (.lit "int"))
      (walkStmt (.varDoc "$x" (name "string")) FnState.start)).scope "$x" =
      some { Typ := (annotatedVar (name "string")).Typ.Union (TypesMap.preciseAtom "int"),
             NoReplace := true } :=
  (noreplace_unions (walkStmt (.varDoc "$x" (name "string")) FnState.start).scope "$x"
    (annotatedVar (name "string")) (by decide) (by decide)).1 _ (.lit "int") rfl

/-- C12 as stated fails. By the rule of the claim the record of `$x` after
`$x = '123'; $x = 10;` holds `string` and `int`, and `localvar()` and
`phpdoc_param($v)` resolve to `int|string`. The rows of
`TestExprTypeScopeNoreplace` for them expect `int`, which holds no `string`:
with the rule of the claim both rows fail. -/
theorem reassignment_union_counterexample :
    ((walkStmt (.seq (.assign "$x" (.lit "string")) (.assign "$x" (.lit "int")))
      FnState.start).scope "$x").map (fun r => r.Typ.terms) =
      some [.Static (name "string"), .Static (name "int")] ∧
    ResolveTypes scopeIndex "" [.CallResult "\\localvar"] [] = {"int", "string"} ∧
    ResolveTypes scopeIndex "" [.CallResult "\\phpdoc_param"] [] = {"int", "string"} ∧
    expectedOf TestExprTypeScopeNoreplace.tests "localvar()" = some "int" ∧
    expectedOf TestExprTypeScopeNoreplace.tests "phpdoc_param($v)" = some "int" ∧
    (makeType "int").Types = {"int"} ∧
    "string" ∉ (makeType "int").Types ∧
    rowPasses scopeIndex (probeInfo .skip (.call "\\localvar")) ⟨"localvar()", "int"⟩ = false ∧
    rowPasses scopeIndex (probeInfo .skip (.call "\\phpdoc_param")) ⟨"phpdoc_param($v)", "int"⟩ =
      false := by
  refine ⟨by decide, by decide, by decide, by decide, by decide, by decide, by decide,
    by decide, by decide⟩

/-- C12, amended. For a variable without the NoReplace flag the tests expect
that a reassignment does not keep the previous type: every row of
`TestExprTypeScopeNoreplace` but `phpdoc_localvar()`, that is `localvar()`
(`$x = '123'; $x = 10;`) and `phpdoc_param($v)`, expects `int`, which holds no
`string`. Both types, `int|string`, are expected only for `phpdoc_localvar()`,
whose `$x` has the flag, and the union into the flagged record gives exactly
that. -/
theorem reassignment_expectations :
    (∀ t ∈ TestExprTypeScopeNoreplace.tests, t.expr ≠ "phpdoc_localvar()" →
      (t.expr = "localvar()" ∨ t.expr = "phpdoc_param($v)") ∧
      t.expectedType = "int" ∧
      (makeType t.expectedType).Types = {"int"} ∧
      "string" ∉ (makeType t.expectedType).Types) ∧
    expectedOf TestExprTypeScopeNoreplace.tests "localvar()" = some "int" ∧
    expectedOf TestExprTypeScopeNoreplace.tests "phpdoc_param($v)" = some "int" ∧
    expectedOf TestExprTypeScopeNoreplace.tests "phpdoc_localvar()" = some "int|string" ∧
    (makeType "int|string").Types = {"int", "string"} ∧
    rowPasses scopeIndex (probeInfo .skip (.call "\\phpdoc_localvar"))
      ⟨"phpdoc_localvar()", "int|string"⟩ = true := by
  refine ⟨?_, by decide, by decide, by decide, by decide, by decide⟩
  intro t ht hne
  simp only [TestExprTypeScopeNoreplace.tests, List.mem_cons, List.mem_singleton,
    List.not_mem_nil, or_false] at ht
  rcases ht with rfl | rfl | rfl
  · exact ⟨Or.inr rfl, rfl, by decide, by decide⟩
  · exact absurd rfl hne
  · exact ⟨Or.inl rfl, rfl, by decide, by decide⟩

/-- Witness of the amended C12: the row `localvar()` expects `int`, without
`string`. -/
theorem reassignment_expectations_witness :
    (makeType "int").Types = {"int"} ∧ "string" ∉ (makeType "int").Types :=
  (reassignment_expectations.1 ⟨"localvar()", "int"⟩ (by simp [TestExprTypeScopeNoreplace.tests])
    (by decide)).2.2

theorem mem_unionAll_terms (m : TypesMap) (ms : List TypesMap) (x : TypesMap)
    (hx : x ∈ m :: ms) : ∀ t ∈ x.terms, t ∈ (TypesMap.unionAll m ms).terms := by
  induction ms generalizing m with
  | nil =>
    intro t ht
    simp only [List.mem_singleton] at hx
    subst hx
    exact ht
  | cons n rest ih =>
    intro t ht
    simp only [TypesMap.unionAll, TypesMap.Union, List.mem_append]
    rcases List.mem_cons.mp hx with rfl | hx
    · exact Or.inl ht
    · exact Or.inr (ih n hx t ht)

theorem unionAll_terms_mem (m : TypesMap) (ms : List TypesMap) :
    ∀ t ∈ (TypesMap.unionAll m ms).terms, ∃ x ∈ m :: ms, t ∈ x.terms := by
  induction ms generalizing m with
  | nil => intro t ht; exact ⟨m, by simp, ht⟩
  | cons n rest ih =>
    intro t ht
    simp only [TypesMap.unionAll, TypesMap.Union, List.mem_append] at ht
    rcases ht with ht | ht
    · exact ⟨m, by simp, ht⟩
    · obtain ⟨x, hx, hxt⟩ := ih n t ht
      exact ⟨x, List.mem_cons_of_mem _ hx, hxt⟩

/-- C14 as stated fails. The body of `void_func2()` is only the bare
`return;`; by the rule of the claim it contributes `null` and the function
resolves to `null`. The row of `TestExprTypeVoid` for it expects `void`, which
holds no `null`: with the rule of the claim the row fails, and `void_func2()`
is no witness of it. -/
theorem bare_return_null_counterexample :
    (walkStmt .retBare FnState.start).bareReturn = true ∧
    ResolveTypes returnIndex "" [.CallResult "\\void_func2"] [] = {"null"} ∧
    expectedOf TestExprTypeVoid.tests "void_func2()" = some "void" ∧
    (makeType "void").Types = {"void"} ∧
    "null" ∉ (makeType "void").Types ∧
    rowPasses returnIndex (probeInfo .skip (.call "\\void_func2")) ⟨"void_func2()", "void"⟩ =
      false := by
  refine ⟨rfl, by decide, by decide, by decide, by decide, by decide⟩

/-- C14, amended. Return unification: in a function that has a `return EXPR`,
every bare `return;` contributes `null` to the return type next to the types of
all `return EXPR` statements, and `throw` contributes nothing; so `bare_ret1()`
and `bare_ret2()` resolve to `int|null` and `throw1()` to `int`, as the rows of
`TestExprTypeFunction` expect. For `void_func2()`, whose body is only
`return;`, the test expects `void`, without `null`. -/
theorem return_unification (st : FnState) :
    (st.returns ≠ [] → st.bareReturn = true →
      LazyTerm.Static (name "null") ∈ st.returnType.terms ∧
      ∀ x ∈ st.returns, ∀ t ∈ x.terms, t ∈ st.returnType.terms) ∧
    (st.returns ≠ [] → st.bareReturn = false →
      ∀ t, t ∈ st.returnType.terms ↔ ∃ x ∈ st.returns, t ∈ x.terms) ∧
    walkStmt .throwStmt st = st ∧
    ((walkStmt .retBare st).returns = st.returns ∧ (walkStmt .retBare st).bareReturn = true ∧
      (walkStmt .retBare st).scope = st.scope) ∧
    expectedOf TestExprTypeFunction.tests "bare_ret1()" = some "int|null" ∧
    expectedOf TestExprTypeFunction.tests "bare_ret2()" = some "int|null" ∧
    expectedOf TestExprTypeFunction.tests "throw1()" = some "int" ∧
    rowPasses returnIndex (probeInfo .skip (.call "\\bare_ret1")) ⟨"bare_ret1()", "int|null"⟩ =
      true ∧
    rowPasses returnIndex (probeInfo .skip (.call "\\bare_ret2")) ⟨"bare_ret2()", "int|null"⟩ =
      true ∧
    rowPasses returnIndex (probeInfo .skip (.call "\\throw1")) ⟨"throw1()", "int"⟩ = true ∧
    expectedOf TestExprTypeVoid.tests "void_func2()" = some "void" ∧
    "null" ∉ (makeType "void").Types := by
  refine ⟨?_, ?_, rfl, ⟨rfl, rfl, rfl⟩, by decide, by decide, by decide, by decide, by decide,
    by decide, by decide, by decide⟩
  · intro hne hb
    cases hrs : st.returns with
    | nil => exact absurd hrs hne
    | cons t ts =>
      simp only [FnState.returnType, hrs, hb, if_true, List.cons_append]
      refine ⟨?_, fun x hx u hu => ?_⟩
      · exact mem_unionAll_terms t _ (TypesMap.declaredAtom "null") (by simp)
          _ (by simp [TypesMap.declaredAtom])
      · refine mem_unionAll_terms t _ x ?_ u hu
        rcases List.mem_cons.mp hx with rfl | hx
        · simp
        · exact List.mem_cons_of_mem _ (List.mem_append_left _ hx)
  · intro hne hb
    cases hrs : st.returns with
    | nil => exact absurd hrs hne
    | cons t ts =>
      simp only [FnState.returnType, hrs, hb, Bool.false_eq_true, if_false, List.append_nil]
      intro u
      constructor
      · intro hu
        exact unionAll_terms_mem t ts u hu
      · rintro ⟨x, hx, hxu⟩
        exact mem_unionAll_terms t ts x hx u hxu

/-- Witness of the amended C14: in `bare_ret1`, after `return;` inside the
`if` and `return 10;`, the return type holds `null` next to `int`. -/
theorem return_unification_witness :
    LazyTerm.Static (name "null") ∈
      (walkStmt (.seq (.ifThen (.var "$cond") .retBare) (.ret (.lit "int")))
        FnState.start).returnType.terms :=
  ((return_unification (walkStmt (.seq (.ifThen (.var "$cond") .retBare) (.ret (.lit "int")))
    FnState.start)).1 (by decide) (by decide)).1

/-- C13 as stated fails. The operands `1`, `4.5`, `1.4`, `"abc"` and `"foo"`
are precise, so by the rule of the claim `-1`, `4.5 & 1.4` and `"abc" | "foo"`
are precise. The rows of `TestExprTypeSimple` for them expect `int`, `int` and
`string` without the `precise ` prefix, for which `makeType` gives
`Precise = false`: with the rule of the claim the three rows fail. -/
theorem precise_operations_counterexample :
    (exprType Scope.empty (.lit "int")).IsPrecise = true ∧
    (exprType Scope.empty (.lit "float")).IsPrecise = true ∧
    (exprType Scope.empty (.lit "string")).IsPrecise = true ∧
    (probeInfo .skip (.unary .minus (.lit "int"))).Typ.IsPrecise = true ∧
    (probeInfo .skip (.binary .bitwiseAnd (.lit "float") (.lit "float"))).Typ.IsPrecise = true ∧
    (probeInfo .skip (.binary .bitwiseOr (.lit "string") (.lit "string"))).Typ.IsPrecise = true ∧
    probeExpr "-1" = some (.unary .minus (.lit "int")) ∧
    probeExpr "4.5 & 1.4" = some (.binary .bitwiseAnd (.lit "float") (.lit "float")) ∧
    probeExpr "\"abc\" | \"foo\"" = some (.binary .bitwiseOr (.lit "string") (.lit "string")) ∧
    expectedOf TestExprTypeSimple.tests "-1" = some "int" ∧
    expectedOf TestExprTypeSimple.tests "4.5 & 1.4" = some "int" ∧
    expectedOf TestExprTypeSimple.tests "\"abc\" | \"foo\"" = some "string" ∧
    (makeType "int").Precise = false ∧ (makeType "string").Precise = false ∧
    rowPasses emptyIndex (probeInfo .skip (.unary .minus (.lit "int"))) ⟨"-1", "int"⟩ = false ∧
    rowPasses emptyIndex (probeInfo .skip (.binary .bitwiseAnd (.lit "float") (.lit "float")))
      ⟨"4.5 & 1.4", "int"⟩ = false ∧
    rowPasses emptyIndex (probeInfo .skip (.binary .bitwiseOr (.lit "string") (.lit "string")))
      ⟨"\"abc\" | \"foo\"", "string"⟩ = false := by
  refine ⟨rfl, rfl, rfl, rfl, rfl, rfl, by decide, by decide, by decide, by decide, by decide,
    by decide, by decide, by decide, by decide, by decide, by decide⟩

/-- The rows of a table that the model reads and whose outermost operation is
not arithmetic pass; the arithmetic ones have the expected type names and are
expected without precision. -/
theorem rows_checked (tests : List exprTypeTest) (local_ : Stmt)
    (h : (tests.all fun t =>
      match probeExpr t.expr with
      | some e =>
        if e.isArithmetic then
          !(makeType t.expectedType).Precise &&
            decide ((resolvedValue emptyIndex (probeInfo local_ e).Typ).Types =
              (makeType t.expectedType).Types)
        else rowPasses emptyIndex (probeInfo local_ e) t
      | none => true) = true) :
    ∀ t ∈ tests, ∀ e, probeExpr t.expr = some e →
      (e.isArithmetic = false → rowPasses emptyIndex (probeInfo local_ e) t = true) ∧
      (e.isArithmetic = true →
        (makeType t.expectedType).Precise = false ∧
        (resolvedValue emptyIndex (probeInfo local_ e).Typ).Types =
          (makeType t.expectedType).Types) := by
  intro t ht e he
  have h1 := List.all_eq_true.mp h t ht
  simp only [he] at h1
  constructor
  · intro hna
    simpa [hna] using h1
  · intro ha
    simpa [ha] using h1

/-- C13, amended. A literal, a cast and `new ClassName()` produce a precise
atom, and so does every shift, logical operation and comparison between
precise operands; the rows of `TestExprTypeSimple` and `TestExprTypeOps` with
such expressions pass (`1+5<<2` is `precise int`, `1 > 4` is `precise bool`).
For a sum, a bitwise `&`, `|`, `^` and a unary `-`, `+`, `~` the tests expect
the type without the precise flag, also between precise operands (`4.5 & 1.4`
is `int`, `"abc" | "foo"` is `string`, `-1` is `int`). -/
theorem precise_sources (sc : Scope) :
    (∀ ty : String, (exprType sc (.lit ty)).IsPrecise = true) ∧
    (∀ (ty : String) (e : PhpExpr), (exprType sc (.cast ty e)).IsPrecise = true) ∧
    (∀ cls : String, (exprType sc (.newObject cls)).IsPrecise = true) ∧
    (∀ (op : BinaryOp) (l r : PhpExpr),
      op ∈ [BinaryOp.shiftLeft, .booleanAnd, .booleanOr, .greater] →
      (exprType sc l).IsPrecise = true → (exprType sc r).IsPrecise = true →
      (exprType sc (.binary op l r)).IsPrecise = true) ∧
    (∀ t ∈ TestExprTypeSimple.tests, ∀ e, probeExpr t.expr = some e →
      (e.isArithmetic = false → rowPasses emptyIndex (probeInfo .skip e) t = true) ∧
      (e.isArithmetic = true →
        (makeType t.expectedType).Precise = false ∧
        (resolvedValue emptyIndex (probeInfo .skip e).Typ).Types =
          (makeType t.expectedType).Types)) ∧
    (∀ t ∈ TestExprTypeOps.tests, ∀ e, probeExpr t.expr = some e →
      (e.isArithmetic = false → rowPasses emptyIndex (probeInfo opsLocal e) t = true) ∧
      (e.isArithmetic = true →
        (makeType t.expectedType).Precise = false ∧
        (resolvedValue emptyIndex (probeInfo opsLocal e).Typ).Types =
          (makeType t.expectedType).Types)) ∧
    expectedOf TestExprTypeSimple.tests "1+5<<2" = some "precise int" ∧
    expectedOf TestExprTypeSimple.tests "1 > 4" = some "precise bool" ∧
    expectedOf TestExprTypeSimple.tests "4.5 & 1.4" = some "int" ∧
    expectedOf TestExprTypeSimple.tests "\"abc\" | \"foo\"" = some "string" ∧
    expectedOf TestExprTypeSimple.tests "-1" = some "int" := by
  refine ⟨fun _ => rfl, fun _ _ => rfl, fun _ => rfl, ?_,
    rows_checked _ _ (by decide), rows_checked _ _ (by decide),
    by decide, by decide, by decide, by decide, by decide⟩
  intro op l r _ hl hr
  simp only [TypesMap.IsPrecise] at hl hr
  simp [exprType, binaryType, TypesMap.IsPrecise, hl, hr]

/-- Witness of the amended C13: the comparison `1 > 4` of two literals is
precise. -/
theorem precise_sources_witness :
    (exprType Scope.empty (.binary .greater (.lit "int") (.lit "int"))).IsPrecise = true :=
  (precise_sources Scope.empty).2.2.2.1 .greater (.lit "int") (.lit "int") (by decide) rfl rfl

/-! ## The probe sources -/

theorem fold_globals (globals : List String) (buf : String) :
    globals.foldl (fun b g => b ++ ("  global " ++ g ++ ";\n")) buf =
      buf ++ concatAll (globals.map fun g => "  global " ++ g ++ ";\n") := by
  induction globals generalizing buf with
  | nil => simp [concatAll]
  | cons g rest ih =>
    simp only [List.foldl_cons, List.map_cons, concatAll]
    rw [ih, String.append_assoc]

theorem exprTypeSources_body_eq (ctx : exprTypeTestContext) (globals : List String)
    (buf : String) (i : Nat) (test : exprTypeTest) :
    exprTypeSources.body ctx globals buf i test = buf ++ probeText ctx globals i test := by
  show (globals.foldl (fun b g => b ++ ("  global " ++ g ++ ";\n"))
      (buf ++ ("function f" ++ fmt.formatInt i ++ "() \x7b\n")) ++ (ctx.local_ ++ "\n")) ++
      ("  return " ++ test.expr ++ ";\n\x7d\n") = buf ++ probeText ctx globals i test
  rw [fold_globals]
  simp only [probeText, String.append_assoc]

theorem exprTypeSources_loop_eq (ctx : exprTypeTestContext) (globals : List String)
    (tests : List exprTypeTest) :
    ∀ (i : Nat) (buf : String),
      exprTypeSources.loop ctx globals i tests buf =
        buf ++ concatAll (probeTexts ctx globals i tests) := by
  induction tests with
  | nil => intro i buf; simp [exprTypeSources.loop, probeTexts, concatAll]
  | cons t rest ih =>
    intro i buf
    simp only [exprTypeSources.loop, probeTexts, concatAll]
    rw [ih, exprTypeSources_body_eq, String.append_assoc]

theorem probeTexts_length (ctx : exprTypeTestContext) (globals : List String)
    (tests : List exprTypeTest) :
    ∀ i : Nat, (probeTexts ctx globals i tests).length = tests.length := by
  induction tests with
  | nil => intro i; rfl
  | cons t rest ih => intro i; simp [probeTexts, ih]

theorem probeTexts_get (ctx : exprTypeTestContext) (globals : List String)
    (tests : List exprTypeTest) :
    ∀ (i k : Nat) (t : exprTypeTest), tests[k]? = some t →
      (probeTexts ctx globals i tests)[k]? = some (probeText ctx globals (i + k) t) := by
  induction tests with
  | nil => intro i k t h; simp at h
  | cons u rest ih =>
    intro i k t h
    cases k with
    | zero =>
      simp only [List.getElem?_cons_zero, Option.some.injEq] at h
      subst h
      simp [probeTexts]
    | succ k =>
      simp only [List.getElem?_cons_succ] at h
      simp only [probeTexts, List.getElem?_cons_succ]
      rw [ih (i + 1) k t h]
      congr 2
      omega

theorem digitsRev_value (fuel : Nat) :
    ∀ n : Nat, n < fuel → Nat.ofDigits 10 (fmt.digitsRev fuel n) = n := by
  induction fuel with
  | zero => intro n h; omega
  | succ f ih =>
    intro n h
    unfold fmt.digitsRev
    split
    · simp [Nat.ofDigits]
    · rw [Nat.ofDigits_cons, ih (n / 10) (by omega)]
      omega

theorem digitsRev_lt (fuel : Nat) :
    ∀ n : Nat, ∀ d ∈ fmt.digitsRev fuel n, d < 10 := by
  induction fuel with
  | zero => intro n d h; simp [fmt.digitsRev] at h
  | succ f ih =>
    intro n d h
    unfold fmt.digitsRev at h
    split at h
    · simp only [List.mem_singleton] at h
      omega
    · rcases List.mem_cons.mp h with rfl | h
      · omega
      · exact ih _ d h

theorem digitChar_decode (d : Nat) (h : d < 10) : (fmt.digitChar d).toNat - 48 = d := by
  interval_cases d <;> rfl

theorem formatInt_injective (i j : Nat) (h : fmt.formatInt i = fmt.formatInt j) : i = j := by
  have hdec : ∀ n : Nat,
      ((fmt.formatInt n).data.map fun c => c.toNat - 48).reverse = fmt.digitsRev (n + 1) n := by
    intro n
    simp only [fmt.formatInt, List.map_map, List.map_reverse, List.reverse_reverse]
    conv_rhs => rw [← List.map_id (fmt.digitsRev (n + 1) n)]
    apply List.map_congr_left
    intro d hd
    exact digitChar_decode d (digitsRev_lt _ _ d hd)
  have h2 : fmt.digitsRev (i + 1) i = fmt.digitsRev (j + 1) j := by
    rw [← hdec i, ← hdec j, h]
  have h3 := congrArg (Nat.ofDigits 10) h2
  rwa [digitsRev_value _ _ (Nat.lt_succ_self i), digitsRev_value _ _ (Nat.lt_succ_self j)] at h3

/-- C21. `exprTypeSources` generates one probe function per test, in index
order: the result is `<?php` and a newline, then for each test `i` the text
`function f<i>() {`, one line `  global <g>;` per element of `globals` in
order, the local snippet and a newline, and `  return <expr>;` with the
closing brace, then a final newline. The name `\f<i>` that `runExprTypeTest`
looks up is the name declared by the probe of test `i`, distinct tests have
distinct names, and that probe ends with the return of the expression of test
`i`. -/
theorem exprTypeSources_probes (ctx : exprTypeTestContext) (tests : List exprTypeTest)
    (globals : List String) :
    exprTypeSources ctx tests globals =
      "<?php\n" ++ concatAll (probeTexts ctx globals 0 tests) ++ "\n" ∧
    (probeTexts ctx globals 0 tests).length = tests.length ∧
    (∀ (i : Nat) (t : exprTypeTest), tests[i]? = some t →
      (probeTexts ctx globals 0 tests)[i]? = some (probeText ctx globals i t) ∧
      probeText ctx globals i t =
        "function f" ++ fmt.formatInt i ++ "() \x7b\n" ++
          concatAll (globals.map fun g => "  global " ++ g ++ ";\n") ++
          (ctx.local_ ++ "\n") ++ ("  return " ++ t.expr ++ ";\n\x7d\n") ∧
      probeName i = "\\" ++ ("f" ++ fmt.formatInt i)) ∧
    (∀ i j : Nat, probeName i = probeName j → i = j) := by
  refine ⟨?_, probeTexts_length ctx globals tests 0, ?_, ?_⟩
  · show exprTypeSources.loop ctx globals 0 tests ("" ++ "<?php\n") ++ "\n" = _
    simp only [exprTypeSources_loop_eq, String.empty_append, String.append_assoc]
  · intro i t ht
    refine ⟨?_, rfl, ?_⟩
    · have := probeTexts_get ctx globals tests 0 i t ht
      simpa using this
    · simp [probeName, ← String.append_assoc]
  · intro i j h
    apply formatInt_injective
    have h2 := congrArg String.data h
    simp only [probeName, String.data_append] at h2
    exact String.ext (List.append_cancel_left h2)

/-- Witness of C21 with two tests, one global and a local snippet: the second
probe, `f1`, returns the expression of the second test. -/
theorem exprTypeSources_probes_witness :
    exprTypeSources { global := "", local_ := "$foo = new Foo();", stubs := "" }
      [{ expr := "1", expectedType := "precise int" },
       { expr := "$foo->x", expectedType := "int" }] ["$cond"] =
      "<?php\nfunction f0() \x7b\n  global $cond;\n$foo = new Foo();\n  return 1;\n\x7d\n" ++
      "function f1() \x7b\n  global $cond;\n$foo = new Foo();\n  return $foo->x;\n\x7d\n\n" :=
  ((exprTypeSources_probes { global := "", local_ := "$foo = new Foo();", stubs := "" }
    [{ expr := "1", expectedType := "precise int" },
     { expr := "$foo->x", expectedType := "int" }] ["$cond"]).1).trans (by decide)

/-! ## The globals walker -/

theorem globalsWalker_EnterNode_other (variableOf : Nat → node.Node)
    (nameFn : node.Node → String) (gw : globalsWalker) (kind : String) (id : Nat) :
    globalsWalker.EnterNode variableOf nameFn gw (.other kind id) =
      if kind = kindRoot ∨ kind = kindStmtList ∨ kind = kindExpression then (true, gw)
      else if kind = kindAssign ∧ strings.HasPrefix (nameFn (variableOf id)) "$" = true then
        (false, { globals := gw.globals ++ [nameFn (variableOf id)] })
      else (false, gw) := by
  have d1 : kindAssign ≠ kindRoot := by decide
  have d2 : kindAssign ≠ kindStmtList := by decide
  have d3 : kindAssign ≠ kindExpression := by decide
  simp only [globalsWalker.EnterNode]
  by_cases h1 : kind = kindRoot
  · simp [h1]
  · by_cases h2 : kind = kindStmtList
    · simp [h2]
    · by_cases h3 : kind = kindExpression
      · simp [h3]
      · by_cases h4 : kind = kindAssign
        · subst h4
          by_cases h5 : strings.HasPrefix (nameFn (variableOf id)) "$" = true
          · simp [d1, d2, d3, h5]
          · simp [d1, d2, d3, h5]
        · simp [h1, h2, h3, h4]

/-- C22. `globalsWalker.EnterNode` returns true if and only if the node is a
`*node.Root`, a `*stmt.StmtList` or a `*stmt.Expression`; for an
`*assign.Assign` and for every other node, nil included, it returns false. So
the walk of a `BooleanNot` or an `Exit` node stops at that node, with the
walker unchanged: no assignment below it is collected. -/
theorem globalsWalker_EnterNode_true_iff (variableOf : Nat → node.Node)
    (nameFn : node.Node → String) (gw : globalsWalker) (w : node.Node) :
    ((globalsWalker.EnterNode variableOf nameFn gw w).1 = true ↔
      ∃ id, w = .other kindRoot id ∨ w = .other kindStmtList id ∨
        w = .other kindExpression id) ∧
    (∀ id : Nat,
      (globalsWalker.EnterNode variableOf nameFn gw (.other kindAssign id)).1 = false) ∧
    (∀ (others : String → Nat → globalsWalker → walker.Run globalsWalker)
      (n : expr.BooleanNot node.Node),
      expr.BooleanNot.Walk others (globalsVisitor variableOf nameFn) n gw =
        some ([.EnterNode (.BooleanNot n)], gw)) ∧
    (∀ (others : String → Nat → globalsWalker → walker.Run globalsWalker)
      (n : expr.Exit node.Node),
      expr.Exit.Walk others (globalsVisitor variableOf nameFn) n gw =
        some ([.EnterNode (.Exit n)], gw)) := by
  refine ⟨?_, ?_, ?_, ?_⟩
  · cases w with
    | nil => simp [globalsWalker.EnterNode]
    | BooleanNot n => simp [globalsWalker.EnterNode]
    | Exit n => simp [globalsWalker.EnterNode]
    | other kind id =>
      rw [globalsWalker_EnterNode_other]
      by_cases h : kind = kindRoot ∨ kind = kindStmtList ∨ kind = kindExpression
      · simp only [h, if_true, true_iff]
        rcases h with h | h | h
        · exact ⟨id, Or.inl (by rw [h])⟩
        · exact ⟨id, Or.inr (Or.inl (by rw [h]))⟩
        · exact ⟨id, Or.inr (Or.inr (by rw [h]))⟩
      · have hf : (if kind = kindAssign ∧
            strings.HasPrefix (nameFn (variableOf id)) "$" = true then
            ((false, { globals := gw.globals ++ [nameFn (variableOf id)] }) :
              Bool × globalsWalker)
            else (false, gw)).1 = false := by split <;> rfl
        simp only [h, if_false, hf, Bool.false_eq_true, false_iff]
        rintro ⟨id2, h2 | h2 | h2⟩ <;>
          · simp only [node.Node.other.injEq] at h2
            exact h (by simp [h2.1])
  · intro id
    rw [globalsWalker_EnterNode_other]
    have : ¬ (kindAssign = kindRoot ∨ kindAssign = kindStmtList ∨ kindAssign = kindExpression) := by
      decide
    simp only [this, if_false]
    split <;> rfl
  · intro others n
    exact BooleanNot_Walk_false others _ n gw rfl
  · intro others n
    exact Exit_Walk_false others _ n gw rfl

/-- Witness of C22: the walker enters a `*stmt.Expression` and does not enter
the `*assign.Assign` below it. -/
theorem globalsWalker_EnterNode_true_iff_witness :
    (globalsWalker.EnterNode (fun _ => node.Node.nil) (fun _ => "$x") ⟨[]⟩
      (.other kindExpression 0)).1 = true ∧
    (globalsWalker.EnterNode (fun _ => node.Node.nil) (fun _ => "$x") ⟨[]⟩
      (.other kindAssign 1)).1 = false :=
  have h := globalsWalker_EnterNode_true_iff (fun _ => node.Node.nil) (fun _ => "$x") ⟨[]⟩
    (.other kindExpression 0)
  ⟨h.1.mpr ⟨0, Or.inr (Or.inr rfl)⟩, h.2.1 1⟩

/-- C24. `globalsWalker.EnterNode` only ever appends: the globals list after
the call has the list before the call as a prefix; it differs from it if and
only if the node is an `*assign.Assign` whose variable name starts with `$`,
and then it is the list before with that one name added at the end. -/
theorem globalsWalker_EnterNode_appends (variableOf : Nat → node.Node)
    (nameFn : node.Node → String) (gw : globalsWalker) (w : node.Node) :
    gw.globals <+: (globalsWalker.EnterNode variableOf nameFn gw w).2.globals ∧
    ((globalsWalker.EnterNode variableOf nameFn gw w).2.globals ≠ gw.globals ↔
      ∃ id, w = .other kindAssign id ∧
        strings.HasPrefix (nameFn (variableOf id)) "$" = true) ∧
    (∀ id : Nat, w = .other kindAssign id →
      strings.HasPrefix (nameFn (variableOf id)) "$" = true →
      (globalsWalker.EnterNode variableOf nameFn gw w).2.globals =
        gw.globals ++ [nameFn (variableOf id)]) := by
  cases w with
  | nil => simp [globalsWalker.EnterNode]
  | BooleanNot n => simp [globalsWalker.EnterNode]
  | Exit n => simp [globalsWalker.EnterNode]
  | other kind id =>
    rw [globalsWalker_EnterNode_other]
    have hd : ¬ (kindAssign = kindRoot ∨ kindAssign = kindStmtList ∨
        kindAssign = kindExpression) := by decide
    by_cases h : kind = kindRoot ∨ kind = kindStmtList ∨ kind = kindExpression
    · rw [if_pos h]
      refine ⟨List.prefix_refl _, ?_, ?_⟩
      · constructor
        · intro hne
          exact absurd rfl hne
        · rintro ⟨id2, h2, _⟩
          simp only [node.Node.other.injEq] at h2
          exact absurd (h2.1 ▸ h) hd
      · intro id2 h2
        simp only [node.Node.other.injEq] at h2
        exact absurd (h2.1 ▸ h) hd
    · rw [if_neg h]
      by_cases h2 : kind = kindAssign ∧ strings.HasPrefix (nameFn (variableOf id)) "$" = true
      · rw [if_pos h2]
        refine ⟨List.prefix_append _ _, ?_, ?_⟩
        · constructor
          · intro _
            exact ⟨id, by rw [h2.1], h2.2⟩
          · intro _
            simp
        · intro id2 h3 _
          simp only [node.Node.other.injEq] at h3
          rw [h3.2]
      · rw [if_neg h2]
        refine ⟨List.prefix_refl _, ?_, ?_⟩
        · constructor
          · intro hne
            exact absurd rfl hne
          · rintro ⟨id2, h3, h4⟩
            simp only [node.Node.other.injEq] at h3
            exact absurd ⟨h3.1, h3.2 ▸ h4⟩ h2
        · intro id2 h3 h4
          simp only [node.Node.other.injEq] at h3
          exact absurd ⟨h3.1, h3.2 ▸ h4⟩ h2

/-- Witness of C24: on the assignment `$x = ...` the walker with globals
`[$cond]` has globals `[$cond, $x]` afterwards. -/
theorem globalsWalker_EnterNode_appends_witness :
    (globalsWalker.EnterNode (fun _ => node.Node.nil) (fun _ => "$x") ⟨["$cond"]⟩
      (.other kindAssign 1)).2.globals = ["$cond", "$x"] :=
  (globalsWalker_EnterNode_appends (fun _ => node.Node.nil) (fun _ => "$x") ⟨["$cond"]⟩
    (.other kindAssign 1)).2.2 1 rfl (by decide)

/-! ## `makeType` never gives an empty set for a non-empty text -/

theorem trimPrefix_data_subset (s pre : String) :
    ∀ c ∈ (strings.TrimPrefix s pre).data, c ∈ s.data := by
  intro c hc
  unfold strings.TrimPrefix at hc
  split at hc
  · exact List.mem_of_mem_drop hc
  · exact hc

/-- C23. For every non-empty `typ`, `makeType(typ).Types` is non-empty; the
type set is empty exactly for the empty string. A non-empty input without `|`
yields exactly one atom, the text left after removing one leading `precise `,
and `precise ` alone yields the single atom `""`. -/
theorem makeType_types_nonempty (typ : String) :
    (typ ≠ "" → (makeType typ).Types.Nonempty) ∧
    ((makeType typ).Types = ∅ ↔ typ = "") ∧
    (typ ≠ "" → '|' ∉ typ.data →
      (makeType typ).Types = {strings.TrimPrefix typ "precise "} ∧
      (makeType typ).Types.card = 1) ∧
    (makeType "precise ").Types = {""} := by
  have hne : typ ≠ "" → (makeType typ).Types.Nonempty := by
    intro h
    cases hs : strings.splitChars '|' (strings.TrimPrefix typ "precise ").data with
    | nil => exact absurd hs (splitChars_ne_nil _ _)
    | cons p rest =>
      refine ⟨String.mk p, ?_⟩
      rw [makeType_types_of_ne typ h, hs]
      simp
  refine ⟨hne, ?_, ?_, by decide⟩
  · constructor
    · intro he
      by_contra h
      exact (Finset.nonempty_iff_ne_empty.mp (hne h)) he
    · intro h
      subst h
      simp [makeType]
  · intro h hbar
    have hno : '|' ∉ (strings.TrimPrefix typ "precise ").data :=
      fun hc => hbar (trimPrefix_data_subset typ _ _ hc)
    have hT : (makeType typ).Types = {strings.TrimPrefix typ "precise "} := by
      ext t
      rw [makeType_types_of_ne typ h, splitChars_of_not_mem _ _ hno]
      simp only [List.mem_singleton, Finset.mem_singleton]
      constructor
      · intro ht
        exact String.ext ht
      · intro ht
        rw [ht]
    exact ⟨hT, by rw [hT, Finset.card_singleton]⟩

/-- Witness of C23: `int`, a text without `|`, yields the one atom `int`. -/
theorem makeType_types_nonempty_witness :
    (makeType "int").Types = {strings.TrimPrefix "int" "precise "} :=
  ((makeType_types_nonempty "int").2.2.1 (by decide) (by decide)).1

end Noverify
